import Mathlib

/-!
Transfer interception of the asset/ft module: rate shares, deterministic iteration, the
transfer hook, the balance-store keys and the upgrade scheduler.

A shallow embedding of `x/asset/ft/keeper/before_send.go` and of `AddressFromBalancesStore` of
`x/asset/ft/types/keys.go`.  The handler of the upgrade request is not among the sources; it is
modelled from the specification, and every definition of that kind says so.

Modelling choices.

* `sdk.Int` wraps an arbitrary-precision `big.Int`; amounts are mathematical integers (`Int`).
  The SDK panics when an integer leaves its 256-bit range.  For the rate calculator these
  panics are part of the model: `CalculateRateSharesChecked` is the method with them, and
  `CalculateRateShares` is the map that the method returns when it does not panic.  The
  grouping and the hook are described for runs without such a panic.
* The panics of `sdk.MustAccAddressFromBech32` and of `sdk.NewCoin` in the hook, and those of an
  index or slice out of range in the keys, are part of the model: a run ends with `nil`, with
  an error or with a panic.
* `sdk.Dec` is the fixed-point decimal of the SDK: the value `v` is stored as the integer
  `v * 10^18`.  `MulInt`, `QuoInt`, `Ceil` and `RoundInt` act on that stored integer the way the
  SDK does (`QuoInt` is the truncated `big.Int` quotient of the stored integer).  A nil `Dec`
  (the `IsNil` case) is `none : Option Dec`.
* A Go `map[string]V` is the list of its entries in the order in which `range` happens to visit
  them; no two entries of a map share a key (`NodupKeys`).  The order is arbitrary, so the
  statements below quantify over every such list.
* Go strings are compared bytewise; on UTF-8 text this is the lexicographic order of the code
  points, which is the order of `String`.
-/

set_option exponentiation.threshold 512

namespace Coreum

/-! ## Go maps -/

/-- A Go `map[string]V`: its entries, in the order a `range` loop visits them. -/
abbrev GoMap (V : Type) := List (String × V)

/-- The keys of a map, in traversal order. -/
def mapKeys {V : Type} (m : GoMap V) : List String := m.map Prod.fst

/-- No key occurs twice: the well-formedness of a Go map. -/
def NodupKeys {V : Type} (m : GoMap V) : Prop := (mapKeys m).Nodup

instance decidableNodupKeys {V : Type} (m : GoMap V) : Decidable (NodupKeys m) :=
  inferInstanceAs (Decidable (mapKeys m).Nodup)

/-- The two-valued map read `v, ok := m[key]`. -/
def mapLookup {V : Type} : GoMap V → String → Option V
  | [], _ => none
  | (k, v) :: rest, key => if k = key then some v else mapLookup rest key

/-- The map read `m[key]`, which gives the zero value of `V` for a missing key. -/
def mapGet {V : Type} [Inhabited V] (m : GoMap V) (key : String) : V :=
  (mapLookup m key).getD default

/-- The map write `m[key] = v`. -/
def mapSet {V : Type} : GoMap V → String → V → GoMap V
  | [], key, v => [(key, v)]
  | (k, w) :: rest, key, v => if k = key then (k, v) :: rest else (k, w) :: mapSet rest key v

/-- The type `accountOperationMap` of the keeper: account address to amount. -/
abbrev accountOperationMap := GoMap Int

/-! ## sdk.Dec -/

/-- The constant `precisionReuse` of the SDK decimal: `10^18`. -/
def precisionReuse : Int := 1000000000000000000

/-- The constant `fivePrecision` of the SDK decimal: half of `precisionReuse`. -/
def fivePrecision : Int := 500000000000000000

/-- A non-nil `sdk.Dec`: the field `i` holds the value times `10^18`. -/
structure Dec where
  i : Int
  deriving DecidableEq, Repr

/-- The constructor `NewDecFromBigInt`: the decimal with integer value `n`. -/
def NewDecFromBigInt (n : Int) : Dec := ⟨n * precisionReuse⟩

/-- The method `Dec.IsPositive`: the stored integer has sign `+1`. -/
def Dec.IsPositive (d : Dec) : Bool := decide (0 < d.i)

/-- The method `Dec.MulInt`: the stored integer times the `sdk.Int`. -/
def Dec.MulInt (d : Dec) (n : Int) : Dec := ⟨d.i * n⟩

/-- The method `Dec.QuoInt`: `big.Int.Quo` of the stored integer, which truncates toward zero.
(`big.Int.Quo` panics on a zero divisor; `CalculateRateShares` divides by a positive sum only.) -/
def Dec.QuoInt (d : Dec) (n : Int) : Dec := ⟨Int.tdiv d.i n⟩

/-- The method `Dec.Ceil`: by `QuoRem` against `precisionReuse`, adding one when the remainder is
positive. -/
def Dec.Ceil (d : Dec) : Dec :=
  let quo := Int.tdiv d.i precisionReuse
  let rem := Int.tmod d.i precisionReuse
  if rem = 0 then NewDecFromBigInt quo
  else if rem < 0 then NewDecFromBigInt quo
  else NewDecFromBigInt (quo + 1)

/-- The body of `chopPrecisionAndRound` for a non-negative stored integer: banker's rounding. -/
def chopPrecisionAndRoundNonneg (d : Int) : Int :=
  let quo := Int.tdiv d precisionReuse
  let rem := Int.tmod d precisionReuse
  if rem = 0 then quo
  else if rem < fivePrecision then quo
  else if fivePrecision < rem then quo + 1
  else if quo % 2 = 0 then quo
  else quo + 1

/-- The function `chopPrecisionAndRound`: a negative argument is negated, rounded and negated
back. -/
def chopPrecisionAndRound (d : Int) : Int :=
  if d < 0 then -(chopPrecisionAndRoundNonneg (-d)) else chopPrecisionAndRoundNonneg d

/-- The method `Dec.RoundInt`. -/
def Dec.RoundInt (d : Dec) : Int := chopPrecisionAndRound d.i

/-! ## The context purposes -/

/-- Modelled from the spec: the purpose tags of the package `wibctransfertypes`, whose source is
missing.  A batch may be tagged as an inbound cross-chain transfer, as an acknowledgement of
one, or as a timeout of one; the three fields are what `IsPurposeIn`, `IsPurposeAck` and
`IsPurposeTimeout` read off the context. -/
structure Context where
  purposeIn : Bool
  purposeAck : Bool
  purposeTimeout : Bool
  deriving DecidableEq, Repr

/-- Modelled from the spec: `wibctransfertypes.IsPurposeIn`, the batch is an inbound cross-chain
transfer. -/
def IsPurposeIn (ctx : Context) : Bool := ctx.purposeIn

/-- Modelled from the spec: `wibctransfertypes.IsPurposeAck`, the batch rolls back a cross-chain
transfer after an acknowledgement. -/
def IsPurposeAck (ctx : Context) : Bool := ctx.purposeAck

/-- Modelled from the spec: `wibctransfertypes.IsPurposeTimeout`, the batch rolls back a
cross-chain transfer after a timeout. -/
def IsPurposeTimeout (ctx : Context) : Bool := ctx.purposeTimeout

/-- A context that carries none of the three purposes. -/
def NoIBCPurpose (ctx : Context) : Prop :=
  IsPurposeIn ctx = false ∧ IsPurposeAck ctx = false ∧ IsPurposeTimeout ctx = false

instance decidableNoIBCPurpose (ctx : Context) : Decidable (NoIBCPurpose ctx) :=
  inferInstanceAs (Decidable
    (IsPurposeIn ctx = false ∧ IsPurposeAck ctx = false ∧ IsPurposeTimeout ctx = false))

/-! ## The rate calculator -/

/-- The function `nonIssuerSum`: the sum of the amounts of all accounts other than the issuer. -/
def nonIssuerSum (ops : accountOperationMap) (issuer : String) : Int :=
  ops.foldl (fun sum e => if e.1 ≠ issuer then sum + e.2 else sum) 0

/-- The value of the expression
`rate.MulInt(minNonIssuer.Mul(amount)).QuoInt(inputSumNonIssuer).Ceil().RoundInt()` of
`CalculateRateShares` when none of its operations overflows; `finalShareChecked` is the
expression with the overflow panics. -/
def finalShare (rate : Dec) (minNonIssuer inputSumNonIssuer amount : Int) : Int :=
  (((rate.MulInt (minNonIssuer * amount)).QuoInt inputSumNonIssuer).Ceil).RoundInt

/-- The method `CalculateRateShares` without the overflow panics of the SDK: the map that the
method returns when it returns (`CalculateRateSharesChecked` is the method with the panics).
The result `nil` and the empty map are both `[]`. -/
def CalculateRateShares (ctx : Context) (rate : Option Dec) (issuer : String)
    (inOps outOps : accountOperationMap) : accountOperationMap :=
  if IsPurposeIn ctx then []
  else if IsPurposeAck ctx then []
  else if IsPurposeTimeout ctx then []
  else
    match rate with
    | none => []
    | some rate =>
      if !rate.IsPositive then []
      else
        let inputSumNonIssuer := nonIssuerSum inOps issuer
        let outputSumNonIssuer := nonIssuerSum outOps issuer
        let minNonIssuer :=
          if outputSumNonIssuer < inputSumNonIssuer then outputSumNonIssuer else inputSumNonIssuer
        if ¬ 0 < minNonIssuer then []
        else
          inOps.foldl
            (fun shares e =>
              if e.1 = issuer then shares
              else mapSet shares e.1 (finalShare rate minNonIssuer inputSumNonIssuer e.2))
            []

/-- The loop `for account, amount := range inOps` of `CalculateRateShares`, started from the
map `shares`, with `f amount` standing for the share computed from an amount. -/
def shareLoop (f : Int → Int) (issuer : String) (shares : accountOperationMap)
    (inOps : accountOperationMap) : accountOperationMap :=
  inOps.foldl (fun shares e => if e.1 = issuer then shares else mapSet shares e.1 (f e.2)) shares

/-- The rational value of a decimal: the stored integer over `10^18`. -/
def Dec.toRat (d : Dec) : ℚ := (d.i : ℚ) / 1000000000000000000

/-- The sum of the amounts of a map. -/
def sumAmounts (ops : accountOperationMap) : Int := (ops.map Prod.snd).sum

/-- The entries of a map that do not belong to the issuer. -/
def nonIssuerEntries (ops : accountOperationMap) (issuer : String) : accountOperationMap :=
  ops.filter (fun e => decide (e.1 ≠ issuer))

/-- The quantities `inSum` and `outSum` of the specification: the sum of the amounts over all
accounts other than the issuer. -/
def nonIssuerTotal (ops : accountOperationMap) (issuer : String) : Int :=
  sumAmounts (nonIssuerEntries ops issuer)

/-- The base of the proportional split: `min(inSum, outSum)` over the non-issuer accounts. -/
def rateBase (issuer : String) (inOps outOps : accountOperationMap) : Int :=
  min (nonIssuerTotal inOps issuer) (nonIssuerTotal outOps issuer)

/-! ## Deterministic iteration -/

/-- The comparison `a < b` of two Go strings, on their characters: lexicographic. -/
def lessChars : List Char → List Char → Bool
  | [], [] => false
  | [], _ :: _ => true
  | _ :: _, [] => false
  | a :: as, b :: bs =>
    if a.toNat < b.toNat then true
    else if b.toNat < a.toNat then false
    else lessChars as bs

/-- The comparison `keys[i] < keys[j]` handed to `sort.Slice`. -/
def stringLess (a b : String) : Bool := lessChars a.toList b.toList

/-- The library call `sort.Slice(keys, less)`: the keys put in order of `less`. -/
def sortSlice (less : String → String → Bool) (keys : List String) : List String :=
  List.insertionSort (fun a b => less b a = false) keys

/-- The function `sortedKeys`: the keys of the map, collected by a `range` loop and sorted. -/
def sortedKeys {V : Type} (m : GoMap V) : List String :=
  sortSlice stringLess (mapKeys m)

/-- A callback `fn func(key string, value V) error` with its effect on a state `σ`: the state
after the call, and the returned error (`none` for `nil`). -/
abbrev Callback (V σ ε : Type) := String → V → σ → σ × Option ε

/-- The loop `for _, key := range keys` of `iterateMapDeterministic`, with its early return. -/
def iterateKeys {V σ ε : Type} [Inhabited V] (m : GoMap V) (fn : Callback V σ ε) :
    List String → σ → σ × Option ε
  | [], s => (s, none)
  | key :: rest, s =>
    let v := mapGet m key
    match fn key v s with
    | (s1, some err) => (s1, some err)
    | (s1, none) => iterateKeys m fn rest s1

/-- The function `iterateMapDeterministic`. -/
def iterateMapDeterministic {V σ ε : Type} [Inhabited V] (m : GoMap V) (fn : Callback V σ ε)
    (s : σ) : σ × Option ε :=
  iterateKeys m fn (sortedKeys m) s

/-- One recorded call of a callback: key, value and the error it returned. -/
structure Call (V ε : Type) where
  key : String
  value : V
  err : Option ε
  deriving DecidableEq, Repr

/-- A callback instrumented to append each of its calls to a log kept next to the state. -/
def recordCalls {V σ ε : Type} (fn : Callback V σ ε) : Callback V (σ × List (Call V ε)) ε :=
  fun key v st =>
    let r := fn key v st.1
    ((r.1, st.2 ++ [⟨key, v, r.2⟩]), r.2)

/-- The calls of `fn` that `iterateMapDeterministic` makes from the state `s`, in the order in
which it makes them. -/
def callsMade {V σ ε : Type} [Inhabited V] (m : GoMap V) (fn : Callback V σ ε) (s : σ) :
    List (Call V ε) :=
  (iterateMapDeterministic m (recordCalls fn) (s, [])).1.2

/-- A callback that counts its calls in the state and fails on one key. -/
def failOn (key : String) : Callback Int Nat String :=
  fun k _ s => (s + 1, if k = key then some "fail" else none)

/-- The context of an ordinary transfer: no purpose is set. -/
def plainContext : Context := ⟨false, false, false⟩

/-- The rate of ten percent. -/
def tenPercent : Dec := ⟨100000000000000000⟩

/-- The smallest positive rate, `10^-18`. -/
def smallestRate : Dec := ⟨1⟩

/-! ## The transfer hook

The collaborators of the keeper (the token registry, the balance guard, the bank keeper) and the
SDK helpers that `applyRules` calls are parameters of the model: they are the fields of
`Keeper`.  A run ends with `nil` (`none`), with a returned error or with a panic. -/

/-- How a run is cut short: by a returned Go error or by a panic. -/
inductive Abort (ε : Type) where
  | error (e : ε)
  | panic
  deriving DecidableEq, Repr

/-- Modelled from the spec: the features of a token (the declaration `types.Feature` is
missing): minting, burning, freezing, whitelisting and the gated feature, IBC. -/
inductive Feature where
  | minting
  | burning
  | freezing
  | whitelisting
  | ibc
  deriving DecidableEq, Repr

/-- Modelled from the spec: the token definition (the declaration `types.Definition` is
missing): identifier, issuer account, feature set, burn rate, send-commission rate, version.
The zero value has empty strings, no features and nil rates. -/
structure Definition where
  Denom : String
  Issuer : String
  Features : List Feature
  BurnRate : Option Dec
  SendCommissionRate : Option Dec
  Version : Nat
  deriving DecidableEq, Repr

/-- A coin `sdk.Coin`: denom and amount. -/
abbrev Coin := String × Int

/-- The slice type `sdk.Coins`. -/
abbrev Coins := List Coin

/-- The type `banktypes.Input`. -/
structure Input where
  Address : String
  Coins : Coins
  deriving DecidableEq, Repr

/-- The type `banktypes.Output`. -/
structure Output where
  Address : String
  Coins : Coins
  deriving DecidableEq, Repr

/-- The type `groupedByDenomAccountOperations`: denom to account operations. -/
abbrev groupedByDenomAccountOperations := GoMap accountOperationMap

/-- The method `groupedByDenomAccountOperations.add`.  A denom that is not yet a key starts from
the empty map, an address that is not yet a key from the amount zero: the zero values that
`mapGet` gives. -/
def groupedByDenomAccountOperations.add (g : groupedByDenomAccountOperations) (address : String)
    (coins : Coins) : groupedByDenomAccountOperations :=
  coins.foldl
    (fun g coin =>
      let accountBalances := mapGet g coin.1
      let oldAmount := mapGet accountBalances address
      mapSet g coin.1 (mapSet accountBalances address (oldAmount + coin.2)))
    g

/-- The loop of `applyFeatures` that groups the inputs. -/
def groupInputs (inputs : List Input) : groupedByDenomAccountOperations :=
  inputs.foldl (fun g i => g.add i.Address i.Coins) []

/-- The loop of `applyFeatures` that groups the outputs. -/
def groupOutputs (outputs : List Output) : groupedByDenomAccountOperations :=
  outputs.foldl (fun g o => g.add o.Address o.Coins) []

/-- The keeper and what it calls, over a store `σ`, Go errors `ε` and account addresses `A`.
`accAddressFromBech32` is `none` where `sdk.AccAddressFromBech32` returns an error, so that
`sdk.MustAccAddressFromBech32` panics; `validateDenom` is `sdk.ValidateDenom`; `GetDefinition`
reads the store and returns a definition and an error; `isErrInvalidDenom` and
`isErrTokenNotFound` are `types.ErrInvalidDenom.Is` and `types.ErrTokenNotFound.Is`; the last
four fields are the calls that act on the store. -/
structure Keeper (σ ε A : Type) where
  accAddressFromBech32 : String → Option A
  accAddressString : A → String
  validateDenom : String → Bool
  GetDefinition : String → σ → Definition × Option ε
  isErrInvalidDenom : ε → Bool
  isErrTokenNotFound : ε → Bool
  burnIfSpendable : A → Definition → Int → σ → σ × Option ε
  SendCoins : A → A → Coins → σ → σ × Option ε
  isCoinSpendable : A → Definition → Int → σ → σ × Option ε
  isCoinReceivable : A → Definition → Int → σ → σ × Option ε

/-- The result of a collaborator as the result of a run: an error is returned as it is. -/
def returned {σ ε : Type} (r : σ × Option ε) : σ × Option (Abort ε) :=
  (r.1, r.2.map Abort.error)

/-- The constructor `sdk.NewCoin`: it panics (`none`) on an invalid denom or a negative
amount. -/
def NewCoin {σ ε A : Type} (k : Keeper σ ε A) (denom : String) (amount : Int) : Option Coin :=
  if k.validateDenom denom = true ∧ 0 ≤ amount then some (denom, amount) else none

/-- The constructor `sdk.NewCoins`, as it is used on one valid coin: zero coins are removed. -/
def NewCoins (coins : List Coin) : Coins :=
  coins.filter (fun coin => decide (coin.2 ≠ 0))

/-- The callback of `applyRules` over the burn shares. -/
def burnCallback {σ ε A : Type} (k : Keeper σ ε A) (definition : Definition) :
    Callback Int σ (Abort ε) :=
  fun account amount s =>
    match k.accAddressFromBech32 account with
    | none => (s, some Abort.panic)
    | some address => returned (k.burnIfSpendable address definition amount s)

/-- The callback of `applyRules` over the commission shares. -/
def commissionCallback {σ ε A : Type} (k : Keeper σ ε A) (definition : Definition) (issuer : A) :
    Callback Int σ (Abort ε) :=
  fun account amount s =>
    match NewCoin k definition.Denom amount with
    | none => (s, some Abort.panic)
    | some coin =>
      let coins := NewCoins [coin]
      match k.accAddressFromBech32 account with
      | none => (s, some Abort.panic)
      | some address => returned (k.SendCoins address issuer coins s)

/-- The callback of `applyRules` over the inputs. -/
def spendableCallback {σ ε A : Type} (k : Keeper σ ε A) (definition : Definition) :
    Callback Int σ (Abort ε) :=
  fun account amount s =>
    match k.accAddressFromBech32 account with
    | none => (s, some Abort.panic)
    | some address => returned (k.isCoinSpendable address definition amount s)

/-- The callback of `applyRules` over the outputs. -/
def receivableCallback {σ ε A : Type} (k : Keeper σ ε A) (definition : Definition) :
    Callback Int σ (Abort ε) :=
  fun account amount s =>
    match k.accAddressFromBech32 account with
    | none => (s, some Abort.panic)
    | some address => returned (k.isCoinReceivable address definition amount s)

/-- The test `types.ErrInvalidDenom.Is(err) || types.ErrTokenNotFound.Is(err)` of `applyRules`;
it is false on a nil error. -/
def isUnmanaged {σ ε A : Type} (k : Keeper σ ε A) (err : Option ε) : Bool :=
  match err with
  | none => false
  | some e => k.isErrInvalidDenom e || k.isErrTokenNotFound e

/-- The Go idiom `if err := step; err != nil { return err }` followed by the rest of the
function: `r` is the result of the step, `next` the rest. -/
def andThen {σ ε : Type} (r : σ × Option ε) (next : σ → σ × Option ε) : σ × Option ε :=
  match r.2 with
  | some err => (r.1, some err)
  | none => next r.1

/-- The steps of `applyRules` for one token after its definition is resolved. -/
def applyRulesToken {σ ε A : Type} (k : Keeper σ ε A) (ctx : Context) (definition : Definition)
    (inOps outOps : accountOperationMap) (s : σ) : σ × Option (Abort ε) :=
  let burnShares :=
    CalculateRateShares ctx definition.BurnRate definition.Issuer inOps outOps
  andThen (iterateMapDeterministic burnShares (burnCallback k definition) s) fun s1 =>
    let commissionShares :=
      CalculateRateShares ctx definition.SendCommissionRate definition.Issuer inOps outOps
    match k.accAddressFromBech32 definition.Issuer with
    | none => (s1, some Abort.panic)
    | some issuer =>
      andThen
        (iterateMapDeterministic commissionShares (commissionCallback k definition issuer) s1)
        fun s2 =>
          andThen (iterateMapDeterministic inOps (spendableCallback k definition) s2) fun s3 =>
            iterateMapDeterministic outOps (receivableCallback k definition) s3

/-- The callback that `applyRules` hands to `iterateMapDeterministic` over the inputs. -/
def applyRulesDenom {σ ε A : Type} (k : Keeper σ ε A) (ctx : Context)
    (outputs : groupedByDenomAccountOperations) : Callback accountOperationMap σ (Abort ε) :=
  fun denom inOps s =>
    let lookup := k.GetDefinition denom s
    if isUnmanaged k lookup.2 = true then (s, none)
    else applyRulesToken k ctx lookup.1 inOps (mapGet outputs denom) s

/-- The method `applyRules`. -/
def applyRules {σ ε A : Type} (k : Keeper σ ε A) (ctx : Context)
    (inputs outputs : groupedByDenomAccountOperations) (s : σ) : σ × Option (Abort ε) :=
  iterateMapDeterministic inputs (applyRulesDenom k ctx outputs) s

/-- The method `applyFeatures`. -/
def applyFeatures {σ ε A : Type} (k : Keeper σ ε A) (ctx : Context) (inputs : List Input)
    (outputs : List Output) (s : σ) : σ × Option (Abort ε) :=
  applyRules k ctx (groupInputs inputs) (groupOutputs outputs) s

/-- The method `BeforeSendCoins`. -/
def BeforeSendCoins {σ ε A : Type} (k : Keeper σ ε A) (ctx : Context)
    (fromAddress toAddress : A) (coins : Coins) (s : σ) : σ × Option (Abort ε) :=
  applyFeatures k ctx [⟨k.accAddressString fromAddress, coins⟩]
    [⟨k.accAddressString toAddress, coins⟩] s

/-- The method `BeforeInputOutputCoins`. -/
def BeforeInputOutputCoins {σ ε A : Type} (k : Keeper σ ε A) (ctx : Context)
    (inputs : List Input) (outputs : List Output) (s : σ) : σ × Option (Abort ε) :=
  applyFeatures k ctx inputs outputs s

/-- A call of the keeper that acts on the store, with its arguments. -/
inductive KeeperCall (A : Type) where
  | burnIfSpendable (account : A) (definition : Definition) (amount : Int)
  | SendCoins (fromAddress toAddress : A) (coins : Coins)
  | isCoinSpendable (account : A) (definition : Definition) (amount : Int)
  | isCoinReceivable (account : A) (definition : Definition) (amount : Int)
  deriving DecidableEq, Repr

/-- One recorded call of the keeper and the error it returned. -/
structure KeeperLogEntry (ε A : Type) where
  call : KeeperCall A
  err : Option ε
  deriving DecidableEq, Repr

/-- A keeper instrumented to append each call that acts on the store to a log kept next to the
store.  Reading a definition is not recorded. -/
def recordKeeper {σ ε A : Type} (k : Keeper σ ε A) :
    Keeper (σ × List (KeeperLogEntry ε A)) ε A where
  accAddressFromBech32 := k.accAddressFromBech32
  accAddressString := k.accAddressString
  validateDenom := k.validateDenom
  GetDefinition := fun denom st => k.GetDefinition denom st.1
  isErrInvalidDenom := k.isErrInvalidDenom
  isErrTokenNotFound := k.isErrTokenNotFound
  burnIfSpendable := fun account definition amount st =>
    let r := k.burnIfSpendable account definition amount st.1
    ((r.1, st.2 ++ [⟨KeeperCall.burnIfSpendable account definition amount, r.2⟩]), r.2)
  SendCoins := fun fromAddress toAddress coins st =>
    let r := k.SendCoins fromAddress toAddress coins st.1
    ((r.1, st.2 ++ [⟨KeeperCall.SendCoins fromAddress toAddress coins, r.2⟩]), r.2)
  isCoinSpendable := fun account definition amount st =>
    let r := k.isCoinSpendable account definition amount st.1
    ((r.1, st.2 ++ [⟨KeeperCall.isCoinSpendable account definition amount, r.2⟩]), r.2)
  isCoinReceivable := fun account definition amount st =>
    let r := k.isCoinReceivable account definition amount st.1
    ((r.1, st.2 ++ [⟨KeeperCall.isCoinReceivable account definition amount, r.2⟩]), r.2)

/-- The calls that `applyFeatures` issues from the store `s`, in order, each with the error it
returned. -/
def keeperCalls {σ ε A : Type} (k : Keeper σ ε A) (ctx : Context) (inputs : List Input)
    (outputs : List Output) (s : σ) : List (KeeperLogEntry ε A) :=
  (applyFeatures (recordKeeper k) ctx inputs outputs (s, [])).1.2

/-- The denoms that a list of inputs carries. -/
def inputDenoms (inputs : List Input) : List String :=
  inputs.flatMap (fun i => i.Coins.map Prod.fst)

/-- Modelled from the spec: the ledger's two-party transfer (the wrapped bank keeper is
missing).  The hook is invoked before any coin movement; when it fails the transfer is not
made; otherwise the ledger moves the coins, which is the parameter `move`. -/
def sendCoinsWithHook {σ ε A : Type} (k : Keeper σ ε A) (ctx : Context)
    (move : A → A → Coins → σ → σ × Option ε) (fromAddress toAddress : A) (coins : Coins)
    (s : σ) : σ × Option (Abort ε) :=
  andThen (BeforeSendCoins k ctx fromAddress toAddress coins s) fun s1 =>
    returned (move fromAddress toAddress coins s1)

/-- A sample definition: the token `utoken-issuer` with a burn rate and a commission rate of
ten percent. -/
def sampleDefinition : Definition :=
  ⟨"utoken-issuer", "issuer", [Feature.burning], some tenPercent, some tenPercent, 1⟩

/-- The zero value of `types.Definition`. -/
def zeroDefinition : Definition := ⟨"", "", [], none, none, 0⟩

/-- A sample keeper over a store that counts the calls made: it knows the one token
`utoken-issuer`, finds no other, and refuses to let the account `frozen` spend. -/
def sampleKeeper : Keeper Nat String String where
  accAddressFromBech32 := fun address => if address = "" then none else some address
  accAddressString := fun address => address
  validateDenom := fun denom => decide (denom ≠ "")
  GetDefinition := fun denom _ =>
    if denom = "utoken-issuer" then (sampleDefinition, none)
    else (zeroDefinition, some "token not found")
  isErrInvalidDenom := fun e => decide (e = "invalid denom")
  isErrTokenNotFound := fun e => decide (e = "token not found")
  burnIfSpendable := fun _ _ _ s => (s + 1, none)
  SendCoins := fun _ _ _ s => (s + 1, none)
  isCoinSpendable := fun account _ _ s =>
    (s + 1, if account = "frozen" then some "insufficient funds" else none)
  isCoinReceivable := fun _ _ _ s => (s + 1, none)

/-- A sample ledger movement: it counts as one more call on the store. -/
def sampleMove : String → String → Coins → Nat → Nat × Option String :=
  fun _ _ _ s => (s + 1, none)

/-- The amounts of the coins of one denom in a list of coins, in order. -/
def coinAmounts (coins : Coins) (denom : String) : List Int :=
  (coins.filter (fun c => decide (c.1 = denom))).map Prod.snd

/-- The amounts of all coins of one denom over all entries with one address, in order. -/
def carriedAmounts (entries : List (String × Coins)) (denom address : String) : List Int :=
  (entries.filter (fun e => decide (e.1 = address))).flatMap (fun e => coinAmounts e.2 denom)

/-- The grouping loop of `applyFeatures` on a list of (address, coins) entries, started from the
grouped map `g`. -/
def groupOperations (g : groupedByDenomAccountOperations) (entries : List (String × Coins)) :
    groupedByDenomAccountOperations :=
  entries.foldl (fun g e => g.add e.1 e.2) g

/-- The two-level read `g[denom][address]` with its presence flag. -/
def lookupAmount (g : groupedByDenomAccountOperations) (denom address : String) : Option Int :=
  (mapLookup g denom).bind (fun balances => mapLookup balances address)

/-- What it means for the grouped map `g` to hold the gross amounts of `entries`: the maps are
well formed; a denom is a key exactly when some entry carries a coin of it; an address is a key
under a denom exactly when one of its entries carries a coin of that denom; the stored amount
is the sum of the amounts of all those coins. -/
def GroupsGrossAmounts (entries : List (String × Coins))
    (g : groupedByDenomAccountOperations) : Prop :=
  NodupKeys g ∧
  (∀ denom, NodupKeys (mapGet g denom)) ∧
  (∀ denom, denom ∈ mapKeys g ↔ ∃ e ∈ entries, ∃ c ∈ e.2, c.1 = denom) ∧
  (∀ denom address, address ∈ mapKeys (mapGet g denom)
    ↔ ∃ e ∈ entries, e.1 = address ∧ ∃ c ∈ e.2, c.1 = denom) ∧
  (∀ denom address, mapGet (mapGet g denom) address = (carriedAmounts entries denom address).sum)

/-- A log segment in which only the last call may have failed, and has failed exactly when the
run that wrote it returned an error, which is then the error of that call. -/
def FailsLast {ε A : Type} (calls : List (KeeperLogEntry ε A)) (r : Option (Abort ε)) : Prop :=
  (∀ e, r = some (Abort.error e) →
    ∃ pre c, calls = pre ++ [c] ∧ c.err = some e ∧ ∀ d ∈ pre, d.err = none) ∧
  ((∀ e, r ≠ some (Abort.error e)) → ∀ c ∈ calls, c.err = none)

/-- The run `f` over a store with a log is the run `g` over the bare store, and what it appends
to the log is a segment in which only the last call may have failed. -/
def Instruments {σ ε A : Type}
    (f : σ × List (KeeperLogEntry ε A) → (σ × List (KeeperLogEntry ε A)) × Option (Abort ε))
    (g : σ → σ × Option (Abort ε)) : Prop :=
  ∀ s log, ∃ calls, f (s, log) = (((g s).1, log ++ calls), (g s).2) ∧ FailsLast calls (g s).2

/-! ## Store keys -/

/-- A byte. -/
abbrev Byte := Fin 256

/-- The Go index expression `key[i]`; `none` is the run-time panic of an index out of range. -/
def goIndex (key : List Byte) (i : Int) : Option Byte :=
  if 0 ≤ i ∧ i < (key.length : Int) then key.get? i.toNat else none

/-- The Go slice expression `key[lo:hi]`; `none` is the run-time panic of bounds out of range.
The upper bound is checked against the length, which is at most the capacity Go checks. -/
def goSlice (key : List Byte) (lo hi : Int) : Option (List Byte) :=
  if 0 ≤ lo ∧ lo ≤ hi ∧ hi ≤ (key.length : Int) then
    some ((key.drop lo.toNat).take (hi - lo).toNat)
  else none

/-- The function `AddressFromBalancesStore`.  The error value `ErrInvalidKey`, declared outside
the file, is a parameter; `none` is a run-time panic. -/
def AddressFromBalancesStore {ε : Type} (ErrInvalidKey : ε) (key : List Byte) :
    Option (Except ε (List Byte)) :=
  if key.length = 0 then some (Except.error ErrInvalidKey)
  else
    match goIndex key 0 with
    | none => none
    | some addrLen =>
      let bound : Int := (addrLen.val : Int)
      if (key.length : Int) - 1 < bound then some (Except.error ErrInvalidKey)
      else (goSlice key 1 (bound + 1)).map Except.ok

/-! ## The upgrade scheduler -/

/-- Modelled from the spec: the pending upgrade record (the keeper of the upgrade and its types
are missing): token identifier, requested IBC-enable flag, start time, end time. -/
structure PendingUpgrade where
  denom : String
  ibcEnabled : Bool
  startTime : Int
  endTime : Int
  deriving DecidableEq, Repr

/-- Modelled from the spec: the upgrade status that `GetUpgradeStatus` returns (the keeper of the
upgrade is missing): the IBC-enable flag, start time and end time. -/
structure UpgradeStatus where
  ibcEnabled : Bool
  startTime : Int
  endTime : Int
  deriving DecidableEq, Repr

/-- Modelled from the spec: the upgrade parameters read from the parameter store (their
declaration is missing): the grace period and the decision timeout. -/
structure UpgradeParams where
  gracePeriod : Int
  decisionTimeout : Int
  deriving DecidableEq, Repr

/-- Modelled from the spec: what the store holds for one token (the keeper of the upgrade is
missing): its definition, its pending upgrade record if any, its upgrade status if any. -/
structure TokenState where
  definition : Definition
  pending : Option PendingUpgrade
  status : Option UpgradeStatus
  deriving DecidableEq, Repr

/-- Modelled from the spec: the errors of an upgrade request (their declarations are
missing). -/
inductive UpgradeError where
  | Unauthorized
  | UpgradeWindowClosed
  | UpgradeAlreadyPending
  | AlreadyUpgraded
  deriving DecidableEq, Repr

/-- Modelled from the spec: the three states of the state machine of a token (the keeper of the
upgrade is missing). -/
inductive SchedulerState where
  | V0Unrestricted
  | V0PendingUpgrade
  | V1Upgraded
  deriving DecidableEq, Repr

/-- Modelled from the spec: the state of the state machine that a stored token is in (the keeper
of the upgrade is missing): upgraded when its version is 1, else pending when a pending record
exists, else unrestricted. -/
def schedulerState (t : TokenState) : SchedulerState :=
  if 1 ≤ t.definition.Version then SchedulerState.V1Upgraded
  else if t.pending.isSome then SchedulerState.V0PendingUpgrade
  else SchedulerState.V0Unrestricted

/-- Modelled from the spec: enabling the gated feature (the keeper of the upgrade is missing):
the feature set with IBC added, a set with no duplicates. -/
def enableIBC (features : List Feature) : List Feature :=
  if Feature.ibc ∈ features then features else features ++ [Feature.ibc]

/-- Modelled from the spec: clearing the gated feature (the keeper of the upgrade is missing):
the feature set without IBC, every other feature kept. -/
def clearIBC (features : List Feature) : List Feature :=
  features.filter (fun f => decide (f ≠ Feature.ibc))

/-- Modelled from the spec: the pure function `effectiveState(record, now)` (the keeper of the
upgrade is missing).  A token with a pending record whose end time is reached, `now ≥ endTime`,
is flipped to version 1 with the requested feature and the record is cleared; any other token
is as it is stored. -/
def effectiveState (now : Int) (t : TokenState) : TokenState :=
  match schedulerState t, t.pending with
  | SchedulerState.V0PendingUpgrade, some record =>
    if record.endTime ≤ now then
      { definition :=
          { t.definition with
            Version := 1
            Features :=
              if record.ibcEnabled then enableIBC t.definition.Features
              else clearIBC t.definition.Features }
        pending := none
        status := t.status }
    else t
  | _, _ => t

/-- Modelled from the spec: the query `GetToken` (the keeper of the upgrade is missing): the
definition, reflecting the lazily applied upgrade. -/
def GetToken (now : Int) (t : TokenState) : Definition :=
  (effectiveState now t).definition

/-- Modelled from the spec: a sequence of observations of a token at the given block times (the
keeper of the upgrade is missing): each one applies the upgrade that is due. -/
def observeAll (times : List Int) (t : TokenState) : TokenState :=
  times.foldl (fun st time => effectiveState time st) t

/-- Modelled from the spec: the handler of `RequestUpgrade(sender, tokenId, ibcEnabled)` at the
block time `now` (the keeper of the upgrade is missing).  The state of the token is the one in
effect at `now`.  An upgraded token fails with `AlreadyUpgraded`, a token with a pending upgrade
with `UpgradeAlreadyPending`.  On an unrestricted v0 token the request fails with
`Unauthorized` when the requester is not the issuer and with `UpgradeWindowClosed` when `now` is
at or after the decision timeout; with `ibcEnabled = false` it upgrades at once, clearing the
gated feature and recording a status with start time = end time = `now`; with
`ibcEnabled = true` it stores a pending record with end time `now + gracePeriod` and a status
with the same interval.  A failed request leaves the stored token as it was. -/
def requestUpgrade (params : UpgradeParams) (now : Int) (sender : String) (ibcEnabled : Bool)
    (t : TokenState) : TokenState × Option UpgradeError :=
  let current := effectiveState now t
  match schedulerState current with
  | SchedulerState.V1Upgraded => (t, some UpgradeError.AlreadyUpgraded)
  | SchedulerState.V0PendingUpgrade => (t, some UpgradeError.UpgradeAlreadyPending)
  | SchedulerState.V0Unrestricted =>
    if sender ≠ current.definition.Issuer then (t, some UpgradeError.Unauthorized)
    else if params.decisionTimeout ≤ now then (t, some UpgradeError.UpgradeWindowClosed)
    else if ibcEnabled then
      ({ definition := current.definition
         pending := some ⟨current.definition.Denom, true, now, now + params.gracePeriod⟩
         status := some ⟨true, now, now + params.gracePeriod⟩ }, none)
    else
      ({ definition :=
           { current.definition with
             Version := 1
             Features := clearIBC current.definition.Features }
         pending := none
         status := some ⟨false, now, now⟩ }, none)

/-- A sample v0 token with four features and no pending upgrade. -/
def sampleTokenV0 : TokenState :=
  ⟨⟨"ubbb-issuer", "issuer",
      [Feature.minting, Feature.freezing, Feature.whitelisting, Feature.burning], none, none, 0⟩,
    none, none⟩

/-- Sample parameters: a grace period of 15 and a decision timeout at 1000. -/
def sampleParams : UpgradeParams := ⟨15, 1000⟩

/-- Modelled from the spec: the state of the state machine in effect at the block time `now` (the
keeper of the upgrade is missing): the state of the token once the upgrade that is due is
applied. -/
def stateAt (now : Int) (t : TokenState) : SchedulerState :=
  schedulerState (effectiveState now t)

/-- The sample token after the issuer's request to upgrade with IBC at block time 100: the
upgrade is pending until 115. -/
def sampleTokenPending : TokenState :=
  (requestUpgrade sampleParams 100 "issuer" true sampleTokenV0).1

/-! ## The balance-store keys -/

/-- The constant `FrozenBalancesKeyPrefix`. -/
def FrozenBalancesKeyPrefix : List Byte := [3]

/-- The constant `WhitelistedBalancesKeyPrefix`. -/
def WhitelistedBalancesKeyPrefix : List Byte := [5]

/-- The Go conversion `byte(len(bz))`: the length of a byte string as one byte. -/
def lengthByte (bz : List Byte) : Byte := Fin.ofNat bz.length

/-- The SDK function `address.MustLengthPrefix`: the empty byte string is returned as it is, a
byte string of more than 255 bytes panics (`none`), any other is returned behind its one-byte
length. -/
def MustLengthPrefix (bz : List Byte) : Option (List Byte) :=
  if bz.length = 0 then some bz
  else if 255 < bz.length then none
  else some (lengthByte bz :: bz)

/-- The function `CreateFrozenBalancesKey`.  The helper `store.JoinKeys`, declared outside the
file, is a parameter. -/
def CreateFrozenBalancesKey (JoinKeys : List (List Byte) → List Byte) (addr : List Byte) :
    Option (List Byte) :=
  (MustLengthPrefix addr).map (fun prefixed => JoinKeys [FrozenBalancesKeyPrefix, prefixed])

/-- The function `CreateWhitelistedBalancesKey`.  The helper `store.JoinKeys`, declared outside
the file, is a parameter. -/
def CreateWhitelistedBalancesKey (JoinKeys : List (List Byte) → List Byte) (addr : List Byte) :
    Option (List Byte) :=
  (MustLengthPrefix addr).map (fun prefixed => JoinKeys [WhitelistedBalancesKeyPrefix, prefixed])

/-- A helper that joins keys by concatenation. -/
def concatKeys (keys : List (List Byte)) : List Byte := keys.foldr (fun key acc => key ++ acc) []

/-! ## Issuance: the feature list -/

/-- Modelled from the spec: the errors of the validation of a feature list at issuance (the
issuance handler and its message validation are missing). -/
inductive IssueError where
  | DuplicatedFeature
  | UnknownFeature
  deriving DecidableEq, Repr

/-- Modelled from the spec: the defined feature that a raw feature value of an issuance request
stands for (the declaration `types.Feature` is missing): the five features are numbered from 0
in the order minting, burning, freezing, whitelisting, ibc; every other value is outside the
defined features. -/
def featureOfValue (value : Int) : Option Feature :=
  if value = 0 then some Feature.minting
  else if value = 1 then some Feature.burning
  else if value = 2 then some Feature.freezing
  else if value = 3 then some Feature.whitelisting
  else if value = 4 then some Feature.ibc
  else none

/-- Modelled from the spec: the scan of the feature list at issuance (the validation of the
issuance message is missing), with the values seen so far: the list is read in order, a value
outside the defined features fails with `UnknownFeature`, a value already seen fails with
`DuplicatedFeature`. -/
def validateFeaturesFrom (seen : List Int) : List Int → Option IssueError
  | [] => none
  | value :: rest =>
    if (featureOfValue value).isNone then some IssueError.UnknownFeature
    else if value ∈ seen then some IssueError.DuplicatedFeature
    else validateFeaturesFrom (value :: seen) rest

/-- Modelled from the spec: the validation of the feature list of an issuance request (the
validation of the issuance message is missing): no unknown values, no duplicates. -/
def ValidateFeatures (features : List Int) : Option IssueError :=
  validateFeaturesFrom [] features

/-- Modelled from the spec: what issuing a token does with the feature list (the issuance
handler is missing): the request fails with the error of the validation, or the token gets the
features that the values stand for. -/
def IssueTokenFeatures (features : List Int) : Except IssueError (List Feature) :=
  match ValidateFeatures features with
  | some err => Except.error err
  | none => Except.ok (features.filterMap featureOfValue)

/-! ## The transfer hook: the calls for one token -/

/-- The calls `mk address amount` over the accounts of the map `m` in ascending account order,
the amount being the value of the account in `m`.  An account whose string is no address gives
no call: there the run panics. -/
def callsOver {A : Type} (decode : String → Option A) (m : accountOperationMap)
    (mk : A → Int → KeeperCall A) : List (KeeperCall A) :=
  (sortedKeys m).filterMap
    (fun account => (decode account).map (fun address => mk address (mapGet m account)))

/-- The calls that the claim on the order of the steps lists for one token with the
definition `definition` and the issuer address `issuer`: the burns of the burn shares, the
transfers of the commission shares to the issuer, the checks of the inputs, the checks of the
outputs.  Both share maps are computed from the same `inOps` and `outOps`. -/
def tokenCalls {σ ε A : Type} (k : Keeper σ ε A) (ctx : Context) (definition : Definition)
    (issuer : A) (inOps outOps : accountOperationMap) : List (KeeperCall A) :=
  callsOver k.accAddressFromBech32
      (CalculateRateShares ctx definition.BurnRate definition.Issuer inOps outOps)
      (fun address amount => KeeperCall.burnIfSpendable address definition amount)
    ++ callsOver k.accAddressFromBech32
      (CalculateRateShares ctx definition.SendCommissionRate definition.Issuer inOps outOps)
      (fun address amount =>
        KeeperCall.SendCoins address issuer (NewCoins [(definition.Denom, amount)]))
    ++ callsOver k.accAddressFromBech32 inOps
      (fun address amount => KeeperCall.isCoinSpendable address definition amount)
    ++ callsOver k.accAddressFromBech32 outOps
      (fun address amount => KeeperCall.isCoinReceivable address definition amount)

/-- A log entry of a call that returned no error. -/
def succeeded {ε A : Type} (call : KeeperCall A) : KeeperLogEntry ε A := ⟨call, none⟩

/-! ## The transfer hook: maps with the same content -/

/-- Two account maps with the same content: both well formed, the same accounts, the same
amount for every account.  Their orders of traversal may differ. -/
def SameOperations (m1 m2 : accountOperationMap) : Prop :=
  NodupKeys m1 ∧ NodupKeys m2 ∧ (∀ account, account ∈ mapKeys m1 ↔ account ∈ mapKeys m2) ∧
  ∀ account, mapGet m1 account = mapGet m2 account

/-- Two grouped maps with the same content: both well formed, the same denoms, and under every
denom account maps with the same content.  Their orders of traversal may differ. -/
def SameGroups (g1 g2 : groupedByDenomAccountOperations) : Prop :=
  NodupKeys g1 ∧ NodupKeys g2 ∧ (∀ denom, denom ∈ mapKeys g1 ↔ denom ∈ mapKeys g2) ∧
  ∀ denom, SameOperations (mapGet g1 denom) (mapGet g2 denom)

/-! ## The rate calculator with the overflow panics of the SDK

`sdk.Int` keeps its `big.Int` within 256 bits and `sdk.Dec` keeps its stored integer within
`maxDecBitLen` bits: an operation whose result leaves the range panics.  The definitions of this
section are `nonIssuerSum`, the share expression and `CalculateRateShares` with these panics
(`none`); `CalculateRateShares` above is the map that the method returns when it returns. -/

/-- The SDK constant `maxBitLen`: the largest bit length of the integer of an `sdk.Int`. -/
def maxBitLen : Nat := 256

/-- The negation of the SDK test `i.BitLen() > n`: the bit length of `x` is at most `n`, which
is `|x| < 2^n`. -/
def fitsBits (n : Nat) (x : Int) : Bool := decide (x.natAbs < 2 ^ n)

/-- The method `sdk.Int.Add`: it panics (`none`) with `Int overflow` when the sum leaves the
range. -/
def IntAdd (a b : Int) : Option Int :=
  if fitsBits maxBitLen (a + b) = true then some (a + b) else none

/-- The method `sdk.Int.Mul`: it panics (`none`) with `Int overflow` when the product leaves
the range.  The SDK tests the bit lengths of the operands before it multiplies and the bit
length of the product after; on operands within the range the first test fires only where the
second does. -/
def IntMul (a b : Int) : Option Int :=
  if fitsBits maxBitLen (a * b) = true then some (a * b) else none

/-- The method `sdk.Dec.MulInt` with its panic (`none`): the stored integer of the product may
not exceed `maxDecBitLen` bits.  The SDK constant `maxDecBitLen` is a parameter. -/
def Dec.MulIntChecked (maxDecBitLen : Nat) (d : Dec) (n : Int) : Option Dec :=
  if fitsBits maxDecBitLen (d.i * n) = true then some (d.MulInt n) else none

/-- The constructor `sdk.NewIntFromBigInt`: it panics (`none`) when the integer is out of
bound. -/
def NewIntFromBigInt (x : Int) : Option Int :=
  if fitsBits maxBitLen x = true then some x else none

/-- The method `sdk.Dec.RoundInt` with its panic: the rounded integer goes through
`NewIntFromBigInt`. -/
def Dec.RoundIntChecked (d : Dec) : Option Int := NewIntFromBigInt (chopPrecisionAndRound d.i)

/-- The function `nonIssuerSum` with the panic of `sdk.Int.Add`. -/
def nonIssuerSumChecked (ops : accountOperationMap) (issuer : String) : Option Int :=
  ops.foldl
    (fun sum e => if e.1 ≠ issuer then sum.bind (fun acc => IntAdd acc e.2) else sum)
    (some 0)

/-- The expression `rate.MulInt(minNonIssuer.Mul(amount)).QuoInt(inputSumNonIssuer).Ceil().RoundInt()`
of `CalculateRateShares` with the panics of `Int.Mul`, `Dec.MulInt` and `Dec.RoundInt`. -/
def finalShareChecked (maxDecBitLen : Nat) (rate : Dec)
    (minNonIssuer inputSumNonIssuer amount : Int) : Option Int :=
  (IntMul minNonIssuer amount).bind fun product =>
    (rate.MulIntChecked maxDecBitLen product).bind fun scaled =>
      ((scaled.QuoInt inputSumNonIssuer).Ceil).RoundIntChecked

/-- The loop `for account, amount := range inOps` of `CalculateRateShares`, started from
`shares`, with `f amount` standing for the share computed from an amount or its panic. -/
def shareLoopChecked (f : Int → Option Int) (issuer : String)
    (shares : Option accountOperationMap) (inOps : accountOperationMap) :
    Option accountOperationMap :=
  inOps.foldl
    (fun shares e =>
      if e.1 = issuer then shares
      else shares.bind (fun sh => (f e.2).map (fun share => mapSet sh e.1 share)))
    shares

/-- The method `CalculateRateShares` with the overflow panics of the SDK: `none` is a panic,
`some []` is the result `nil` or the empty map. -/
def CalculateRateSharesChecked (maxDecBitLen : Nat) (ctx : Context) (rate : Option Dec)
    (issuer : String) (inOps outOps : accountOperationMap) : Option accountOperationMap :=
  if IsPurposeIn ctx then some []
  else if IsPurposeAck ctx then some []
  else if IsPurposeTimeout ctx then some []
  else
    match rate with
    | none => some []
    | some rate =>
      if !rate.IsPositive then some []
      else
        match nonIssuerSumChecked inOps issuer with
        | none => none
        | some inputSumNonIssuer =>
          match nonIssuerSumChecked outOps issuer with
          | none => none
          | some outputSumNonIssuer =>
            let minNonIssuer :=
              if outputSumNonIssuer < inputSumNonIssuer then outputSumNonIssuer
              else inputSumNonIssuer
            if ¬ 0 < minNonIssuer then some []
            else
              shareLoopChecked
                (finalShareChecked maxDecBitLen rate minNonIssuer inputSumNonIssuer)
                issuer (some []) inOps

/-- The amounts of both maps are non-negative and the two sums over the non-issuer accounts
are within the range of `sdk.Int`. -/
def SumsInRange (issuer : String) (inOps outOps : accountOperationMap) : Prop :=
  (∀ e ∈ inOps, 0 ≤ e.2) ∧ (∀ e ∈ outOps, 0 ≤ e.2) ∧
  fitsBits maxBitLen (nonIssuerTotal inOps issuer) = true ∧
  fitsBits maxBitLen (nonIssuerTotal outOps issuer) = true

instance decidableSumsInRange (issuer : String) (inOps outOps : accountOperationMap) :
    Decidable (SumsInRange issuer inOps outOps) :=
  inferInstanceAs (Decidable
    ((∀ e ∈ inOps, 0 ≤ e.2) ∧ (∀ e ∈ outOps, 0 ≤ e.2) ∧
      fitsBits maxBitLen (nonIssuerTotal inOps issuer) = true ∧
      fitsBits maxBitLen (nonIssuerTotal outOps issuer) = true))

/-- For every non-issuer sender the three values that the share expression forms are within
range: `base * amt` within `sdk.Int`, `rate * 10^18 * base * amt` within `maxDecBitLen` bits,
and the share within `sdk.Int`. -/
def ProductsInRange (maxDecBitLen : Nat) (rate : Dec) (issuer : String)
    (inOps outOps : accountOperationMap) : Prop :=
  ∀ e ∈ inOps, e.1 ≠ issuer →
    fitsBits maxBitLen (rateBase issuer inOps outOps * e.2) = true ∧
    fitsBits maxDecBitLen (rate.i * (rateBase issuer inOps outOps * e.2)) = true ∧
    fitsBits maxBitLen
      (finalShare rate (rateBase issuer inOps outOps) (nonIssuerTotal inOps issuer) e.2) = true

instance decidableProductsInRange (maxDecBitLen : Nat) (rate : Dec) (issuer : String)
    (inOps outOps : accountOperationMap) :
    Decidable (ProductsInRange maxDecBitLen rate issuer inOps outOps) :=
  inferInstanceAs (Decidable
    (∀ e ∈ inOps, e.1 ≠ issuer →
      fitsBits maxBitLen (rateBase issuer inOps outOps * e.2) = true ∧
      fitsBits maxDecBitLen (rate.i * (rateBase issuer inOps outOps * e.2)) = true ∧
      fitsBits maxBitLen
        (finalShare rate (rateBase issuer inOps outOps) (nonIssuerTotal inOps issuer) e.2)
          = true))

/-! ## The transfer hook: a batch without the outputs of one token -/

/-- The outputs of a batch with every coin of the denom `denom` removed. -/
def withoutDenom (denom : String) (outputs : List Output) : List Output :=
  outputs.map (fun o => ⟨o.Address, o.Coins.filter (fun c => decide (c.1 ≠ denom))⟩)

/-! ## Decimal arithmetic -/

theorem tmod_bounds (a b : Int) (hb : 0 < b) :
    (0 ≤ a → 0 ≤ Int.tmod a b ∧ Int.tmod a b < b) ∧
    (a < 0 → -b < Int.tmod a b ∧ Int.tmod a b ≤ 0) := by
  constructor
  · intro ha
    exact ⟨Int.tmod_nonneg b ha, Int.tmod_lt_of_pos a hb⟩
  · intro ha
    have h1 : Int.tmod (-a) b = -(Int.tmod a b) := by
      rw [Int.tmod_def, Int.tmod_def, Int.neg_tdiv]; ring
    have h2 := Int.tmod_nonneg b (show 0 ≤ -a by omega)
    have h3 := Int.tmod_lt_of_pos (-a) hb
    omega

theorem precisionReuse_pos : 0 < precisionReuse := by decide

theorem Dec.Ceil_i (d : Dec) :
    (d.Ceil).i = ⌈(d.i : ℚ) / 1000000000000000000⌉ * precisionReuse := by
  have hdiv := Int.tdiv_add_tmod d.i precisionReuse
  have hb := tmod_bounds d.i precisionReuse precisionReuse_pos
  have key : ∀ c : Int, (c - 1) * precisionReuse < d.i → d.i ≤ c * precisionReuse →
      ⌈(d.i : ℚ) / 1000000000000000000⌉ = c := by
    intro c h1 h2
    rw [Int.ceil_eq_iff]
    have h1q : (((c - 1) * precisionReuse : Int) : ℚ) < (d.i : ℚ) := by exact_mod_cast h1
    have h2q : (d.i : ℚ) ≤ ((c * precisionReuse : Int) : ℚ) := by exact_mod_cast h2
    simp only [precisionReuse] at h1q h2q
    push_cast at h1q h2q
    constructor
    · rw [lt_div_iff₀ (by norm_num)]; linarith
    · rw [div_le_iff₀ (by norm_num)]; linarith
  unfold Dec.Ceil
  simp only [NewDecFromBigInt]
  split_ifs with h0 hneg
  · rw [key (Int.tdiv d.i precisionReuse)]
    · have := precisionReuse_pos; nlinarith
    · nlinarith
  · rw [key (Int.tdiv d.i precisionReuse)]
    · have := precisionReuse_pos
      have : d.i < 0 := by
        by_contra hc
        have := (hb.1 (by omega)).1
        omega
      have := hb.2 this
      nlinarith
    · nlinarith
  · rw [key (Int.tdiv d.i precisionReuse + 1)]
    · have hr : 0 < Int.tmod d.i precisionReuse := by omega
      nlinarith
    · have : 0 ≤ d.i := by
        by_contra hc
        have := (hb.2 (by omega)).2
        omega
      have := hb.1 this
      nlinarith

theorem chopPrecisionAndRound_mul (n : Int) :
    chopPrecisionAndRound (n * precisionReuse) = n := by
  have hpos := precisionReuse_pos
  have hnn : ∀ m : Int, chopPrecisionAndRoundNonneg (m * precisionReuse) = m := by
    intro m
    unfold chopPrecisionAndRoundNonneg
    have h1 : Int.tmod (m * precisionReuse) precisionReuse = 0 :=
      Int.tmod_eq_zero_of_dvd (Dvd.intro_left m rfl)
    have h2 : Int.tdiv (m * precisionReuse) precisionReuse = m := by
      have := Int.tdiv_add_tmod (m * precisionReuse) precisionReuse
      rw [h1] at this
      have h3 : precisionReuse * Int.tdiv (m * precisionReuse) precisionReuse
          = precisionReuse * m := by linarith
      exact Int.eq_of_mul_eq_mul_left (by omega) h3
    simp [h1, h2]
  unfold chopPrecisionAndRound
  split_ifs with h
  · have : -(n * precisionReuse) = (-n) * precisionReuse := by ring
    rw [this, hnn]; ring
  · exact hnn n

theorem finalShare_eq (rate : Dec) (b s amt : Int) :
    finalShare rate b s amt
      = ⌈((Int.tdiv (rate.i * (b * amt)) s : Int) : ℚ) / 1000000000000000000⌉ := by
  unfold finalShare Dec.RoundInt
  rw [Dec.Ceil_i, chopPrecisionAndRound_mul]
  rfl

/-! ## Go maps -/

theorem mapKeys_cons {V : Type} (e : String × V) (m : GoMap V) :
    mapKeys (e :: m) = e.1 :: mapKeys m := rfl

theorem mem_mapKeys_mapSet {V : Type} (m : GoMap V) (key : String) (v : V) (k : String) :
    k ∈ mapKeys (mapSet m key v) ↔ k = key ∨ k ∈ mapKeys m := by
  induction m with
  | nil => simp [mapSet, mapKeys]
  | cons e rest ih =>
    obtain ⟨k1, w⟩ := e
    simp only [mapSet]
    split_ifs with h
    · subst h
      simp [mapKeys]
    · rw [mapKeys_cons, mapKeys_cons, List.mem_cons, List.mem_cons, ih]
      tauto

theorem mapSet_of_not_mem {V : Type} (m : GoMap V) (key : String) (v : V)
    (h : key ∉ mapKeys m) : mapSet m key v = m ++ [(key, v)] := by
  induction m with
  | nil => rfl
  | cons e rest ih =>
    obtain ⟨k1, w⟩ := e
    rw [mapKeys_cons, List.mem_cons, not_or] at h
    simp only [mapSet]
    rw [if_neg (fun hk => h.1 hk.symm), ih h.2]
    rfl

theorem mapLookup_of_mem {V : Type} (m : GoMap V) (hm : NodupKeys m) (k : String) (v : V)
    (h : (k, v) ∈ m) : mapLookup m k = some v := by
  induction m with
  | nil => simp at h
  | cons e rest ih =>
    obtain ⟨k1, w⟩ := e
    unfold NodupKeys at hm
    rw [mapKeys_cons, List.nodup_cons] at hm
    simp only [mapLookup]
    rcases List.mem_cons.mp h with h1 | h1
    · cases h1
      simp
    · have hne : k1 ≠ k := by
        intro hk
        apply hm.1
        rw [hk]
        exact List.mem_map.mpr ⟨(k, v), h1, rfl⟩
      rw [if_neg hne]
      exact ih hm.2 h1

theorem mapLookup_eq_none {V : Type} (m : GoMap V) (k : String) (h : k ∉ mapKeys m) :
    mapLookup m k = none := by
  induction m with
  | nil => rfl
  | cons e rest ih =>
    obtain ⟨k1, w⟩ := e
    rw [mapKeys_cons, List.mem_cons, not_or] at h
    simp only [mapLookup]
    rw [if_neg (fun hk => h.1 hk.symm)]
    exact ih h.2

theorem mapGet_of_mem {V : Type} [Inhabited V] (m : GoMap V) (hm : NodupKeys m) (k : String)
    (v : V) (h : (k, v) ∈ m) : mapGet m k = v := by
  unfold mapGet
  rw [mapLookup_of_mem m hm k v h]
  rfl

/-! ## The sums over the non-issuer accounts -/

theorem nonIssuerSum_foldl (ops : accountOperationMap) (issuer : String) (acc : Int) :
    ops.foldl (fun sum e => if e.1 ≠ issuer then sum + e.2 else sum) acc
      = acc + sumAmounts (nonIssuerEntries ops issuer) := by
  induction ops generalizing acc with
  | nil => simp [sumAmounts, nonIssuerEntries]
  | cons e rest ih =>
    rw [List.foldl_cons, ih]
    by_cases h : e.1 = issuer
    · simp [h, nonIssuerEntries, sumAmounts]
    · simp [h, nonIssuerEntries, sumAmounts]
      ring

theorem nonIssuerSum_eq (ops : accountOperationMap) (issuer : String) :
    nonIssuerSum ops issuer = nonIssuerTotal ops issuer := by
  unfold nonIssuerSum nonIssuerTotal
  rw [nonIssuerSum_foldl]
  simp

theorem nonIssuerEntries_idem (ops : accountOperationMap) (issuer : String) :
    nonIssuerEntries (nonIssuerEntries ops issuer) issuer = nonIssuerEntries ops issuer := by
  simp [nonIssuerEntries]

theorem nonIssuerEntries_of_not_mem (ops : accountOperationMap) (issuer : String)
    (h : issuer ∉ mapKeys ops) : nonIssuerEntries ops issuer = ops := by
  unfold nonIssuerEntries
  rw [List.filter_eq_self]
  intro e he
  simp only [decide_eq_true_eq]
  intro hk
  apply h
  rw [← hk]
  exact List.mem_map_of_mem Prod.fst he

theorem nonIssuerTotal_nonneg (ops : accountOperationMap) (issuer : String)
    (h : ∀ e ∈ ops, 0 ≤ e.2) : 0 ≤ nonIssuerTotal ops issuer := by
  unfold nonIssuerTotal sumAmounts
  apply List.sum_nonneg
  intro x hx
  obtain ⟨e, he, rfl⟩ := List.mem_map.mp hx
  exact h e (List.mem_of_mem_filter he)

theorem nonIssuerTotal_of_not_mem (ops : accountOperationMap) (issuer : String)
    (h : issuer ∉ mapKeys ops) : nonIssuerTotal ops issuer = sumAmounts ops := by
  unfold nonIssuerTotal
  rw [nonIssuerEntries_of_not_mem ops issuer h]

/-! ## The loop over the senders -/

theorem shareLoop_cons (f : Int → Int) (issuer : String) (acc : accountOperationMap)
    (e : String × Int) (rest : accountOperationMap) :
    shareLoop f issuer acc (e :: rest)
      = shareLoop f issuer (if e.1 = issuer then acc else mapSet acc e.1 (f e.2)) rest := rfl

theorem shareLoop_nonIssuerEntries (f : Int → Int) (issuer : String)
    (acc ops : accountOperationMap) :
    shareLoop f issuer acc ops = shareLoop f issuer acc (nonIssuerEntries ops issuer) := by
  induction ops generalizing acc with
  | nil => rfl
  | cons e rest ih =>
    by_cases h : e.1 = issuer
    · have : nonIssuerEntries (e :: rest) issuer = nonIssuerEntries rest issuer := by
        simp [nonIssuerEntries, h]
      rw [this, shareLoop_cons, if_pos h]
      exact ih acc
    · have : nonIssuerEntries (e :: rest) issuer = e :: nonIssuerEntries rest issuer := by
        simp [nonIssuerEntries, h]
      rw [this, shareLoop_cons, shareLoop_cons, if_neg h]
      exact ih _

theorem mem_mapKeys_shareLoop (f : Int → Int) (issuer : String) (acc ops : accountOperationMap)
    (k : String) :
    k ∈ mapKeys (shareLoop f issuer acc ops)
      ↔ k ∈ mapKeys acc ∨ (k ∈ mapKeys ops ∧ k ≠ issuer) := by
  induction ops generalizing acc with
  | nil => simp [shareLoop, mapKeys]
  | cons e rest ih =>
    rw [shareLoop_cons, ih, mapKeys_cons, List.mem_cons]
    by_cases h : e.1 = issuer
    · rw [if_pos h]
      constructor
      · rintro (h1 | h1)
        · exact Or.inl h1
        · exact Or.inr ⟨Or.inr h1.1, h1.2⟩
      · rintro (h1 | ⟨h1 | h1, h2⟩)
        · exact Or.inl h1
        · exact absurd (h1.trans h) h2
        · exact Or.inr ⟨h1, h2⟩
    · rw [if_neg h, mem_mapKeys_mapSet]
      constructor
      · rintro ((h1 | h1) | h1)
        · exact Or.inr ⟨Or.inl h1, fun hk => h (h1 ▸ hk)⟩
        · exact Or.inl h1
        · exact Or.inr ⟨Or.inr h1.1, h1.2⟩
      · rintro (h1 | ⟨h1 | h1, h2⟩)
        · exact Or.inl (Or.inr h1)
        · exact Or.inl (Or.inl h1)
        · exact Or.inr ⟨h1, h2⟩

theorem shareLoop_eq_append (f : Int → Int) (issuer : String) (acc ops : accountOperationMap)
    (hops : NodupKeys ops) (hdisj : ∀ k ∈ mapKeys ops, k ∉ mapKeys acc) :
    shareLoop f issuer acc ops
      = acc ++ (nonIssuerEntries ops issuer).map (fun e => (e.1, f e.2)) := by
  induction ops generalizing acc with
  | nil => simp [shareLoop, nonIssuerEntries]
  | cons e rest ih =>
    unfold NodupKeys at hops
    rw [mapKeys_cons, List.nodup_cons] at hops
    have hrest : ∀ k ∈ mapKeys rest, k ∉ mapKeys acc := fun k hk =>
      hdisj k (by rw [mapKeys_cons]; exact List.mem_cons_of_mem _ hk)
    have he : e.1 ∉ mapKeys acc := hdisj e.1 (by rw [mapKeys_cons]; exact List.mem_cons_self _ _)
    rw [shareLoop_cons]
    by_cases h : e.1 = issuer
    · have : nonIssuerEntries (e :: rest) issuer = nonIssuerEntries rest issuer := by
        simp [nonIssuerEntries, h]
      rw [if_pos h, this]
      exact ih acc hops.2 hrest
    · have : nonIssuerEntries (e :: rest) issuer = e :: nonIssuerEntries rest issuer := by
        simp [nonIssuerEntries, h]
      rw [if_neg h, this, mapSet_of_not_mem acc e.1 (f e.2) he, ih _ hops.2]
      · simp
      · intro k hk hmem
        have hmem2 : k ∈ mapKeys acc ∨ k = e.1 := by
          simpa [mapKeys] using hmem
        rcases hmem2 with h1 | h1
        · exact hrest k hk h1
        · exact hops.1 (h1 ▸ hk)

/-! ## Unfolding `CalculateRateShares` -/

theorem minNonIssuer_eq (a b : Int) : (if b < a then b else a) = min a b := by
  by_cases h : b < a
  · rw [if_pos h, min_eq_right (le_of_lt h)]
  · rw [if_neg h, min_eq_left (not_lt.mp h)]

theorem CalculateRateShares_charged (ctx : Context) (rate : Dec) (issuer : String)
    (inOps outOps : accountOperationMap) (hctx : NoIBCPurpose ctx) (hr : 0 < rate.i)
    (hb : 0 < rateBase issuer inOps outOps) :
    CalculateRateShares ctx (some rate) issuer inOps outOps
      = shareLoop
          (finalShare rate (rateBase issuer inOps outOps) (nonIssuerTotal inOps issuer))
          issuer [] inOps := by
  obtain ⟨h1, h2, h3⟩ := hctx
  unfold rateBase at hb ⊢
  rw [← nonIssuerSum_eq, ← nonIssuerSum_eq, ← minNonIssuer_eq] at hb ⊢
  unfold CalculateRateShares
  simp only [h1, h2, h3, Dec.IsPositive, hr, decide_True, Bool.not_true, Bool.false_eq_true,
    if_false, hb, not_true_eq_false]
  rfl

theorem CalculateRateShares_of_purpose (ctx : Context) (rate : Option Dec) (issuer : String)
    (inOps outOps : accountOperationMap)
    (h : IsPurposeIn ctx = true ∨ IsPurposeAck ctx = true ∨ IsPurposeTimeout ctx = true) :
    CalculateRateShares ctx rate issuer inOps outOps = [] := by
  unfold CalculateRateShares
  rcases h with h | h | h
  · simp [h]
  · simp [h]
  · simp [h]

theorem CalculateRateShares_no_rate (ctx : Context) (issuer : String)
    (inOps outOps : accountOperationMap) :
    CalculateRateShares ctx none issuer inOps outOps = [] := by
  unfold CalculateRateShares
  simp

theorem CalculateRateShares_rate_not_positive (ctx : Context) (rate : Dec) (issuer : String)
    (inOps outOps : accountOperationMap) (hr : ¬ 0 < rate.i) :
    CalculateRateShares ctx (some rate) issuer inOps outOps = [] := by
  unfold CalculateRateShares
  simp [Dec.IsPositive, hr]

theorem CalculateRateShares_base_not_positive (ctx : Context) (rate : Option Dec)
    (issuer : String) (inOps outOps : accountOperationMap)
    (hb : ¬ 0 < rateBase issuer inOps outOps) :
    CalculateRateShares ctx rate issuer inOps outOps = [] := by
  unfold rateBase at hb
  rw [← nonIssuerSum_eq, ← nonIssuerSum_eq, ← minNonIssuer_eq] at hb
  unfold CalculateRateShares
  cases rate with
  | none => simp
  | some r =>
    simp only [hb]
    simp

theorem CalculateRateShares_uncharged (ctx : Context) (rate : Option Dec) (issuer : String)
    (inOps outOps : accountOperationMap)
    (h : ¬ (NoIBCPurpose ctx ∧ ∃ r, rate = some r ∧ 0 < r.i ∧ 0 < rateBase issuer inOps outOps)) :
    CalculateRateShares ctx rate issuer inOps outOps = [] := by
  by_cases hctx : NoIBCPurpose ctx
  · cases rate with
    | none => exact CalculateRateShares_no_rate ctx issuer inOps outOps
    | some r =>
      by_cases hr : 0 < r.i
      · by_cases hb : 0 < rateBase issuer inOps outOps
        · exact absurd ⟨hctx, r, rfl, hr, hb⟩ h
        · exact CalculateRateShares_base_not_positive ctx _ issuer inOps outOps hb
      · exact CalculateRateShares_rate_not_positive ctx r issuer inOps outOps hr
  · apply CalculateRateShares_of_purpose
    unfold NoIBCPurpose at hctx
    cases h1 : IsPurposeIn ctx
    · cases h2 : IsPurposeAck ctx
      · cases h3 : IsPurposeTimeout ctx
        · exact absurd ⟨h1, h2, h3⟩ hctx
        · exact Or.inr (Or.inr rfl)
      · exact Or.inr (Or.inl rfl)
    · exact Or.inl rfl

theorem CalculateRateShares_eq_map (ctx : Context) (rate : Dec) (issuer : String)
    (inOps outOps : accountOperationMap) (hctx : NoIBCPurpose ctx) (hr : 0 < rate.i)
    (hb : 0 < rateBase issuer inOps outOps) (hnd : NodupKeys inOps) :
    CalculateRateShares ctx (some rate) issuer inOps outOps
      = (nonIssuerEntries inOps issuer).map (fun e =>
          (e.1, finalShare rate (rateBase issuer inOps outOps) (nonIssuerTotal inOps issuer) e.2))
    := by
  rw [CalculateRateShares_charged ctx rate issuer inOps outOps hctx hr hb,
    shareLoop_eq_append _ issuer [] inOps hnd (fun k _ hk => by simp [mapKeys] at hk)]
  simp

theorem nonIssuerEntries_ne_nil (ops : accountOperationMap) (issuer : String)
    (h : 0 < nonIssuerTotal ops issuer) : nonIssuerEntries ops issuer ≠ [] := by
  intro hnil
  unfold nonIssuerTotal at h
  rw [hnil] at h
  simp [sumAmounts] at h

theorem rateBase_le_inSum (issuer : String) (inOps outOps : accountOperationMap) :
    rateBase issuer inOps outOps ≤ nonIssuerTotal inOps issuer := min_le_left _ _

theorem CalculateRateShares_nonIssuerEntries (ctx : Context) (rate : Option Dec)
    (issuer : String) (inOps outOps : accountOperationMap) :
    CalculateRateShares ctx rate issuer inOps outOps
      = CalculateRateShares ctx rate issuer (nonIssuerEntries inOps issuer)
          (nonIssuerEntries outOps issuer) := by
  have hbase : rateBase issuer (nonIssuerEntries inOps issuer) (nonIssuerEntries outOps issuer)
      = rateBase issuer inOps outOps := by
    unfold rateBase nonIssuerTotal
    rw [nonIssuerEntries_idem, nonIssuerEntries_idem]
  have hin : nonIssuerTotal (nonIssuerEntries inOps issuer) issuer
      = nonIssuerTotal inOps issuer := by
    unfold nonIssuerTotal
    rw [nonIssuerEntries_idem]
  by_cases h : NoIBCPurpose ctx ∧ ∃ r, rate = some r ∧ 0 < r.i ∧ 0 < rateBase issuer inOps outOps
  · obtain ⟨hctx, r, rfl, hr, hb⟩ := h
    rw [CalculateRateShares_charged ctx r issuer inOps outOps hctx hr hb,
      CalculateRateShares_charged ctx r issuer _ _ hctx hr (by rw [hbase]; exact hb),
      hbase, hin, shareLoop_nonIssuerEntries]
  · rw [CalculateRateShares_uncharged ctx rate issuer inOps outOps h,
      CalculateRateShares_uncharged ctx rate issuer _ _ (by rw [hbase]; exact h)]

theorem finalShare_bounds (rate : Dec) (b s a : Int) :
    (finalShare rate b s a - 1) * precisionReuse < Int.tdiv (rate.i * (b * a)) s ∧
    Int.tdiv (rate.i * (b * a)) s ≤ finalShare rate b s a * precisionReuse := by
  rw [finalShare_eq]
  have h1 := Int.ceil_lt_add_one
    (((Int.tdiv (rate.i * (b * a)) s : Int) : ℚ) / 1000000000000000000)
  have h2 := Int.le_ceil
    (((Int.tdiv (rate.i * (b * a)) s : Int) : ℚ) / 1000000000000000000)
  rw [div_le_iff₀ (by norm_num)] at h2
  have h3 : ((⌈((Int.tdiv (rate.i * (b * a)) s : Int) : ℚ) / 1000000000000000000⌉ : Int) : ℚ)
      - 1 < ((Int.tdiv (rate.i * (b * a)) s : Int) : ℚ) / 1000000000000000000 := by linarith
  rw [lt_div_iff₀ (by norm_num)] at h3
  unfold precisionReuse
  constructor
  · exact_mod_cast h3
  · exact_mod_cast h2

theorem tdiv_bounds_nonneg (n s : Int) (hn : 0 ≤ n) (hs : 0 < s) :
    s * Int.tdiv n s ≤ n ∧ n < s * Int.tdiv n s + s := by
  have h1 := Int.tdiv_add_tmod n s
  have h2 := (tmod_bounds n s hs).1 hn
  constructor
  · linarith
  · linarith

theorem finalShare_scaled (rate : Dec) (b s a : Int) (hr : 0 ≤ rate.i) (hb : 0 ≤ b)
    (hs : 0 < s) (ha : 0 ≤ a) :
    rate.i * (b * a) - (s - 1) ≤ s * (precisionReuse * finalShare rate b s a) ∧
    s * (precisionReuse * finalShare rate b s a) ≤ rate.i * (b * a) + s * (precisionReuse - 1)
    := by
  obtain ⟨h1, h2⟩ := finalShare_bounds rate b s a
  have hn : 0 ≤ rate.i * (b * a) := mul_nonneg hr (mul_nonneg hb ha)
  obtain ⟨h3, h4⟩ := tdiv_bounds_nonneg (rate.i * (b * a)) s hn hs
  have h5 : s * Int.tdiv (rate.i * (b * a)) s
      ≤ s * (finalShare rate b s a * precisionReuse) :=
    mul_le_mul_of_nonneg_left h2 (le_of_lt hs)
  have h6 : (finalShare rate b s a - 1) * precisionReuse + 1
      ≤ Int.tdiv (rate.i * (b * a)) s := h1
  have h7 : s * ((finalShare rate b s a - 1) * precisionReuse + 1)
      ≤ s * Int.tdiv (rate.i * (b * a)) s :=
    mul_le_mul_of_nonneg_left h6 (le_of_lt hs)
  constructor
  · have : s * (precisionReuse * finalShare rate b s a)
        = s * (finalShare rate b s a * precisionReuse) := by ring
    rw [this]
    linarith
  · have : s * (precisionReuse * finalShare rate b s a)
        = s * ((finalShare rate b s a - 1) * precisionReuse + 1) + (s * precisionReuse - s) := by
      ring
    rw [this]
    have : s * (precisionReuse - 1) = s * precisionReuse - s := by ring
    rw [this]
    linarith

theorem sumAmounts_cons (e : String × Int) (l : accountOperationMap) :
    sumAmounts (e :: l) = e.2 + sumAmounts l := by
  simp [sumAmounts]

theorem shares_sum_scaled (rate : Dec) (b s : Int) (hr : 0 ≤ rate.i) (hb : 0 ≤ b) (hs : 0 < s)
    (l : accountOperationMap) (hl : ∀ e ∈ l, 0 ≤ e.2) :
    rate.i * (b * sumAmounts l) - (l.length : Int) * (s - 1)
      ≤ s * (precisionReuse * sumAmounts (l.map (fun e => (e.1, finalShare rate b s e.2)))) ∧
    s * (precisionReuse * sumAmounts (l.map (fun e => (e.1, finalShare rate b s e.2))))
      ≤ rate.i * (b * sumAmounts l) + (l.length : Int) * (s * (precisionReuse - 1)) := by
  induction l with
  | nil => simp [sumAmounts]
  | cons e rest ih =>
    obtain ⟨ih1, ih2⟩ := ih (fun x hx => hl x (List.mem_cons_of_mem _ hx))
    obtain ⟨h1, h2⟩ := finalShare_scaled rate b s e.2 hr hb hs (hl e (List.mem_cons_self _ _))
    rw [List.map_cons, sumAmounts_cons, sumAmounts_cons, List.length_cons]
    push_cast
    constructor
    · have e1 : rate.i * (b * (e.2 + sumAmounts rest)) - ((rest.length : Int) + 1) * (s - 1)
          = (rate.i * (b * e.2) - (s - 1))
            + (rate.i * (b * sumAmounts rest) - (rest.length : Int) * (s - 1)) := by ring
      have e2 : s * (precisionReuse * (finalShare rate b s e.2
            + sumAmounts (rest.map (fun e => (e.1, finalShare rate b s e.2)))))
          = s * (precisionReuse * finalShare rate b s e.2)
            + s * (precisionReuse
              * sumAmounts (rest.map (fun e => (e.1, finalShare rate b s e.2)))) := by ring
      rw [e1, e2]
      exact add_le_add h1 ih1
    · have e1 : rate.i * (b * (e.2 + sumAmounts rest))
            + ((rest.length : Int) + 1) * (s * (precisionReuse - 1))
          = (rate.i * (b * e.2) + s * (precisionReuse - 1))
            + (rate.i * (b * sumAmounts rest)
              + (rest.length : Int) * (s * (precisionReuse - 1))) := by ring
      have e2 : s * (precisionReuse * (finalShare rate b s e.2
            + sumAmounts (rest.map (fun e => (e.1, finalShare rate b s e.2)))))
          = s * (precisionReuse * finalShare rate b s e.2)
            + s * (precisionReuse
              * sumAmounts (rest.map (fun e => (e.1, finalShare rate b s e.2)))) := by ring
      rw [e1, e2]
      exact add_le_add h2 ih2

/-- With all amounts non-negative, a positive rate and a positive base, the sum of the shares,
scaled by `10^18`, lies between `rate.i * base - (n - 1)` and `rate.i * base + n * (10^18 - 1)`
for the `n` payers. -/
theorem shares_sum_bounds (rate : Dec) (issuer : String) (inOps outOps : accountOperationMap)
    (hr : 0 < rate.i) (hb : 0 < rateBase issuer inOps outOps) (hin : ∀ e ∈ inOps, 0 ≤ e.2) :
    rate.i * rateBase issuer inOps outOps - ((nonIssuerEntries inOps issuer).length - 1 : Int)
      ≤ precisionReuse * sumAmounts ((nonIssuerEntries inOps issuer).map (fun e =>
          (e.1, finalShare rate (rateBase issuer inOps outOps)
            (nonIssuerTotal inOps issuer) e.2))) ∧
    precisionReuse * sumAmounts ((nonIssuerEntries inOps issuer).map (fun e =>
          (e.1, finalShare rate (rateBase issuer inOps outOps)
            (nonIssuerTotal inOps issuer) e.2)))
      ≤ rate.i * rateBase issuer inOps outOps
        + ((nonIssuerEntries inOps issuer).length : Int) * (precisionReuse - 1) := by
  have hs : 0 < nonIssuerTotal inOps issuer :=
    lt_of_lt_of_le hb (rateBase_le_inSum issuer inOps outOps)
  have hl : ∀ e ∈ nonIssuerEntries inOps issuer, 0 ≤ e.2 :=
    fun e he => hin e (List.mem_of_mem_filter he)
  obtain ⟨h1, h2⟩ := shares_sum_scaled rate (rateBase issuer inOps outOps)
    (nonIssuerTotal inOps issuer) (le_of_lt hr) (le_of_lt hb) hs
    (nonIssuerEntries inOps issuer) hl
  have hsum : sumAmounts (nonIssuerEntries inOps issuer) = nonIssuerTotal inOps issuer := rfl
  rw [hsum] at h1 h2
  have hn : 0 < ((nonIssuerEntries inOps issuer).length : Int) := by
    have := List.length_pos.mpr (nonIssuerEntries_ne_nil inOps issuer hs)
    exact_mod_cast this
  generalize sumAmounts ((nonIssuerEntries inOps issuer).map (fun e =>
    (e.1, finalShare rate (rateBase issuer inOps outOps)
      (nonIssuerTotal inOps issuer) e.2))) = g at h1 h2 ⊢
  generalize nonIssuerTotal inOps issuer = s at h1 h2 hs
  generalize rateBase issuer inOps outOps = b at h1 h2
  generalize ((nonIssuerEntries inOps issuer).length : Int) = n at h1 h2 hn ⊢
  constructor
  · have h3 : s * (rate.i * b - n) < s * (precisionReuse * g) := by
      have : s * (rate.i * b - n) = rate.i * (b * s) - n * (s - 1) - n := by ring
      rw [this]
      linarith
    have h4 : rate.i * b - n < precisionReuse * g := lt_of_mul_lt_mul_left h3 (le_of_lt hs)
    linarith
  · have h3 : s * (precisionReuse * g) ≤ s * (rate.i * b + n * (precisionReuse - 1)) := by
      have : s * (rate.i * b + n * (precisionReuse - 1))
          = rate.i * (b * s) + n * (s * (precisionReuse - 1)) := by ring
      rw [this]
      exact h2
    exact le_of_mul_le_mul_left h3 hs

theorem Dec.toRat_pos (r : Dec) : 0 < r.toRat ↔ 0 < r.i := by
  unfold Dec.toRat
  constructor
  · intro h
    have h2 : (0 : ℚ) < (r.i : ℚ) := by
      by_contra hc
      have h3 : (r.i : ℚ) ≤ 0 := not_lt.mp hc
      have : (r.i : ℚ) / 1000000000000000000 ≤ 0 :=
        div_nonpos_of_nonpos_of_nonneg h3 (by norm_num)
      linarith
    exact_mod_cast h2
  · intro h
    have h2 : (0 : ℚ) < (r.i : ℚ) := by exact_mod_cast h
    positivity

theorem sumAmounts_nonneg (ops : accountOperationMap) (h : ∀ e ∈ ops, 0 ≤ e.2) :
    0 ≤ sumAmounts ops := by
  unfold sumAmounts
  apply List.sum_nonneg
  intro x hx
  obtain ⟨e, he, rfl⟩ := List.mem_map.mp hx
  exact h e he

/-! ## The order of the keys -/

theorem char_lt_iff (a b : Char) : a < b ↔ a.toNat < b.toNat := by
  rw [Char.lt_def]
  rfl

theorem char_eq_of_toNat (a b : Char) (h1 : ¬ a.toNat < b.toNat) (h2 : ¬ b.toNat < a.toNat) :
    a = b := by
  have : a.toNat = b.toNat := by omega
  apply Char.ext
  apply UInt32.ext
  exact this

theorem lessChars_iff_lex (l1 l2 : List Char) :
    lessChars l1 l2 = true ↔ List.Lex (fun x1 x2 => x1 < x2) l1 l2 := by
  induction l1 generalizing l2 with
  | nil =>
    cases l2 with
    | nil => simp [lessChars]
    | cons b bs => simp [lessChars, List.Lex.nil]
  | cons a as ih =>
    cases l2 with
    | nil => simp [lessChars]
    | cons b bs =>
      simp only [lessChars]
      by_cases h1 : a.toNat < b.toNat
      · simp only [h1, if_true, true_iff]
        exact List.Lex.rel ((char_lt_iff a b).mpr h1)
      · by_cases h2 : b.toNat < a.toNat
        · simp only [h1, h2, if_false, if_true, Bool.false_eq_true, false_iff]
          intro hlex
          cases hlex with
          | cons h => exact absurd h2 (by omega)
          | rel h => exact h1 ((char_lt_iff a b).mp h)
        · have hab := char_eq_of_toNat a b h1 h2
          subst hab
          simp only [h1, if_false]
          rw [ih, List.Lex.cons_iff]

theorem stringLess_iff (a b : String) : stringLess a b = true ↔ a < b := by
  unfold stringLess
  rw [String.lt_iff_toList_lt, lessChars_iff_lex]
  exact Iff.rfl

theorem sortSlice_rel_iff (a b : String) : stringLess b a = false ↔ a ≤ b := by
  rw [← not_lt, ← stringLess_iff]
  simp

theorem sortedKeys_perm {V : Type} (m : GoMap V) : (sortedKeys m).Perm (mapKeys m) :=
  List.perm_insertionSort _ _

theorem sortedKeys_sorted_le {V : Type} (m : GoMap V) :
    List.Sorted (fun a b : String => a ≤ b) (sortedKeys m) := by
  have htotal : IsTotal String (fun a b => stringLess b a = false) :=
    ⟨fun a b => by
      rw [sortSlice_rel_iff, sortSlice_rel_iff]
      exact le_total a b⟩
  have htrans : IsTrans String (fun a b => stringLess b a = false) :=
    ⟨fun a b c => by
      rw [sortSlice_rel_iff, sortSlice_rel_iff, sortSlice_rel_iff]
      exact le_trans⟩
  have h := List.sorted_insertionSort (fun a b => stringLess b a = false) (mapKeys m)
  exact List.Pairwise.imp (fun {a b} hab => (sortSlice_rel_iff a b).mp hab) h

theorem sortedKeys_nodup {V : Type} (m : GoMap V) (hnd : NodupKeys m) :
    (sortedKeys m).Nodup :=
  (sortedKeys_perm m).nodup_iff.mpr hnd

theorem sortedKeys_sorted_lt {V : Type} (m : GoMap V) (hnd : NodupKeys m) :
    List.Sorted (fun a b : String => a < b) (sortedKeys m) :=
  (sortedKeys_sorted_le m).lt_of_le (sortedKeys_nodup m hnd)

theorem mem_sortedKeys {V : Type} (m : GoMap V) (k : String) :
    k ∈ sortedKeys m ↔ k ∈ mapKeys m :=
  (sortedKeys_perm m).mem_iff

theorem exists_entry_of_mem_mapKeys {V : Type} (m : GoMap V) (k : String)
    (h : k ∈ mapKeys m) : ∃ v, (k, v) ∈ m := by
  obtain ⟨e, he, rfl⟩ := List.mem_map.mp h
  exact ⟨e.2, he⟩

theorem mapGet_mem {V : Type} [Inhabited V] (m : GoMap V) (hnd : NodupKeys m) (k : String)
    (h : k ∈ mapKeys m) : (k, mapGet m k) ∈ m := by
  obtain ⟨v, hv⟩ := exists_entry_of_mem_mapKeys m k h
  rw [mapGet_of_mem m hnd k v hv]
  exact hv

/-! ## The loop of `iterateMapDeterministic` -/

theorem iterateKeys_nil {V σ ε : Type} [Inhabited V] (m : GoMap V) (fn : Callback V σ ε)
    (s : σ) : iterateKeys m fn [] s = (s, none) := rfl

theorem iterateKeys_cons_err {V σ ε : Type} [Inhabited V] (m : GoMap V) (fn : Callback V σ ε)
    (k : String) (rest : List String) (s s1 : σ) (e : ε)
    (h : fn k (mapGet m k) s = (s1, some e)) :
    iterateKeys m fn (k :: rest) s = (s1, some e) := by
  simp only [iterateKeys, h]

theorem iterateKeys_cons_ok {V σ ε : Type} [Inhabited V] (m : GoMap V) (fn : Callback V σ ε)
    (k : String) (rest : List String) (s s1 : σ)
    (h : fn k (mapGet m k) s = (s1, none)) :
    iterateKeys m fn (k :: rest) s = iterateKeys m fn rest s1 := by
  simp only [iterateKeys, h]

/-- What the log of an instrumented run holds: the calls made, in order, on a prefix of the
keys; every call but a failing last one succeeded; the run itself is the one of the bare
callback. -/
theorem iterateKeys_recordCalls {V σ ε : Type} [Inhabited V] (m : GoMap V)
    (fn : Callback V σ ε) (ks : List String) (s : σ) (log0 : List (Call V ε)) :
    ∃ calls : List (Call V ε),
      (iterateKeys m (recordCalls fn) ks (s, log0)).1.2 = log0 ++ calls ∧
      (iterateKeys m (recordCalls fn) ks (s, log0)).1.1 = (iterateKeys m fn ks s).1 ∧
      (iterateKeys m (recordCalls fn) ks (s, log0)).2 = (iterateKeys m fn ks s).2 ∧
      List.IsPrefix (calls.map Call.key) ks ∧
      (∀ c ∈ calls, c.value = mapGet m c.key) ∧
      ((iterateKeys m fn ks s).2 = none →
        calls.map Call.key = ks ∧ ∀ c ∈ calls, c.err = none) ∧
      (∀ e, (iterateKeys m fn ks s).2 = some e →
        ∃ pre c, calls = pre ++ [c] ∧ c.err = some e ∧ ∀ d ∈ pre, d.err = none) := by
  induction ks generalizing s log0 with
  | nil =>
    refine ⟨[], ?_, rfl, rfl, List.prefix_rfl, ?_, ?_, ?_⟩
    · simp [iterateKeys_nil]
    · intro c hc
      simp at hc
    · intro _
      exact ⟨rfl, fun c hc => by simp at hc⟩
    · intro e he
      simp [iterateKeys_nil] at he
  | cons k rest ih =>
    cases hfn : fn k (mapGet m k) s with
    | mk s1 r =>
      cases r with
      | some e =>
        have hrec : recordCalls fn k (mapGet m k) (s, log0)
            = ((s1, log0 ++ [⟨k, mapGet m k, some e⟩]), some e) := by
          simp [recordCalls, hfn]
        rw [iterateKeys_cons_err m (recordCalls fn) k rest _ _ e hrec,
          iterateKeys_cons_err m fn k rest s s1 e hfn]
        refine ⟨[⟨k, mapGet m k, some e⟩], rfl, rfl, rfl, ?_, ?_, ?_, ?_⟩
        · simp only [List.map_cons, List.map_nil]
          exact List.cons_prefix_cons.mpr ⟨rfl, List.nil_prefix⟩
        · intro c hc
          rw [List.mem_singleton] at hc
          rw [hc]
        · intro h
          simp at h
        · intro e2 he2
          simp only [Option.some.injEq] at he2
          subst he2
          exact ⟨[], ⟨k, mapGet m k, some e⟩, rfl, rfl, fun d hd => by simp at hd⟩
      | none =>
        have hrec : recordCalls fn k (mapGet m k) (s, log0)
            = ((s1, log0 ++ [⟨k, mapGet m k, none⟩]), none) := by
          simp [recordCalls, hfn]
        rw [iterateKeys_cons_ok m (recordCalls fn) k rest _ _ hrec,
          iterateKeys_cons_ok m fn k rest s s1 hfn]
        obtain ⟨calls, h1, h2, h3, h4, h5, h6, h7⟩ :=
          ih s1 (log0 ++ [⟨k, mapGet m k, none⟩])
        refine ⟨⟨k, mapGet m k, none⟩ :: calls, ?_, h2, h3, ?_, ?_, ?_, ?_⟩
        · rw [h1]
          simp
        · simp only [List.map_cons]
          exact List.cons_prefix_cons.mpr ⟨rfl, h4⟩
        · intro c hc
          rcases List.mem_cons.mp hc with hc1 | hc1
          · rw [hc1]
          · exact h5 c hc1
        · intro hnone
          obtain ⟨h61, h62⟩ := h6 hnone
          refine ⟨by simp only [List.map_cons, h61], ?_⟩
          intro c hc
          rcases List.mem_cons.mp hc with hc1 | hc1
          · rw [hc1]
          · exact h62 c hc1
        · intro e he
          obtain ⟨pre, c, hcalls, hce, hpre⟩ := h7 e he
          refine ⟨⟨k, mapGet m k, none⟩ :: pre, c, by rw [hcalls]; rfl, hce, ?_⟩
          intro d hd
          rcases List.mem_cons.mp hd with hd1 | hd1
          · rw [hd1]
          · exact hpre d hd1

theorem callsMade_spec {V σ ε : Type} [Inhabited V] (m : GoMap V) (fn : Callback V σ ε)
    (s : σ) :
    (iterateMapDeterministic m (recordCalls fn) (s, [])).1.1 = (iterateMapDeterministic m fn s).1 ∧
    (iterateMapDeterministic m (recordCalls fn) (s, [])).2 = (iterateMapDeterministic m fn s).2 ∧
    List.IsPrefix ((callsMade m fn s).map Call.key) (sortedKeys m) ∧
    (∀ c ∈ callsMade m fn s, c.value = mapGet m c.key) ∧
    ((iterateMapDeterministic m fn s).2 = none →
      (callsMade m fn s).map Call.key = sortedKeys m ∧ ∀ c ∈ callsMade m fn s, c.err = none) ∧
    (∀ e, (iterateMapDeterministic m fn s).2 = some e →
      ∃ pre c, callsMade m fn s = pre ++ [c] ∧ c.err = some e ∧ ∀ d ∈ pre, d.err = none) := by
  obtain ⟨calls, h1, h2, h3, h4, h5, h6, h7⟩ :=
    iterateKeys_recordCalls m fn (sortedKeys m) s []
  have hlog : callsMade m fn s = calls := by
    unfold callsMade iterateMapDeterministic
    rw [h1]
    rfl
  rw [hlog]
  exact ⟨h2, h3, h4, h5, h6, h7⟩

/-! ## Reading and writing Go maps -/

theorem mapLookup_mapSet {V : Type} (m : GoMap V) (k : String) (v : V) (k2 : String) :
    mapLookup (mapSet m k v) k2 = if k = k2 then some v else mapLookup m k2 := by
  induction m with
  | nil =>
    simp only [mapSet, mapLookup]
  | cons e rest ih =>
    obtain ⟨k1, w⟩ := e
    simp only [mapSet]
    by_cases h1 : k1 = k
    · subst h1
      simp only [if_true, mapLookup]
      by_cases h2 : k1 = k2
      · simp [h2]
      · simp [h2]
    · rw [if_neg h1]
      simp only [mapLookup]
      by_cases h2 : k1 = k2
      · subst h2
        have : ¬ k = k1 := fun h => h1 h.symm
        simp [this]
      · simp only [if_neg h2, ih]

theorem NodupKeys_mapSet {V : Type} (m : GoMap V) (k : String) (v : V) (h : NodupKeys m) :
    NodupKeys (mapSet m k v) := by
  induction m with
  | nil => simp [mapSet, NodupKeys, mapKeys]
  | cons e rest ih =>
    obtain ⟨k1, w⟩ := e
    unfold NodupKeys at h ih ⊢
    rw [mapKeys_cons, List.nodup_cons] at h
    simp only [mapSet]
    by_cases h1 : k1 = k
    · rw [if_pos h1, mapKeys_cons, List.nodup_cons]
      exact h
    · rw [if_neg h1, mapKeys_cons, List.nodup_cons]
      refine ⟨?_, ih h.2⟩
      intro hmem
      rcases (mem_mapKeys_mapSet rest k v k1).mp hmem with h2 | h2
      · exact h1 h2
      · exact h.1 h2

theorem NodupKeys_nil {V : Type} : NodupKeys ([] : GoMap V) := by
  simp [NodupKeys, mapKeys]

theorem mem_mapKeys_iff_mapLookup {V : Type} (m : GoMap V) (k : String) :
    k ∈ mapKeys m ↔ mapLookup m k ≠ none := by
  induction m with
  | nil => simp [mapKeys, mapLookup]
  | cons e rest ih =>
    obtain ⟨k1, w⟩ := e
    rw [mapKeys_cons, List.mem_cons]
    simp only [mapLookup]
    by_cases h : k1 = k
    · simp [h]
    · rw [if_neg h, ← ih]
      constructor
      · rintro (h1 | h1)
        · exact absurd h1.symm h
        · exact h1
      · exact Or.inr

theorem mapGet_eq_getD {V : Type} [Inhabited V] (m : GoMap V) (k : String) :
    mapGet m k = (mapLookup m k).getD default := rfl

/-! ## Grouping by denom -/

theorem lookupAmount_nil (denom address : String) : lookupAmount [] denom address = none := rfl

theorem lookupAmount_step (g : groupedByDenomAccountOperations) (address : String) (coin : Coin)
    (denom2 address2 : String) :
    lookupAmount
        (mapSet g coin.1
          (mapSet (mapGet g coin.1) address (mapGet (mapGet g coin.1) address + coin.2)))
        denom2 address2
      = if coin.1 = denom2 ∧ address = address2
        then some ((lookupAmount g coin.1 address).getD 0 + coin.2)
        else lookupAmount g denom2 address2 := by
  unfold lookupAmount
  rw [mapLookup_mapSet]
  by_cases hd : coin.1 = denom2
  · subst hd
    simp only [if_true, Option.some_bind, true_and]
    rw [mapLookup_mapSet]
    by_cases ha : address = address2
    · subst ha
      simp only [if_true]
      cases h1 : mapLookup g coin.1 with
      | none => simp [mapGet, h1, mapLookup]
      | some balances =>
        simp only [Option.some_bind, mapGet, h1, Option.getD_some]
        cases h2 : mapLookup balances address with
        | none => simp
        | some amount => simp
    · rw [if_neg ha, if_neg ha]
      cases h1 : mapLookup g coin.1 with
      | none => simp [mapGet, h1, mapLookup]
      | some balances => simp [mapGet, h1]
  · rw [if_neg hd, if_neg (fun h => hd h.1)]

theorem add_cons (g : groupedByDenomAccountOperations) (address : String) (coin : Coin)
    (coins : Coins) :
    groupedByDenomAccountOperations.add g address (coin :: coins)
      = groupedByDenomAccountOperations.add
          (mapSet g coin.1
            (mapSet (mapGet g coin.1) address (mapGet (mapGet g coin.1) address + coin.2)))
          address coins := rfl

theorem add_nil (g : groupedByDenomAccountOperations) (address : String) :
    groupedByDenomAccountOperations.add g address [] = g := rfl

theorem coinAmounts_cons (coin : Coin) (coins : Coins) (denom : String) :
    coinAmounts (coin :: coins) denom
      = if coin.1 = denom then coin.2 :: coinAmounts coins denom else coinAmounts coins denom := by
  unfold coinAmounts
  by_cases h : coin.1 = denom
  · simp [h]
  · simp [h]

theorem lookupAmount_add (g : groupedByDenomAccountOperations) (address : String)
    (coins : Coins) (denom2 address2 : String) :
    lookupAmount (groupedByDenomAccountOperations.add g address coins) denom2 address2
      = if address = address2 ∧ coinAmounts coins denom2 ≠ []
        then some ((lookupAmount g denom2 address2).getD 0 + (coinAmounts coins denom2).sum)
        else lookupAmount g denom2 address2 := by
  induction coins generalizing g with
  | nil => simp [add_nil, coinAmounts]
  | cons coin rest ih =>
    rw [add_cons, ih, lookupAmount_step, coinAmounts_cons]
    by_cases ha : address = address2
    · subst ha
      by_cases hd : coin.1 = denom2
      · subst hd
        simp only [true_and, and_self, if_true]
        by_cases hr : coinAmounts rest coin.1 = []
        · simp [hr]
        · simp only [hr, ne_eq, not_false_eq_true, if_true, Option.getD_some, List.sum_cons,
            reduceCtorEq]
          congr 1
          ring
      · simp [hd]
    · simp [ha]

theorem groupOperations_cons (g : groupedByDenomAccountOperations) (e : String × Coins)
    (entries : List (String × Coins)) :
    groupOperations g (e :: entries)
      = groupOperations (groupedByDenomAccountOperations.add g e.1 e.2) entries := rfl

theorem carriedAmounts_cons (e : String × Coins) (entries : List (String × Coins))
    (denom address : String) :
    carriedAmounts (e :: entries) denom address
      = if e.1 = address then coinAmounts e.2 denom ++ carriedAmounts entries denom address
        else carriedAmounts entries denom address := by
  unfold carriedAmounts
  by_cases h : e.1 = address
  · simp [h, List.flatMap]
  · simp [h]

theorem lookupAmount_groupOperations (g : groupedByDenomAccountOperations)
    (entries : List (String × Coins)) (denom address : String) :
    lookupAmount (groupOperations g entries) denom address
      = if carriedAmounts entries denom address ≠ []
        then some ((lookupAmount g denom address).getD 0
          + (carriedAmounts entries denom address).sum)
        else lookupAmount g denom address := by
  induction entries generalizing g with
  | nil => simp [groupOperations, carriedAmounts]
  | cons e rest ih =>
    rw [groupOperations_cons, ih, lookupAmount_add, carriedAmounts_cons]
    by_cases ha : e.1 = address
    · by_cases hc : coinAmounts e.2 denom = []
      · simp [ha, hc]
      · by_cases hr : carriedAmounts rest denom address = []
        · simp [ha, hc, hr]
        · simp only [ha, hc, hr, ne_eq, not_false_eq_true, and_self, if_true,
            Option.getD_some, List.append_eq_nil, List.sum_append, reduceCtorEq]
          congr 1
          ring
    · simp [ha]

theorem mem_mapKeys_add (g : groupedByDenomAccountOperations) (address : String) (coins : Coins)
    (k : String) :
    k ∈ mapKeys (groupedByDenomAccountOperations.add g address coins)
      ↔ k ∈ mapKeys g ∨ ∃ c ∈ coins, c.1 = k := by
  induction coins generalizing g with
  | nil => simp [add_nil]
  | cons coin rest ih =>
    rw [add_cons, ih, mem_mapKeys_mapSet]
    constructor
    · rintro ((h | h) | ⟨c, hc, hk⟩)
      · exact Or.inr ⟨coin, List.mem_cons_self _ _, h.symm⟩
      · exact Or.inl h
      · exact Or.inr ⟨c, List.mem_cons_of_mem _ hc, hk⟩
    · rintro (h | ⟨c, hc, hk⟩)
      · exact Or.inl (Or.inr h)
      · rcases List.mem_cons.mp hc with h1 | h1
        · exact Or.inl (Or.inl (by rw [← hk, h1]))
        · exact Or.inr ⟨c, h1, hk⟩

theorem mem_mapKeys_groupOperations (g : groupedByDenomAccountOperations)
    (entries : List (String × Coins)) (k : String) :
    k ∈ mapKeys (groupOperations g entries)
      ↔ k ∈ mapKeys g ∨ ∃ e ∈ entries, ∃ c ∈ e.2, c.1 = k := by
  induction entries generalizing g with
  | nil => simp [groupOperations]
  | cons e rest ih =>
    rw [groupOperations_cons, ih, mem_mapKeys_add]
    constructor
    · rintro ((h | ⟨c, hc, hk⟩) | ⟨e2, he2, c, hc, hk⟩)
      · exact Or.inl h
      · exact Or.inr ⟨e, List.mem_cons_self _ _, c, hc, hk⟩
      · exact Or.inr ⟨e2, List.mem_cons_of_mem _ he2, c, hc, hk⟩
    · rintro (h | ⟨e2, he2, c, hc, hk⟩)
      · exact Or.inl (Or.inl h)
      · rcases List.mem_cons.mp he2 with h1 | h1
        · subst h1
          exact Or.inl (Or.inr ⟨c, hc, hk⟩)
        · exact Or.inr ⟨e2, h1, c, hc, hk⟩

theorem mapGet_mapSet {V : Type} [Inhabited V] (m : GoMap V) (k : String) (v : V)
    (k2 : String) : mapGet (mapSet m k v) k2 = if k = k2 then v else mapGet m k2 := by
  unfold mapGet
  rw [mapLookup_mapSet]
  by_cases h : k = k2
  · simp [h]
  · simp [h]

theorem NodupKeys_mapGet_nil (denom : String) :
    NodupKeys (mapGet ([] : groupedByDenomAccountOperations) denom) := by
  have : mapGet ([] : groupedByDenomAccountOperations) denom = [] := rfl
  rw [this]
  exact NodupKeys_nil

theorem wellFormed_add (g : groupedByDenomAccountOperations) (address : String) (coins : Coins)
    (h1 : NodupKeys g) (h2 : ∀ denom, NodupKeys (mapGet g denom)) :
    NodupKeys (groupedByDenomAccountOperations.add g address coins) ∧
    ∀ denom, NodupKeys (mapGet (groupedByDenomAccountOperations.add g address coins) denom) := by
  induction coins generalizing g with
  | nil => exact ⟨h1, h2⟩
  | cons coin rest ih =>
    rw [add_cons]
    apply ih
    · exact NodupKeys_mapSet _ _ _ h1
    · intro denom
      rw [mapGet_mapSet]
      by_cases hd : coin.1 = denom
      · rw [if_pos hd]
        exact NodupKeys_mapSet _ _ _ (h2 coin.1)
      · rw [if_neg hd]
        exact h2 denom

theorem wellFormed_groupOperations (g : groupedByDenomAccountOperations)
    (entries : List (String × Coins))
    (h1 : NodupKeys g) (h2 : ∀ denom, NodupKeys (mapGet g denom)) :
    NodupKeys (groupOperations g entries) ∧
    ∀ denom, NodupKeys (mapGet (groupOperations g entries) denom) := by
  induction entries generalizing g with
  | nil => exact ⟨h1, h2⟩
  | cons e rest ih =>
    rw [groupOperations_cons]
    obtain ⟨h3, h4⟩ := wellFormed_add g e.1 e.2 h1 h2
    exact ih _ h3 h4

theorem mem_mapKeys_mapGet_iff (g : groupedByDenomAccountOperations) (denom address : String) :
    address ∈ mapKeys (mapGet g denom) ↔ lookupAmount g denom address ≠ none := by
  unfold mapGet lookupAmount
  cases h : mapLookup g denom with
  | none =>
    have : (default : accountOperationMap) = [] := rfl
    simp [this, mapKeys]
  | some balances =>
    simp only [Option.getD_some, Option.some_bind]
    exact mem_mapKeys_iff_mapLookup balances address

theorem mapGet_mapGet_eq (g : groupedByDenomAccountOperations) (denom address : String) :
    mapGet (mapGet g denom) address = (lookupAmount g denom address).getD 0 := by
  unfold lookupAmount
  cases h : mapLookup g denom with
  | none =>
    have : mapGet g denom = [] := by
      unfold mapGet
      rw [h]
      rfl
    rw [this]
    rfl
  | some balances =>
    have : mapGet g denom = balances := by
      unfold mapGet
      rw [h]
      rfl
    rw [this]
    rfl

theorem coinAmounts_ne_nil_iff (coins : Coins) (denom : String) :
    coinAmounts coins denom ≠ [] ↔ ∃ c ∈ coins, c.1 = denom := by
  induction coins with
  | nil => simp [coinAmounts]
  | cons coin rest ih =>
    rw [coinAmounts_cons]
    by_cases h : coin.1 = denom
    · simp [h]
    · rw [if_neg h, ih]
      constructor
      · rintro ⟨c, hc, hk⟩
        exact ⟨c, List.mem_cons_of_mem _ hc, hk⟩
      · rintro ⟨c, hc, hk⟩
        rcases List.mem_cons.mp hc with h1 | h1
        · exact absurd (h1 ▸ hk) h
        · exact ⟨c, h1, hk⟩

theorem carriedAmounts_ne_nil_iff (entries : List (String × Coins)) (denom address : String) :
    carriedAmounts entries denom address ≠ []
      ↔ ∃ e ∈ entries, e.1 = address ∧ ∃ c ∈ e.2, c.1 = denom := by
  induction entries with
  | nil => simp [carriedAmounts]
  | cons e rest ih =>
    rw [carriedAmounts_cons]
    by_cases h : e.1 = address
    · rw [if_pos h]
      constructor
      · intro hne
        by_cases hc : coinAmounts e.2 denom = []
        · rw [hc, List.nil_append] at hne
          obtain ⟨e2, he2, h2⟩ := ih.mp hne
          exact ⟨e2, List.mem_cons_of_mem _ he2, h2⟩
        · exact ⟨e, List.mem_cons_self _ _, h, (coinAmounts_ne_nil_iff e.2 denom).mp hc⟩
      · rintro ⟨e2, he2, ha, hc⟩
        rcases List.mem_cons.mp he2 with h1 | h1
        · subst h1
          have := (coinAmounts_ne_nil_iff e2.2 denom).mpr hc
          intro hnil
          exact this (List.append_eq_nil.mp hnil).1
        · have := ih.mpr ⟨e2, h1, ha, hc⟩
          intro hnil
          exact this (List.append_eq_nil.mp hnil).2
    · rw [if_neg h, ih]
      constructor
      · rintro ⟨e2, he2, h2⟩
        exact ⟨e2, List.mem_cons_of_mem _ he2, h2⟩
      · rintro ⟨e2, he2, ha, hc⟩
        rcases List.mem_cons.mp he2 with h1 | h1
        · exact absurd (h1 ▸ ha) h
        · exact ⟨e2, h1, ha, hc⟩

theorem groupOperations_spec (entries : List (String × Coins)) :
    GroupsGrossAmounts entries (groupOperations [] entries) := by
  obtain ⟨h1, h2⟩ := wellFormed_groupOperations [] entries NodupKeys_nil NodupKeys_mapGet_nil
  refine ⟨h1, h2, ?_, ?_, ?_⟩
  · intro denom
    rw [mem_mapKeys_groupOperations]
    simp [mapKeys]
  · intro denom address
    rw [mem_mapKeys_mapGet_iff, lookupAmount_groupOperations, lookupAmount_nil,
      ← carriedAmounts_ne_nil_iff]
    by_cases h : carriedAmounts entries denom address = []
    · simp [h]
    · simp [h]
  · intro denom address
    rw [mapGet_mapGet_eq, lookupAmount_groupOperations, lookupAmount_nil]
    by_cases h : carriedAmounts entries denom address = []
    · simp [h]
    · simp [h]

theorem groupInputs_eq (inputs : List Input) :
    groupInputs inputs = groupOperations [] (inputs.map (fun i => (i.Address, i.Coins))) := by
  unfold groupInputs groupOperations
  rw [List.foldl_map]

theorem groupOutputs_eq (outputs : List Output) :
    groupOutputs outputs = groupOperations [] (outputs.map (fun o => (o.Address, o.Coins))) := by
  unfold groupOutputs groupOperations
  rw [List.foldl_map]

theorem carriedAmounts_sum_nonneg (entries : List (String × Coins)) (denom address : String)
    (h : ∀ e ∈ entries, ∀ c ∈ e.2, 0 ≤ c.2) : 0 ≤ (carriedAmounts entries denom address).sum := by
  induction entries with
  | nil => simp [carriedAmounts]
  | cons e rest ih =>
    rw [carriedAmounts_cons]
    have hrest := ih (fun e2 he2 => h e2 (List.mem_cons_of_mem _ he2))
    by_cases ha : e.1 = address
    · rw [if_pos ha, List.sum_append]
      have : 0 ≤ (coinAmounts e.2 denom).sum := by
        apply List.sum_nonneg
        intro x hx
        unfold coinAmounts at hx
        obtain ⟨c, hc, rfl⟩ := List.mem_map.mp hx
        exact h e (List.mem_cons_self _ _) c (List.mem_of_mem_filter hc)
      omega
    · rw [if_neg ha]
      exact hrest

/-! ## The log of an instrumented keeper -/

theorem FailsLast_nil {ε A : Type} (r : Option (Abort ε)) (h : ∀ e, r ≠ some (Abort.error e)) :
    FailsLast ([] : List (KeeperLogEntry ε A)) r := by
  constructor
  · intro e he
    exact absurd he (h e)
  · intro _ c hc
    simp at hc

theorem FailsLast_single {ε A : Type} (call : KeeperCall A) (err : Option ε) :
    FailsLast [(⟨call, err⟩ : KeeperLogEntry ε A)] (err.map Abort.error) := by
  constructor
  · intro e he
    cases err with
    | none => simp at he
    | some e2 =>
      simp only [Option.map_some', Option.some.injEq, Abort.error.injEq] at he
      subst he
      exact ⟨[], ⟨call, some e2⟩, rfl, rfl, fun d hd => by simp at hd⟩
  · intro h c hc
    rw [List.mem_singleton] at hc
    subst hc
    cases err with
    | none => rfl
    | some e2 => exact absurd rfl (h e2)

theorem FailsLast_append {ε A : Type} (c1 c2 : List (KeeperLogEntry ε A))
    (r : Option (Abort ε)) (h1 : FailsLast c1 none) (h2 : FailsLast c2 r) :
    FailsLast (c1 ++ c2) r := by
  have hok : ∀ c ∈ c1, c.err = none := h1.2 (fun e he => by simp at he)
  constructor
  · intro e he
    obtain ⟨pre, c, hc, hce, hpre⟩ := h2.1 e he
    refine ⟨c1 ++ pre, c, by rw [hc, List.append_assoc], hce, ?_⟩
    intro d hd
    rcases List.mem_append.mp hd with h | h
    · exact hok d h
    · exact hpre d h
  · intro h c hc
    rcases List.mem_append.mp hc with h3 | h3
    · exact hok c h3
    · exact h2.2 h c h3

theorem instruments_stop {σ ε A : Type} (r : Option (Abort ε))
    (h : ∀ e, r ≠ some (Abort.error e)) :
    Instruments (fun st : σ × List (KeeperLogEntry ε A) => (st, r)) (fun s => (s, r)) := by
  intro s log
  exact ⟨[], by simp, FailsLast_nil r h⟩

theorem instruments_iterateKeys {V σ ε A : Type} [Inhabited V] (m : GoMap V)
    (fnI : Callback V (σ × List (KeeperLogEntry ε A)) (Abort ε))
    (fn : Callback V σ (Abort ε))
    (h : ∀ key v, Instruments (fnI key v) (fn key v)) (ks : List String) :
    Instruments (iterateKeys m fnI ks) (iterateKeys m fn ks) := by
  induction ks with
  | nil =>
    intro s log
    exact ⟨[], by simp [iterateKeys_nil], FailsLast_nil none (fun e he => by simp at he)⟩
  | cons key rest ih =>
    intro s log
    obtain ⟨c1, hrun, hfl⟩ := h key (mapGet m key) s log
    cases hres : fn key (mapGet m key) s with
    | mk s1 r =>
      rw [hres] at hrun hfl
      cases r with
      | some err =>
        rw [iterateKeys_cons_err m fnI key rest (s, log) (s1, log ++ c1) err hrun,
          iterateKeys_cons_err m fn key rest s s1 err hres]
        exact ⟨c1, rfl, hfl⟩
      | none =>
        rw [iterateKeys_cons_ok m fnI key rest (s, log) (s1, log ++ c1) hrun,
          iterateKeys_cons_ok m fn key rest s s1 hres]
        obtain ⟨c2, hrun2, hfl2⟩ := ih s1 (log ++ c1)
        refine ⟨c1 ++ c2, ?_, FailsLast_append c1 c2 _ hfl hfl2⟩
        rw [hrun2, List.append_assoc]

theorem instruments_iterateMapDeterministic {V σ ε A : Type} [Inhabited V] (m : GoMap V)
    (fnI : Callback V (σ × List (KeeperLogEntry ε A)) (Abort ε))
    (fn : Callback V σ (Abort ε))
    (h : ∀ key v, Instruments (fnI key v) (fn key v)) :
    Instruments (iterateMapDeterministic m fnI) (iterateMapDeterministic m fn) :=
  instruments_iterateKeys m fnI fn h (sortedKeys m)

theorem instruments_burnCallback {σ ε A : Type} (k : Keeper σ ε A) (definition : Definition)
    (key : String) (v : Int) :
    Instruments (burnCallback (recordKeeper k) definition key v)
      (burnCallback k definition key v) := by
  intro s log
  unfold burnCallback
  cases h : k.accAddressFromBech32 key with
  | none =>
    have : (recordKeeper k).accAddressFromBech32 key = none := h
    simp only [this]
    exact ⟨[], by simp, FailsLast_nil _ (fun e he => by simp at he)⟩
  | some address =>
    have : (recordKeeper k).accAddressFromBech32 key = some address := h
    simp only [this]
    exact ⟨[⟨KeeperCall.burnIfSpendable address definition v,
      (k.burnIfSpendable address definition v s).2⟩], rfl, FailsLast_single _ _⟩

theorem instruments_spendableCallback {σ ε A : Type} (k : Keeper σ ε A)
    (definition : Definition) (key : String) (v : Int) :
    Instruments (spendableCallback (recordKeeper k) definition key v)
      (spendableCallback k definition key v) := by
  intro s log
  unfold spendableCallback
  cases h : k.accAddressFromBech32 key with
  | none =>
    have : (recordKeeper k).accAddressFromBech32 key = none := h
    simp only [this]
    exact ⟨[], by simp, FailsLast_nil _ (fun e he => by simp at he)⟩
  | some address =>
    have : (recordKeeper k).accAddressFromBech32 key = some address := h
    simp only [this]
    exact ⟨[⟨KeeperCall.isCoinSpendable address definition v,
      (k.isCoinSpendable address definition v s).2⟩], rfl, FailsLast_single _ _⟩

theorem instruments_receivableCallback {σ ε A : Type} (k : Keeper σ ε A)
    (definition : Definition) (key : String) (v : Int) :
    Instruments (receivableCallback (recordKeeper k) definition key v)
      (receivableCallback k definition key v) := by
  intro s log
  unfold receivableCallback
  cases h : k.accAddressFromBech32 key with
  | none =>
    have : (recordKeeper k).accAddressFromBech32 key = none := h
    simp only [this]
    exact ⟨[], by simp, FailsLast_nil _ (fun e he => by simp at he)⟩
  | some address =>
    have : (recordKeeper k).accAddressFromBech32 key = some address := h
    simp only [this]
    exact ⟨[⟨KeeperCall.isCoinReceivable address definition v,
      (k.isCoinReceivable address definition v s).2⟩], rfl, FailsLast_single _ _⟩

theorem instruments_commissionCallback {σ ε A : Type} (k : Keeper σ ε A)
    (definition : Definition) (issuer : A) (key : String) (v : Int) :
    Instruments (commissionCallback (recordKeeper k) definition issuer key v)
      (commissionCallback k definition issuer key v) := by
  intro s log
  unfold commissionCallback
  have hcoin : NewCoin (recordKeeper k) definition.Denom v = NewCoin k definition.Denom v := rfl
  rw [hcoin]
  cases hc : NewCoin k definition.Denom v with
  | none =>
    exact ⟨[], by simp, FailsLast_nil _ (fun e he => by simp at he)⟩
  | some coin =>
    simp only []
    cases h : k.accAddressFromBech32 key with
    | none =>
      have : (recordKeeper k).accAddressFromBech32 key = none := h
      simp only [this]
      exact ⟨[], by simp, FailsLast_nil _ (fun e he => by simp at he)⟩
    | some address =>
      have : (recordKeeper k).accAddressFromBech32 key = some address := h
      simp only [this]
      exact ⟨[⟨KeeperCall.SendCoins address issuer (NewCoins [coin]),
        (k.SendCoins address issuer (NewCoins [coin]) s).2⟩], rfl, FailsLast_single _ _⟩

theorem andThen_ok {σ ε : Type} (s1 : σ) (next : σ → σ × Option ε) :
    andThen (s1, (none : Option ε)) next = next s1 := rfl

theorem andThen_err {σ ε : Type} (s1 : σ) (err : ε) (next : σ → σ × Option ε) :
    andThen (s1, some err) next = (s1, some err) := rfl

theorem instruments_andThen {σ ε A : Type}
    (f1 f2 : σ × List (KeeperLogEntry ε A) → (σ × List (KeeperLogEntry ε A)) × Option (Abort ε))
    (g1 g2 : σ → σ × Option (Abort ε))
    (h1 : Instruments f1 g1) (h2 : Instruments f2 g2) :
    Instruments (fun st => andThen (f1 st) f2) (fun s => andThen (g1 s) g2) := by
  intro s log
  obtain ⟨c1, hrun, hfl⟩ := h1 s log
  simp only [hrun]
  cases hres : g1 s with
  | mk s1 r =>
    rw [hres] at hfl
    cases r with
    | some err =>
      rw [andThen_err, andThen_err]
      exact ⟨c1, rfl, hfl⟩
    | none =>
      rw [andThen_ok, andThen_ok]
      obtain ⟨c2, hrun2, hfl2⟩ := h2 s1 (log ++ c1)
      refine ⟨c1 ++ c2, ?_, FailsLast_append c1 c2 _ hfl hfl2⟩
      rw [hrun2, List.append_assoc]

theorem instruments_applyRulesToken {σ ε A : Type} (k : Keeper σ ε A) (ctx : Context)
    (definition : Definition) (inOps outOps : accountOperationMap) :
    Instruments (applyRulesToken (recordKeeper k) ctx definition inOps outOps)
      (applyRulesToken k ctx definition inOps outOps) := by
  have hburn := instruments_iterateMapDeterministic
    (CalculateRateShares ctx definition.BurnRate definition.Issuer inOps outOps)
    (burnCallback (recordKeeper k) definition) (burnCallback k definition)
    (instruments_burnCallback k definition)
  have hspend := instruments_iterateMapDeterministic inOps
    (spendableCallback (recordKeeper k) definition) (spendableCallback k definition)
    (instruments_spendableCallback k definition)
  have hrecv := instruments_iterateMapDeterministic outOps
    (receivableCallback (recordKeeper k) definition) (receivableCallback k definition)
    (instruments_receivableCallback k definition)
  cases hiss : k.accAddressFromBech32 definition.Issuer with
  | none =>
    have hiss2 : (recordKeeper k).accAddressFromBech32 definition.Issuer = none := hiss
    have h2 : Instruments (fun st : σ × List (KeeperLogEntry ε A) => (st, some Abort.panic))
        (fun s => (s, some (Abort.panic : Abort ε))) :=
      instruments_stop _ (fun e he => by simp at he)
    have := instruments_andThen _ _ _ _ hburn h2
    unfold applyRulesToken
    simp only [hiss, hiss2]
    exact this
  | some issuer =>
    have hiss2 : (recordKeeper k).accAddressFromBech32 definition.Issuer = some issuer := hiss
    have hcomm := instruments_iterateMapDeterministic
      (CalculateRateShares ctx definition.SendCommissionRate definition.Issuer inOps outOps)
      (commissionCallback (recordKeeper k) definition issuer)
      (commissionCallback k definition issuer)
      (instruments_commissionCallback k definition issuer)
    have := instruments_andThen _ _ _ _ hburn
      (instruments_andThen _ _ _ _ hcomm (instruments_andThen _ _ _ _ hspend hrecv))
    unfold applyRulesToken
    simp only [hiss, hiss2]
    exact this

theorem instruments_applyRulesDenom {σ ε A : Type} (k : Keeper σ ε A) (ctx : Context)
    (outputs : groupedByDenomAccountOperations) (denom : String) (inOps : accountOperationMap) :
    Instruments (applyRulesDenom (recordKeeper k) ctx outputs denom inOps)
      (applyRulesDenom k ctx outputs denom inOps) := by
  intro s log
  unfold applyRulesDenom
  have h1 : (recordKeeper k).GetDefinition denom (s, log) = k.GetDefinition denom s := rfl
  have h2 : ∀ err, isUnmanaged (recordKeeper k) err = isUnmanaged k err := fun _ => rfl
  simp only [h1, h2]
  by_cases hu : isUnmanaged k (k.GetDefinition denom s).2 = true
  · simp only [hu, if_true]
    exact ⟨[], by simp, FailsLast_nil none (fun e he => by simp at he)⟩
  · simp only [hu, if_false]
    exact instruments_applyRulesToken k ctx _ inOps _ s log

theorem instruments_applyRules {σ ε A : Type} (k : Keeper σ ε A) (ctx : Context)
    (inputs outputs : groupedByDenomAccountOperations) :
    Instruments (applyRules (recordKeeper k) ctx inputs outputs)
      (applyRules k ctx inputs outputs) :=
  instruments_iterateMapDeterministic inputs _ _ (instruments_applyRulesDenom k ctx outputs)

theorem instruments_applyFeatures {σ ε A : Type} (k : Keeper σ ε A) (ctx : Context)
    (inputs : List Input) (outputs : List Output) :
    Instruments (applyFeatures (recordKeeper k) ctx inputs outputs)
      (applyFeatures k ctx inputs outputs) :=
  instruments_applyRules k ctx _ _

/-! ## Unmanaged denoms -/

theorem applyRulesDenom_unmanaged {σ ε A : Type} (k : Keeper σ ε A) (ctx : Context)
    (outputs : groupedByDenomAccountOperations) (denom : String) (inOps : accountOperationMap)
    (s : σ) (h : isUnmanaged k (k.GetDefinition denom s).2 = true) :
    applyRulesDenom k ctx outputs denom inOps s = (s, none) := by
  unfold applyRulesDenom
  simp only [h, if_true]

theorem iterateKeys_unmanaged {σ ε A : Type} (k : Keeper σ ε A) (ctx : Context)
    (inputs outputs : groupedByDenomAccountOperations) (s : σ) (ks : List String)
    (h : ∀ denom ∈ ks, isUnmanaged k (k.GetDefinition denom s).2 = true) :
    iterateKeys inputs (applyRulesDenom k ctx outputs) ks s = (s, none) := by
  induction ks with
  | nil => rfl
  | cons denom rest ih =>
    rw [iterateKeys_cons_ok inputs _ denom rest s s
      (applyRulesDenom_unmanaged k ctx outputs denom _ s (h denom (List.mem_cons_self _ _)))]
    exact ih (fun d hd => h d (List.mem_cons_of_mem _ hd))

theorem mem_inputDenoms (inputs : List Input) (denom : String) :
    denom ∈ inputDenoms inputs ↔ ∃ i ∈ inputs, ∃ c ∈ i.Coins, c.1 = denom := by
  unfold inputDenoms
  induction inputs with
  | nil => simp
  | cons i rest ih =>
    rw [List.flatMap_cons, List.mem_append, ih]
    constructor
    · rintro (h | ⟨i2, hi2, h2⟩)
      · obtain ⟨c, hc, hk⟩ := List.mem_map.mp h
        exact ⟨i, List.mem_cons_self _ _, c, hc, hk⟩
      · exact ⟨i2, List.mem_cons_of_mem _ hi2, h2⟩
    · rintro ⟨i2, hi2, c, hc, hk⟩
      rcases List.mem_cons.mp hi2 with h1 | h1
      · subst h1
        exact Or.inl (List.mem_map.mpr ⟨c, hc, hk⟩)
      · exact Or.inr ⟨i2, h1, c, hc, hk⟩

theorem mem_mapKeys_groupInputs (inputs : List Input) (denom : String) :
    denom ∈ mapKeys (groupInputs inputs) ↔ denom ∈ inputDenoms inputs := by
  rw [groupInputs_eq, mem_mapKeys_groupOperations, mem_inputDenoms]
  constructor
  · rintro (h | ⟨e, he, c, hc, hk⟩)
    · simp [mapKeys] at h
    · obtain ⟨i, hi, rfl⟩ := List.mem_map.mp he
      exact ⟨i, hi, c, hc, hk⟩
  · rintro ⟨i, hi, c, hc, hk⟩
    exact Or.inr ⟨(i.Address, i.Coins), List.mem_map.mpr ⟨i, hi, rfl⟩, c, hc, hk⟩

theorem applyFeatures_unmanaged {σ ε A : Type} (k : Keeper σ ε A) (ctx : Context)
    (inputs : List Input) (outputs : List Output) (s : σ)
    (h : ∀ denom ∈ inputDenoms inputs, isUnmanaged k (k.GetDefinition denom s).2 = true) :
    applyFeatures k ctx inputs outputs s = (s, none) := by
  unfold applyFeatures applyRules iterateMapDeterministic
  apply iterateKeys_unmanaged
  intro denom hd
  exact h denom ((mem_mapKeys_groupInputs inputs denom).mp ((mem_sortedKeys _ denom).mp hd))

theorem keeperCalls_eq {σ ε A : Type} (k : Keeper σ ε A) (ctx : Context)
    (inputs : List Input) (outputs : List Output) (s : σ) :
    applyFeatures (recordKeeper k) ctx inputs outputs (s, [])
        = (((applyFeatures k ctx inputs outputs s).1, keeperCalls k ctx inputs outputs s),
            (applyFeatures k ctx inputs outputs s).2) ∧
    FailsLast (keeperCalls k ctx inputs outputs s) (applyFeatures k ctx inputs outputs s).2 := by
  obtain ⟨calls, hrun, hfl⟩ := instruments_applyFeatures k ctx inputs outputs s []
  have hcalls : keeperCalls k ctx inputs outputs s = calls := by
    unfold keeperCalls
    rw [hrun]
    simp
  rw [hcalls]
  refine ⟨?_, hfl⟩
  rw [hrun]
  simp

/-! ## Store keys -/

theorem goIndex_zero_cons (b : Byte) (rest : List Byte) : goIndex (b :: rest) 0 = some b := by
  unfold goIndex
  have : (0 : Int) < ((b :: rest).length : Int) := by
    rw [List.length_cons]
    omega
  simp [this]

theorem goSlice_one_cons (b : Byte) (rest : List Byte) (n : Nat) (h : n ≤ rest.length) :
    goSlice (b :: rest) 1 ((n : Int) + 1) = some (rest.take n) := by
  unfold goSlice
  have h1 : (0 : Int) ≤ 1 ∧ (1 : Int) ≤ (n : Int) + 1 ∧
      (n : Int) + 1 ≤ ((b :: rest).length : Int) := by
    rw [List.length_cons]
    refine ⟨by omega, by omega, ?_⟩
    push_cast
    omega
  rw [if_pos h1]
  have h2 : ((n : Int) + 1 - 1).toNat = n := by omega
  have h3 : (1 : Int).toNat = 1 := rfl
  rw [h2, h3]
  rfl

theorem AddressFromBalancesStore_nil {ε : Type} (e : ε) :
    AddressFromBalancesStore e [] = some (Except.error e) := rfl

theorem AddressFromBalancesStore_cons {ε : Type} (e : ε) (b : Byte) (rest : List Byte) :
    AddressFromBalancesStore e (b :: rest)
      = if rest.length < b.val then some (Except.error e)
        else some (Except.ok (rest.take b.val)) := by
  unfold AddressFromBalancesStore
  rw [goIndex_zero_cons]
  have hlen : ¬ (b :: rest).length = 0 := by simp
  simp only [hlen, if_false]
  by_cases h : rest.length < b.val
  · have h2 : ((b :: rest).length : Int) - 1 < (b.val : Int) := by
      rw [List.length_cons]
      push_cast
      omega
    rw [if_pos h2, if_pos h]
  · have h2 : ¬ ((b :: rest).length : Int) - 1 < (b.val : Int) := by
      rw [List.length_cons]
      push_cast
      omega
    rw [if_neg h2, if_neg h, goSlice_one_cons b rest b.val (by omega)]
    rfl

/-! ## The upgrade scheduler -/

theorem effectiveState_of_no_pending (now : Int) (t : TokenState) (hp : t.pending = none) :
    effectiveState now t = t := by
  unfold effectiveState
  rw [hp]
  cases schedulerState t <;> rfl

theorem effectiveState_of_upgraded (now : Int) (t : TokenState) (hv : 1 ≤ t.definition.Version) :
    effectiveState now t = t := by
  have hs : schedulerState t = SchedulerState.V1Upgraded := by
    unfold schedulerState
    rw [if_pos hv]
  unfold effectiveState
  rw [hs]

theorem schedulerState_unrestricted (t : TokenState) (hv : t.definition.Version = 0)
    (hp : t.pending = none) : schedulerState t = SchedulerState.V0Unrestricted := by
  unfold schedulerState
  rw [hv, hp]
  rfl

theorem schedulerState_pending (t : TokenState) (record : PendingUpgrade)
    (hv : t.definition.Version = 0) (hp : t.pending = some record) :
    schedulerState t = SchedulerState.V0PendingUpgrade := by
  unfold schedulerState
  rw [hv, hp]
  rfl

theorem effectiveState_pending_early (now : Int) (t : TokenState) (record : PendingUpgrade)
    (hv : t.definition.Version = 0) (hp : t.pending = some record) (h : now < record.endTime) :
    effectiveState now t = t := by
  unfold effectiveState
  rw [schedulerState_pending t record hv hp, hp]
  simp only
  rw [if_neg (not_le.mpr h)]

theorem effectiveState_pending_due (now : Int) (t : TokenState) (record : PendingUpgrade)
    (hv : t.definition.Version = 0) (hp : t.pending = some record) (h : record.endTime ≤ now) :
    effectiveState now t
      = { definition :=
            { t.definition with
              Version := 1
              Features :=
                if record.ibcEnabled then enableIBC t.definition.Features
                else clearIBC t.definition.Features }
          pending := none
          status := t.status } := by
  unfold effectiveState
  rw [schedulerState_pending t record hv hp, hp]
  simp only
  rw [if_pos h]

theorem stateAt_unrestricted_iff (now : Int) (t : TokenState) :
    stateAt now t = SchedulerState.V0Unrestricted
      ↔ t.definition.Version = 0 ∧ t.pending = none := by
  constructor
  · intro h
    unfold stateAt at h
    by_cases hv : 1 ≤ t.definition.Version
    · rw [effectiveState_of_upgraded now t hv] at h
      unfold schedulerState at h
      rw [if_pos hv] at h
      cases h
    · have hv0 : t.definition.Version = 0 := by omega
      cases hp : t.pending with
      | none => exact ⟨hv0, rfl⟩
      | some record =>
        by_cases hd : record.endTime ≤ now
        · rw [effectiveState_pending_due now t record hv0 hp hd] at h
          unfold schedulerState at h
          simp at h
        · rw [effectiveState_pending_early now t record hv0 hp (not_le.mp hd),
            schedulerState_pending t record hv0 hp] at h
          cases h
  · rintro ⟨hv, hp⟩
    unfold stateAt
    rw [effectiveState_of_no_pending now t hp]
    exact schedulerState_unrestricted t hv hp

theorem requestUpgrade_unrestricted (params : UpgradeParams) (now : Int) (sender : String)
    (ibcEnabled : Bool) (t : TokenState) (hv : t.definition.Version = 0)
    (hp : t.pending = none) :
    requestUpgrade params now sender ibcEnabled t
      = if sender ≠ t.definition.Issuer then (t, some UpgradeError.Unauthorized)
        else if params.decisionTimeout ≤ now then (t, some UpgradeError.UpgradeWindowClosed)
        else if ibcEnabled then
          ({ definition := t.definition
             pending := some ⟨t.definition.Denom, true, now, now + params.gracePeriod⟩
             status := some ⟨true, now, now + params.gracePeriod⟩ }, none)
        else
          ({ definition :=
               { t.definition with
                 Version := 1
                 Features := clearIBC t.definition.Features }
             pending := none
             status := some ⟨false, now, now⟩ }, none) := by
  unfold requestUpgrade
  simp only [effectiveState_of_no_pending now t hp, schedulerState_unrestricted t hv hp]

theorem mem_clearIBC (features : List Feature) (f : Feature) :
    f ∈ clearIBC features ↔ f ∈ features ∧ f ≠ Feature.ibc := by
  unfold clearIBC
  rw [List.mem_filter]
  simp

theorem observeAll_cons (time : Int) (times : List Int) (t : TokenState) :
    observeAll (time :: times) t = observeAll times (effectiveState time t) := rfl

theorem observeAll_of_upgraded (times : List Int) (t : TokenState)
    (hv : 1 ≤ t.definition.Version) : observeAll times t = t := by
  induction times with
  | nil => rfl
  | cons time rest ih =>
    rw [observeAll_cons, effectiveState_of_upgraded time t hv]
    exact ih

theorem observeAll_pending (times : List Int) (t : TokenState) (record : PendingUpgrade)
    (hv : t.definition.Version = 0) (hp : t.pending = some record) :
    ((∀ time ∈ times, time < record.endTime) → observeAll times t = t) ∧
    (observeAll times t = t ∨
      observeAll times t
        = { definition :=
              { t.definition with
                Version := 1
                Features :=
                  if record.ibcEnabled then enableIBC t.definition.Features
                  else clearIBC t.definition.Features }
            pending := none
            status := t.status }) := by
  induction times with
  | nil => exact ⟨fun _ => rfl, Or.inl rfl⟩
  | cons time rest ih =>
    rw [observeAll_cons]
    by_cases hd : record.endTime ≤ time
    · rw [effectiveState_pending_due time t record hv hp hd]
      constructor
      · intro hall
        have := hall time (List.mem_cons_self _ _)
        omega
      · right
        exact observeAll_of_upgraded rest _ (by simp)
    · rw [effectiveState_pending_early time t record hv hp (not_le.mp hd)]
      constructor
      · intro hall
        exact ih.1 (fun τ hτ => hall τ (List.mem_cons_of_mem _ hτ))
      · exact ih.2

theorem requestUpgrade_accepted (params : UpgradeParams) (now : Int) (sender : String)
    (ibcEnabled : Bool) (t : TokenState)
    (h : (requestUpgrade params now sender ibcEnabled t).2 = none) :
    t.definition.Version = 0 ∧ t.pending = none ∧ sender = t.definition.Issuer ∧
      now < params.decisionTimeout := by
  cases hcur : stateAt now t with
  | V1Upgraded =>
    unfold stateAt at hcur
    unfold requestUpgrade at h
    simp only [hcur] at h
    cases h
  | V0PendingUpgrade =>
    unfold stateAt at hcur
    unfold requestUpgrade at h
    simp only [hcur] at h
    cases h
  | V0Unrestricted =>
    obtain ⟨hv, hp⟩ := (stateAt_unrestricted_iff now t).mp hcur
    rw [requestUpgrade_unrestricted params now sender ibcEnabled t hv hp] at h
    by_cases hs : sender ≠ t.definition.Issuer
    · rw [if_pos hs] at h
      cases h
    · rw [if_neg hs] at h
      by_cases ht : params.decisionTimeout ≤ now
      · rw [if_pos ht] at h
        cases h
      · exact ⟨hv, hp, not_not.mp hs, not_le.mp ht⟩

/-! ## Shares: exact cases, bounds and monotonicity -/

theorem mem_of_mapLookup {V : Type} (m : GoMap V) (k : String) (v : V)
    (h : mapLookup m k = some v) : (k, v) ∈ m := by
  induction m with
  | nil => simp [mapLookup] at h
  | cons e rest ih =>
    obtain ⟨k1, w⟩ := e
    simp only [mapLookup] at h
    by_cases hk : k1 = k
    · rw [if_pos hk] at h
      simp only [Option.some.injEq] at h
      rw [hk, h]
      exact List.mem_cons_self _ _
    · rw [if_neg hk] at h
      exact List.mem_cons_of_mem _ (ih h)

theorem finalShare_full_base (rate : Dec) (s amt : Int) (hs : s ≠ 0) :
    finalShare rate s s amt = ⌈rate.toRat * (amt : ℚ)⌉ := by
  rw [finalShare_eq]
  have h1 : rate.i * (s * amt) = s * (rate.i * amt) := by ring
  rw [h1, Int.mul_tdiv_cancel_left _ hs]
  unfold Dec.toRat
  congr 1
  push_cast
  ring

theorem Dec.toRat_le_one (r : Dec) : r.toRat ≤ 1 ↔ r.i ≤ precisionReuse := by
  unfold Dec.toRat precisionReuse
  rw [div_le_iff₀ (by norm_num), one_mul]
  constructor
  · intro h
    exact_mod_cast h
  · intro h
    exact_mod_cast h

theorem finalShare_nonneg (rate : Dec) (b s a : Int) (hr : 0 ≤ rate.i) (hb : 0 ≤ b)
    (hs : 0 ≤ s) (ha : 0 ≤ a) : 0 ≤ finalShare rate b s a := by
  obtain ⟨-, h2⟩ := finalShare_bounds rate b s a
  have hq : 0 ≤ Int.tdiv (rate.i * (b * a)) s :=
    Int.tdiv_nonneg (mul_nonneg hr (mul_nonneg hb ha)) hs
  have hP := precisionReuse_pos
  by_contra hneg
  have hlt : finalShare rate b s a < 0 := not_le.mp hneg
  have : finalShare rate b s a * precisionReuse < 0 := mul_neg_of_neg_of_pos hlt hP
  omega

theorem finalShare_le_amount (rate : Dec) (b s a : Int) (hr : 0 ≤ rate.i)
    (hr1 : rate.i ≤ precisionReuse) (hb : 0 ≤ b) (hbs : b ≤ s) (hs : 0 < s) (ha : 0 ≤ a) :
    finalShare rate b s a ≤ a := by
  obtain ⟨h1, -⟩ := finalShare_bounds rate b s a
  have hn : 0 ≤ rate.i * (b * a) := mul_nonneg hr (mul_nonneg hb ha)
  obtain ⟨h3, -⟩ := tdiv_bounds_nonneg (rate.i * (b * a)) s hn hs
  have hP := precisionReuse_pos
  have h4 : rate.i * (b * a) ≤ precisionReuse * (s * a) := by
    have h5 : b * a ≤ s * a := mul_le_mul_of_nonneg_right hbs ha
    have h6 : rate.i * (b * a) ≤ rate.i * (s * a) := mul_le_mul_of_nonneg_left h5 hr
    have h7 : rate.i * (s * a) ≤ precisionReuse * (s * a) :=
      mul_le_mul_of_nonneg_right hr1 (mul_nonneg (le_of_lt hs) ha)
    exact le_trans h6 h7
  have h8 : s * Int.tdiv (rate.i * (b * a)) s ≤ s * (precisionReuse * a) := by
    have : precisionReuse * (s * a) = s * (precisionReuse * a) := by ring
    rw [← this]
    exact le_trans h3 h4
  have h9 : Int.tdiv (rate.i * (b * a)) s ≤ precisionReuse * a := le_of_mul_le_mul_left h8 hs
  have h10 : (finalShare rate b s a - 1) * precisionReuse < precisionReuse * a :=
    lt_of_lt_of_le h1 h9
  have h11 : precisionReuse * (finalShare rate b s a - 1) < precisionReuse * a := by
    have : precisionReuse * (finalShare rate b s a - 1)
        = (finalShare rate b s a - 1) * precisionReuse := by ring
    rw [this]
    exact h10
  have := lt_of_mul_lt_mul_left h11 (le_of_lt hP)
  omega

theorem finalShare_mono (rate : Dec) (b s x y : Int) (hr : 0 ≤ rate.i) (hb : 0 ≤ b)
    (hs : 0 < s) (hx : 0 ≤ x) (hxy : x ≤ y) :
    finalShare rate b s x ≤ finalShare rate b s y := by
  rw [finalShare_eq, finalShare_eq]
  apply Int.ceil_le_ceil
  have hy : 0 ≤ y := le_trans hx hxy
  have hnum : rate.i * (b * x) ≤ rate.i * (b * y) :=
    mul_le_mul_of_nonneg_left (mul_le_mul_of_nonneg_left hxy hb) hr
  have hq : Int.tdiv (rate.i * (b * x)) s ≤ Int.tdiv (rate.i * (b * y)) s := by
    rw [Int.tdiv_eq_ediv (mul_nonneg hr (mul_nonneg hb hx)) (le_of_lt hs),
      Int.tdiv_eq_ediv (mul_nonneg hr (mul_nonneg hb hy)) (le_of_lt hs)]
    exact Int.ediv_le_ediv hs hnum
  have hq2 : ((Int.tdiv (rate.i * (b * x)) s : Int) : ℚ)
      ≤ ((Int.tdiv (rate.i * (b * y)) s : Int) : ℚ) := by exact_mod_cast hq
  exact div_le_div_of_nonneg_right hq2 (by norm_num)

theorem CalculateRateShares_charged_of_ne_nil (ctx : Context) (rate : Dec) (issuer : String)
    (inOps outOps : accountOperationMap)
    (h : CalculateRateShares ctx (some rate) issuer inOps outOps ≠ []) :
    NoIBCPurpose ctx ∧ 0 < rate.i ∧ 0 < rateBase issuer inOps outOps := by
  by_contra hc
  apply h
  apply CalculateRateShares_uncharged
  rintro ⟨hctx, r, hr, hpos, hb⟩
  simp only [Option.some.injEq] at hr
  subst hr
  exact hc ⟨hctx, hpos, hb⟩

theorem CalculateRateShares_lookup (ctx : Context) (rate : Dec) (issuer : String)
    (inOps outOps : accountOperationMap) (hnd : NodupKeys inOps) (a : String) (share : Int)
    (h : mapLookup (CalculateRateShares ctx (some rate) issuer inOps outOps) a = some share) :
    NoIBCPurpose ctx ∧ 0 < rate.i ∧ 0 < rateBase issuer inOps outOps ∧ a ≠ issuer ∧
    ∃ amt, (a, amt) ∈ inOps ∧ mapGet inOps a = amt ∧
      share = finalShare rate (rateBase issuer inOps outOps) (nonIssuerTotal inOps issuer) amt
    := by
  have hne : CalculateRateShares ctx (some rate) issuer inOps outOps ≠ [] := by
    intro hnil
    rw [hnil] at h
    simp [mapLookup] at h
  obtain ⟨hctx, hr, hb⟩ := CalculateRateShares_charged_of_ne_nil ctx rate issuer inOps outOps hne
  have hmem := mem_of_mapLookup _ a share h
  rw [CalculateRateShares_eq_map ctx rate issuer inOps outOps hctx hr hb hnd] at hmem
  obtain ⟨e, he, heq⟩ := List.mem_map.mp hmem
  simp only [Prod.mk.injEq] at heq
  obtain ⟨h1, h2⟩ := heq
  have he2 := List.mem_filter.mp he
  have hne2 : e.1 ≠ issuer := by simpa using he2.2
  refine ⟨hctx, hr, hb, by rw [← h1]; exact hne2, e.2, ?_, ?_, h2.symm⟩
  · rw [← h1]
    exact he2.1
  · rw [← h1]
    exact mapGet_of_mem inOps hnd e.1 e.2 he2.1

theorem CalculateRateShares_nodupKeys (ctx : Context) (rate : Dec) (issuer : String)
    (inOps outOps : accountOperationMap) (hnd : NodupKeys inOps) :
    NodupKeys (CalculateRateShares ctx (some rate) issuer inOps outOps) := by
  by_cases hc : NoIBCPurpose ctx ∧ 0 < rate.i ∧ 0 < rateBase issuer inOps outOps
  · obtain ⟨hctx, hr, hb⟩ := hc
    rw [CalculateRateShares_eq_map ctx rate issuer inOps outOps hctx hr hb hnd]
    unfold NodupKeys mapKeys at hnd ⊢
    rw [List.map_map]
    have hfun : (Prod.fst ∘ fun e : String × Int =>
        (e.1, finalShare rate (rateBase issuer inOps outOps) (nonIssuerTotal inOps issuer) e.2))
        = Prod.fst := by
      funext e
      rfl
    rw [hfun]
    unfold nonIssuerEntries
    exact (List.filter_sublist inOps).map Prod.fst |>.nodup hnd
  · have hnil : CalculateRateShares ctx (some rate) issuer inOps outOps = [] := by
      apply CalculateRateShares_uncharged
      rintro ⟨hctx, r, hr, hpos, hb⟩
      simp only [Option.some.injEq] at hr
      subst hr
      exact hc ⟨hctx, hpos, hb⟩
    rw [hnil]
    exact NodupKeys_nil

theorem CalculateRateShares_lookup_of_mem (ctx : Context) (rate : Dec) (issuer : String)
    (inOps outOps : accountOperationMap) (hctx : NoIBCPurpose ctx) (hr : 0 < rate.i)
    (hb : 0 < rateBase issuer inOps outOps) (hnd : NodupKeys inOps) (a : String) (amt : Int)
    (hmem : (a, amt) ∈ inOps) (hne : a ≠ issuer) :
    mapLookup (CalculateRateShares ctx (some rate) issuer inOps outOps) a
      = some (finalShare rate (rateBase issuer inOps outOps) (nonIssuerTotal inOps issuer) amt)
    := by
  apply mapLookup_of_mem _ (CalculateRateShares_nodupKeys ctx rate issuer inOps outOps hnd)
  rw [CalculateRateShares_eq_map ctx rate issuer inOps outOps hctx hr hb hnd]
  refine List.mem_map.mpr ⟨(a, amt), ?_, rfl⟩
  unfold nonIssuerEntries
  exact List.mem_filter.mpr ⟨hmem, by simpa using hne⟩

/-! ## The length prefix of the balance-store keys -/

theorem lengthByte_val (bz : List Byte) (h : bz.length ≤ 255) :
    (lengthByte bz).val = bz.length := by
  unfold lengthByte
  simp only [Fin.ofNat, Fin.val_mk]
  omega

theorem AddressFromBalancesStore_prefixed {ε : Type} (e : ε) (addr rest : List Byte)
    (h : addr.length ≤ 255) :
    AddressFromBalancesStore e (lengthByte addr :: (addr ++ rest)) = some (Except.ok addr) := by
  rw [AddressFromBalancesStore_cons, lengthByte_val addr h]
  have hlen : ¬ (addr ++ rest).length < addr.length := by
    rw [List.length_append]
    omega
  rw [if_neg hlen, List.take_left']
  rfl

theorem MustLengthPrefix_of_nonempty (addr : List Byte) (h0 : 0 < addr.length)
    (h : addr.length ≤ 255) : MustLengthPrefix addr = some (lengthByte addr :: addr) := by
  unfold MustLengthPrefix
  rw [if_neg (by omega), if_neg (by omega)]

/-! ## Issuance: the feature list -/

theorem validateFeaturesFrom_eq_none (seen features : List Int) :
    validateFeaturesFrom seen features = none
      ↔ (∀ v ∈ features, featureOfValue v ≠ none) ∧ features.Nodup ∧
        ∀ v ∈ features, v ∉ seen := by
  induction features generalizing seen with
  | nil => simp [validateFeaturesFrom]
  | cons value rest ih =>
    unfold validateFeaturesFrom
    by_cases h1 : (featureOfValue value).isNone = true
    · rw [if_pos h1]
      have h1b : featureOfValue value = none := Option.isNone_iff_eq_none.mp h1
      constructor
      · intro h
        simp at h
      · intro h
        exact absurd h1b (h.1 value (List.mem_cons_self _ _))
    · rw [if_neg h1]
      have h1b : featureOfValue value ≠ none := fun hc => h1 (Option.isNone_iff_eq_none.mpr hc)
      by_cases h2 : value ∈ seen
      · rw [if_pos h2]
        constructor
        · intro h
          simp at h
        · intro h
          exact absurd h2 (h.2.2 value (List.mem_cons_self _ _))
      · rw [if_neg h2, ih]
        constructor
        · rintro ⟨h3, h4, h5⟩
          refine ⟨?_, ?_, ?_⟩
          · intro v hv
            rcases List.mem_cons.mp hv with rfl | hv
            · exact h1b
            · exact h3 v hv
          · rw [List.nodup_cons]
            refine ⟨?_, h4⟩
            intro hmem
            exact h5 value hmem (List.mem_cons_self _ _)
          · intro v hv
            rcases List.mem_cons.mp hv with rfl | hv
            · exact h2
            · intro hs
              exact h5 v hv (List.mem_cons_of_mem _ hs)
        · rintro ⟨h3, h4, h5⟩
          rw [List.nodup_cons] at h4
          refine ⟨fun v hv => h3 v (List.mem_cons_of_mem _ hv), h4.2, ?_⟩
          intro v hv hs
          rcases List.mem_cons.mp hs with rfl | hs
          · exact h4.1 hv
          · exact h5 v (List.mem_cons_of_mem _ hv) hs

theorem validateFeaturesFrom_defined (seen features : List Int)
    (h : ∀ v ∈ features, featureOfValue v ≠ none) :
    validateFeaturesFrom seen features ≠ some IssueError.UnknownFeature := by
  induction features generalizing seen with
  | nil => simp [validateFeaturesFrom]
  | cons value rest ih =>
    unfold validateFeaturesFrom
    have h1 : ¬ (featureOfValue value).isNone = true := fun hc =>
      h value (List.mem_cons_self _ _) (Option.isNone_iff_eq_none.mp hc)
    rw [if_neg h1]
    by_cases h2 : value ∈ seen
    · rw [if_pos h2]
      simp
    · rw [if_neg h2]
      exact ih _ (fun v hv => h v (List.mem_cons_of_mem _ hv))

theorem validateFeaturesFrom_nodup (seen features : List Int) (h : features.Nodup)
    (hs : ∀ v ∈ features, v ∉ seen) :
    validateFeaturesFrom seen features ≠ some IssueError.DuplicatedFeature := by
  induction features generalizing seen with
  | nil => simp [validateFeaturesFrom]
  | cons value rest ih =>
    unfold validateFeaturesFrom
    rw [List.nodup_cons] at h
    by_cases h1 : (featureOfValue value).isNone = true
    · rw [if_pos h1]
      simp
    · rw [if_neg h1, if_neg (hs value (List.mem_cons_self _ _))]
      apply ih _ h.2
      intro v hv hmem
      rcases List.mem_cons.mp hmem with rfl | hmem
      · exact h.1 hv
      · exact hs v (List.mem_cons_of_mem _ hv) hmem

theorem issueError_cases (r : Option IssueError) (h : r ≠ none) :
    r = some IssueError.DuplicatedFeature ∨ r = some IssueError.UnknownFeature := by
  cases r with
  | none => exact absurd rfl h
  | some e =>
    cases e with
    | DuplicatedFeature => exact Or.inl rfl
    | UnknownFeature => exact Or.inr rfl

/-! ## The calls of a run without failure -/

theorem andThen_none {σ ε : Type} (r : σ × Option ε) (next : σ → σ × Option ε)
    (h : (andThen r next).2 = none) : r.2 = none ∧ andThen r next = next r.1 := by
  obtain ⟨s1, e⟩ := r
  cases e with
  | none => exact ⟨rfl, rfl⟩
  | some err =>
    rw [andThen_err] at h
    simp at h

theorem iterateKeys_calls {σ ε A : Type} (decode : String → Option A)
    (mk : A → Int → KeeperCall A) (m : accountOperationMap)
    (fnI : Callback Int (σ × List (KeeperLogEntry ε A)) (Abort ε))
    (h : ∀ account amount st, (fnI account amount st).2 = none →
      ∃ address, decode account = some address ∧
        (fnI account amount st).1.2 = st.2 ++ [succeeded (mk address amount)])
    (ks : List String) (st : σ × List (KeeperLogEntry ε A))
    (hok : (iterateKeys m fnI ks st).2 = none) :
    (iterateKeys m fnI ks st).1.2
      = st.2 ++ (ks.filterMap (fun account =>
          (decode account).map (fun address => mk address (mapGet m account)))).map succeeded ∧
    ∀ account ∈ ks, ∃ address, decode account = some address := by
  induction ks generalizing st with
  | nil =>
    rw [iterateKeys_nil]
    simp
  | cons key rest ih =>
    cases hstep : fnI key (mapGet m key) st with
    | mk s1 r =>
      cases r with
      | some err =>
        rw [iterateKeys_cons_err m fnI key rest st s1 err hstep] at hok
        simp at hok
      | none =>
        rw [iterateKeys_cons_ok m fnI key rest st s1 hstep] at hok ⊢
        have hs := h key (mapGet m key) st (by rw [hstep])
        rw [hstep] at hs
        obtain ⟨address, hdec, hlog⟩ := hs
        obtain ⟨ih1, ih2⟩ := ih s1 hok
        constructor
        · rw [ih1, hlog, List.filterMap_cons, hdec]
          simp
        · intro account hacc
          rcases List.mem_cons.mp hacc with rfl | hacc
          · exact ⟨address, hdec⟩
          · exact ih2 account hacc

theorem burnCallback_call {σ ε A : Type} (k : Keeper σ ε A) (definition : Definition)
    (account : String) (amount : Int) (st : σ × List (KeeperLogEntry ε A))
    (h : (burnCallback (recordKeeper k) definition account amount st).2 = none) :
    ∃ address, k.accAddressFromBech32 account = some address ∧
      (burnCallback (recordKeeper k) definition account amount st).1.2
        = st.2 ++ [succeeded (KeeperCall.burnIfSpendable address definition amount)] := by
  unfold burnCallback at h ⊢
  have hd : (recordKeeper k).accAddressFromBech32 account = k.accAddressFromBech32 account := rfl
  rw [hd] at h ⊢
  cases hdec : k.accAddressFromBech32 account with
  | none =>
    rw [hdec] at h
    simp at h
  | some address =>
    rw [hdec] at h
    refine ⟨address, rfl, ?_⟩
    simp only [returned, recordKeeper, Option.map_eq_none'] at h ⊢
    rw [h]
    rfl

theorem spendableCallback_call {σ ε A : Type} (k : Keeper σ ε A) (definition : Definition)
    (account : String) (amount : Int) (st : σ × List (KeeperLogEntry ε A))
    (h : (spendableCallback (recordKeeper k) definition account amount st).2 = none) :
    ∃ address, k.accAddressFromBech32 account = some address ∧
      (spendableCallback (recordKeeper k) definition account amount st).1.2
        = st.2 ++ [succeeded (KeeperCall.isCoinSpendable address definition amount)] := by
  unfold spendableCallback at h ⊢
  have hd : (recordKeeper k).accAddressFromBech32 account = k.accAddressFromBech32 account := rfl
  rw [hd] at h ⊢
  cases hdec : k.accAddressFromBech32 account with
  | none =>
    rw [hdec] at h
    simp at h
  | some address =>
    rw [hdec] at h
    refine ⟨address, rfl, ?_⟩
    simp only [returned, recordKeeper, Option.map_eq_none'] at h ⊢
    rw [h]
    rfl

theorem receivableCallback_call {σ ε A : Type} (k : Keeper σ ε A) (definition : Definition)
    (account : String) (amount : Int) (st : σ × List (KeeperLogEntry ε A))
    (h : (receivableCallback (recordKeeper k) definition account amount st).2 = none) :
    ∃ address, k.accAddressFromBech32 account = some address ∧
      (receivableCallback (recordKeeper k) definition account amount st).1.2
        = st.2 ++ [succeeded (KeeperCall.isCoinReceivable address definition amount)] := by
  unfold receivableCallback at h ⊢
  have hd : (recordKeeper k).accAddressFromBech32 account = k.accAddressFromBech32 account := rfl
  rw [hd] at h ⊢
  cases hdec : k.accAddressFromBech32 account with
  | none =>
    rw [hdec] at h
    simp at h
  | some address =>
    rw [hdec] at h
    refine ⟨address, rfl, ?_⟩
    simp only [returned, recordKeeper, Option.map_eq_none'] at h ⊢
    rw [h]
    rfl

theorem commissionCallback_call {σ ε A : Type} (k : Keeper σ ε A) (definition : Definition)
    (issuer : A) (account : String) (amount : Int) (st : σ × List (KeeperLogEntry ε A))
    (h : (commissionCallback (recordKeeper k) definition issuer account amount st).2 = none) :
    ∃ address, k.accAddressFromBech32 account = some address ∧
      (commissionCallback (recordKeeper k) definition issuer account amount st).1.2
        = st.2 ++ [succeeded (KeeperCall.SendCoins address issuer
            (NewCoins [(definition.Denom, amount)]))] := by
  unfold commissionCallback at h ⊢
  have hcoin : NewCoin (recordKeeper k) definition.Denom amount
      = NewCoin k definition.Denom amount := rfl
  have hd : (recordKeeper k).accAddressFromBech32 account = k.accAddressFromBech32 account := rfl
  rw [hcoin, hd] at h ⊢
  cases hc : NewCoin k definition.Denom amount with
  | none =>
    rw [hc] at h
    simp at h
  | some coin =>
    have hcoin2 : coin = (definition.Denom, amount) := by
      unfold NewCoin at hc
      by_cases hv : k.validateDenom definition.Denom = true ∧ 0 ≤ amount
      · rw [if_pos hv] at hc
        simp only [Option.some.injEq] at hc
        exact hc.symm
      · rw [if_neg hv] at hc
        simp at hc
    rw [hc] at h
    cases hdec : k.accAddressFromBech32 account with
    | none =>
      rw [hdec] at h
      simp at h
    | some address =>
      rw [hdec] at h
      refine ⟨address, rfl, ?_⟩
      simp only [returned, recordKeeper, Option.map_eq_none'] at h ⊢
      rw [h, hcoin2]
      rfl

theorem iterateMapDeterministic_calls {σ ε A : Type} (decode : String → Option A)
    (mk : A → Int → KeeperCall A) (m : accountOperationMap)
    (fnI : Callback Int (σ × List (KeeperLogEntry ε A)) (Abort ε))
    (h : ∀ account amount st, (fnI account amount st).2 = none →
      ∃ address, decode account = some address ∧
        (fnI account amount st).1.2 = st.2 ++ [succeeded (mk address amount)])
    (st : σ × List (KeeperLogEntry ε A))
    (hok : (iterateMapDeterministic m fnI st).2 = none) :
    (iterateMapDeterministic m fnI st).1.2 = st.2 ++ (callsOver decode m mk).map succeeded ∧
    ∀ account ∈ mapKeys m, ∃ address, decode account = some address := by
  obtain ⟨h1, h2⟩ := iterateKeys_calls decode mk m fnI h (sortedKeys m) st hok
  refine ⟨h1, ?_⟩
  intro account hacc
  exact h2 account ((mem_sortedKeys m account).mpr hacc)

theorem applyRulesToken_calls {σ ε A : Type} (k : Keeper σ ε A) (ctx : Context)
    (definition : Definition) (inOps outOps : accountOperationMap)
    (st : σ × List (KeeperLogEntry ε A))
    (hok : (applyRulesToken (recordKeeper k) ctx definition inOps outOps st).2 = none) :
    ∃ issuer, k.accAddressFromBech32 definition.Issuer = some issuer ∧
      (applyRulesToken (recordKeeper k) ctx definition inOps outOps st).1.2
        = st.2 ++ (tokenCalls k ctx definition issuer inOps outOps).map succeeded ∧
      (∀ account ∈ mapKeys inOps, ∃ address, k.accAddressFromBech32 account = some address) ∧
      (∀ account ∈ mapKeys outOps, ∃ address, k.accAddressFromBech32 account = some address)
    := by
  unfold applyRulesToken at hok ⊢
  have hd : (recordKeeper k).accAddressFromBech32 = k.accAddressFromBech32 := rfl
  simp only [hd] at hok ⊢
  obtain ⟨hb, hbeq⟩ := andThen_none _ _ hok
  rw [hbeq] at hok ⊢
  obtain ⟨hblog, -⟩ := iterateMapDeterministic_calls k.accAddressFromBech32
    (fun address amount => KeeperCall.burnIfSpendable address definition amount) _ _
    (burnCallback_call k definition) st hb
  cases hiss : k.accAddressFromBech32 definition.Issuer with
  | none =>
    simp only [hiss] at hok
    simp at hok
  | some issuer =>
    simp only [hiss] at hok ⊢
    obtain ⟨hc, hceq⟩ := andThen_none _ _ hok
    rw [hceq] at hok ⊢
    obtain ⟨hclog, -⟩ := iterateMapDeterministic_calls k.accAddressFromBech32
      (fun address amount =>
        KeeperCall.SendCoins address issuer (NewCoins [(definition.Denom, amount)])) _ _
      (commissionCallback_call k definition issuer) _ hc
    obtain ⟨hs, hseq⟩ := andThen_none _ _ hok
    rw [hseq] at hok ⊢
    obtain ⟨hslog, hsdec⟩ := iterateMapDeterministic_calls k.accAddressFromBech32
      (fun address amount => KeeperCall.isCoinSpendable address definition amount) _ _
      (spendableCallback_call k definition) _ hs
    obtain ⟨hrlog, hrdec⟩ := iterateMapDeterministic_calls k.accAddressFromBech32
      (fun address amount => KeeperCall.isCoinReceivable address definition amount) _ _
      (receivableCallback_call k definition) _ hok
    refine ⟨issuer, rfl, ?_, hsdec, hrdec⟩
    rw [hrlog, hslog, hclog, hblog]
    unfold tokenCalls
    simp only [List.map_append, List.append_assoc]

/-! ## The log of a whole run holds the log of every step -/

theorem iterateKeys_log_prefix {V σ ε A : Type} [Inhabited V] (m : GoMap V)
    (fnI : Callback V (σ × List (KeeperLogEntry ε A)) (Abort ε))
    (hmono : ∀ key v st, List.IsPrefix st.2 (fnI key v st).1.2)
    (ks : List String) (st : σ × List (KeeperLogEntry ε A)) :
    List.IsPrefix st.2 (iterateKeys m fnI ks st).1.2 := by
  induction ks generalizing st with
  | nil =>
    rw [iterateKeys_nil]
  | cons key rest ih =>
    cases hstep : fnI key (mapGet m key) st with
    | mk s1 r =>
      have h1 := hmono key (mapGet m key) st
      rw [hstep] at h1
      cases r with
      | some err =>
        rw [iterateKeys_cons_err m fnI key rest st s1 err hstep]
        exact h1
      | none =>
        rw [iterateKeys_cons_ok m fnI key rest st s1 hstep]
        exact List.IsPrefix.trans h1 (ih s1)

theorem iterateKeys_step_of_mem {V σ ε A : Type} [Inhabited V] (m : GoMap V)
    (fnI : Callback V (σ × List (KeeperLogEntry ε A)) (Abort ε))
    (hmono : ∀ key v st, List.IsPrefix st.2 (fnI key v st).1.2)
    (ks : List String) (st : σ × List (KeeperLogEntry ε A))
    (hok : (iterateKeys m fnI ks st).2 = none) :
    ∀ key ∈ ks, ∃ st0, (fnI key (mapGet m key) st0).2 = none ∧
      List.IsPrefix (fnI key (mapGet m key) st0).1.2 (iterateKeys m fnI ks st).1.2 := by
  induction ks generalizing st with
  | nil =>
    intro key hkey
    simp at hkey
  | cons key0 rest ih =>
    cases hstep : fnI key0 (mapGet m key0) st with
    | mk s1 r =>
      cases r with
      | some err =>
        rw [iterateKeys_cons_err m fnI key0 rest st s1 err hstep] at hok
        simp at hok
      | none =>
        rw [iterateKeys_cons_ok m fnI key0 rest st s1 hstep] at hok ⊢
        intro key hkey
        rcases List.mem_cons.mp hkey with rfl | hkey
        · refine ⟨st, by rw [hstep], ?_⟩
          rw [hstep]
          exact iterateKeys_log_prefix m fnI hmono rest s1
        · exact ih s1 hok key hkey

theorem applyRulesDenom_log_prefix {σ ε A : Type} (k : Keeper σ ε A) (ctx : Context)
    (outputs : groupedByDenomAccountOperations) (denom : String) (inOps : accountOperationMap)
    (st : σ × List (KeeperLogEntry ε A)) :
    List.IsPrefix st.2 (applyRulesDenom (recordKeeper k) ctx outputs denom inOps st).1.2 := by
  obtain ⟨s, log⟩ := st
  obtain ⟨calls, hrun, -⟩ := instruments_applyRulesDenom k ctx outputs denom inOps s log
  rw [hrun]
  exact List.prefix_append log calls

theorem applyRulesDenom_managed {σ ε A : Type} (k : Keeper σ ε A) (ctx : Context)
    (outputs : groupedByDenomAccountOperations) (denom : String) (inOps : accountOperationMap)
    (s : σ) (h : isUnmanaged k (k.GetDefinition denom s).2 = false) :
    applyRulesDenom k ctx outputs denom inOps s
      = applyRulesToken k ctx (k.GetDefinition denom s).1 inOps (mapGet outputs denom) s := by
  unfold applyRulesDenom
  simp only [h]
  rfl

theorem mem_callsOver {A : Type} (decode : String → Option A) (m : accountOperationMap)
    (mk : A → Int → KeeperCall A) (account : String) (address : A)
    (hacc : account ∈ mapKeys m) (hdec : decode account = some address) :
    mk address (mapGet m account) ∈ callsOver decode m mk := by
  unfold callsOver
  rw [List.mem_filterMap]
  exact ⟨account, (mem_sortedKeys m account).mpr hacc, by rw [hdec]; rfl⟩

theorem mem_mapKeys_groupOutputs (outputs : List Output) (denom address : String) :
    address ∈ mapKeys (mapGet (groupOutputs outputs) denom)
      ↔ ∃ o ∈ outputs, o.Address = address ∧ ∃ c ∈ o.Coins, c.1 = denom := by
  have h := (groupOperations_spec (outputs.map (fun o => (o.Address, o.Coins)))).2.2.2.1
    denom address
  rw [← groupOutputs_eq] at h
  rw [h]
  constructor
  · rintro ⟨e, he, hadr, hc⟩
    obtain ⟨o, ho, rfl⟩ := List.mem_map.mp he
    exact ⟨o, ho, hadr, hc⟩
  · rintro ⟨o, ho, hadr, hc⟩
    exact ⟨(o.Address, o.Coins), List.mem_map.mpr ⟨o, ho, rfl⟩, hadr, hc⟩

theorem receivable_call_of_managed_input {σ ε A : Type} (k : Keeper σ ε A) (ctx : Context)
    (inputs outputs : groupedByDenomAccountOperations) (s : σ)
    (hok : (applyRules k ctx inputs outputs s).2 = none) (denom : String)
    (hin : denom ∈ mapKeys inputs)
    (hman : ∀ s0, isUnmanaged k (k.GetDefinition denom s0).2 = false) (account : String)
    (hacc : account ∈ mapKeys (mapGet outputs denom)) :
    ∃ address s0, k.accAddressFromBech32 account = some address ∧
      succeeded (KeeperCall.isCoinReceivable address (k.GetDefinition denom s0).1
          (mapGet (mapGet outputs denom) account))
        ∈ (applyRules (recordKeeper k) ctx inputs outputs (s, [])).1.2 := by
  obtain ⟨calls, hrun, -⟩ := instruments_applyRules k ctx inputs outputs s []
  have hokI : (applyRules (recordKeeper k) ctx inputs outputs (s, [])).2 = none := by
    rw [hrun]
    exact hok
  unfold applyRules iterateMapDeterministic at hokI ⊢
  obtain ⟨st0, hstep, hpre⟩ := iterateKeys_step_of_mem inputs
    (applyRulesDenom (recordKeeper k) ctx outputs)
    (fun key v st => applyRulesDenom_log_prefix k ctx outputs key v st)
    (sortedKeys inputs) (s, []) hokI denom ((mem_sortedKeys inputs denom).mpr hin)
  obtain ⟨s0, log0⟩ := st0
  have hm : isUnmanaged (recordKeeper k) ((recordKeeper k).GetDefinition denom (s0, log0)).2
      = false := hman s0
  rw [applyRulesDenom_managed (recordKeeper k) ctx outputs denom _ (s0, log0) hm] at hstep hpre
  have hdef : ((recordKeeper k).GetDefinition denom (s0, log0)).1 = (k.GetDefinition denom s0).1
    := rfl
  rw [hdef] at hstep hpre
  obtain ⟨issuer, -, hlog, -, hout⟩ := applyRulesToken_calls k ctx (k.GetDefinition denom s0).1
    (mapGet inputs denom) (mapGet outputs denom) (s0, log0) hstep
  obtain ⟨address, hdec⟩ := hout account hacc
  refine ⟨address, s0, hdec, ?_⟩
  apply hpre.subset
  rw [hlog]
  apply List.mem_append_right
  apply List.mem_map_of_mem
  unfold tokenCalls
  apply List.mem_append_right
  exact mem_callsOver k.accAddressFromBech32 (mapGet outputs denom)
    (fun address amount =>
      KeeperCall.isCoinReceivable address (k.GetDefinition denom s0).1 amount)
    account address hacc hdec

/-! ## Independence of the order of traversal -/

theorem SameOperations.perm {m1 m2 : accountOperationMap} (h : SameOperations m1 m2) :
    m1.Perm m2 := by
  obtain ⟨h1, h2, hk, hv⟩ := h
  have n1 : m1.Nodup := List.Nodup.of_map Prod.fst h1
  have n2 : m2.Nodup := List.Nodup.of_map Prod.fst h2
  rw [List.perm_ext_iff_of_nodup n1 n2]
  rintro ⟨a, v⟩
  constructor
  · intro hmem
    have ha : a ∈ mapKeys m1 := List.mem_map.mpr ⟨(a, v), hmem, rfl⟩
    have hval : mapGet m1 a = v := mapGet_of_mem m1 h1 a v hmem
    have := mapGet_mem m2 h2 a ((hk a).mp ha)
    rw [← hv a, hval] at this
    exact this
  · intro hmem
    have ha : a ∈ mapKeys m2 := List.mem_map.mpr ⟨(a, v), hmem, rfl⟩
    have hval : mapGet m2 a = v := mapGet_of_mem m2 h2 a v hmem
    have := mapGet_mem m1 h1 a ((hk a).mpr ha)
    rw [hv a, hval] at this
    exact this

theorem NodupKeys_of_perm {V : Type} {m1 m2 : GoMap V} (h : m1.Perm m2) (hnd : NodupKeys m1) :
    NodupKeys m2 := by
  unfold NodupKeys mapKeys at hnd ⊢
  exact (h.map Prod.fst).nodup_iff.mp hnd

theorem mapGet_perm {V : Type} [Inhabited V] {m1 m2 : GoMap V} (h : m1.Perm m2)
    (hnd : NodupKeys m1) (key : String) : mapGet m1 key = mapGet m2 key := by
  have hnd2 := NodupKeys_of_perm h hnd
  by_cases hk : key ∈ mapKeys m1
  · have h1 := mapGet_mem m1 hnd key hk
    exact (mapGet_of_mem m2 hnd2 key _ (h.mem_iff.mp h1)).symm
  · have hk2 : key ∉ mapKeys m2 := by
      intro hc
      apply hk
      unfold mapKeys at hc ⊢
      exact (h.map Prod.fst).mem_iff.mpr hc
    unfold mapGet
    rw [mapLookup_eq_none m1 key hk, mapLookup_eq_none m2 key hk2]

theorem sortedKeys_eq_of_perm {V W : Type} (m1 : GoMap V) (m2 : GoMap W)
    (h : (mapKeys m1).Perm (mapKeys m2)) : sortedKeys m1 = sortedKeys m2 := by
  apply List.eq_of_perm_of_sorted _ (sortedKeys_sorted_le m1) (sortedKeys_sorted_le m2)
  exact ((sortedKeys_perm m1).trans h).trans (sortedKeys_perm m2).symm

theorem iterateKeys_congr {V σ ε : Type} [Inhabited V] (m1 m2 : GoMap V)
    (fn1 fn2 : Callback V σ ε) (ks : List String)
    (h : ∀ key ∈ ks, ∀ s, fn1 key (mapGet m1 key) s = fn2 key (mapGet m2 key) s) (s : σ) :
    iterateKeys m1 fn1 ks s = iterateKeys m2 fn2 ks s := by
  induction ks generalizing s with
  | nil => rfl
  | cons key rest ih =>
    simp only [iterateKeys]
    rw [h key (List.mem_cons_self _ _) s]
    cases fn2 key (mapGet m2 key) s with
    | mk s1 r =>
      cases r with
      | some err => rfl
      | none => exact ih (fun k hk => h k (List.mem_cons_of_mem _ hk)) s1

theorem iterateMapDeterministic_perm {V σ ε : Type} [Inhabited V] {m1 m2 : GoMap V}
    (h : m1.Perm m2) (hnd : NodupKeys m1) (fn : Callback V σ ε) (s : σ) :
    iterateMapDeterministic m1 fn s = iterateMapDeterministic m2 fn s := by
  unfold iterateMapDeterministic
  rw [sortedKeys_eq_of_perm m1 m2 (h.map Prod.fst)]
  apply iterateKeys_congr
  intro key _ s0
  rw [mapGet_perm h hnd key]

theorem nonIssuerTotal_perm {m1 m2 : accountOperationMap} (h : m1.Perm m2) (issuer : String) :
    nonIssuerTotal m1 issuer = nonIssuerTotal m2 issuer := by
  unfold nonIssuerTotal sumAmounts nonIssuerEntries
  exact ((h.filter _).map _).sum_eq

theorem CalculateRateShares_perm (ctx : Context) (rate : Option Dec) (issuer : String)
    {inOps1 inOps2 outOps1 outOps2 : accountOperationMap} (hin : inOps1.Perm inOps2)
    (hout : outOps1.Perm outOps2) (hnd : NodupKeys inOps1) :
    (CalculateRateShares ctx rate issuer inOps1 outOps1).Perm
      (CalculateRateShares ctx rate issuer inOps2 outOps2) ∧
    NodupKeys (CalculateRateShares ctx rate issuer inOps1 outOps1) := by
  have hbase : rateBase issuer inOps1 outOps1 = rateBase issuer inOps2 outOps2 := by
    unfold rateBase
    rw [nonIssuerTotal_perm hin issuer, nonIssuerTotal_perm hout issuer]
  have hnd2 := NodupKeys_of_perm hin hnd
  by_cases hc : NoIBCPurpose ctx ∧ ∃ r, rate = some r ∧ 0 < r.i ∧
      0 < rateBase issuer inOps1 outOps1
  · obtain ⟨hctx, r, hr, hpos, hb⟩ := hc
    subst hr
    refine ⟨?_, CalculateRateShares_nodupKeys ctx r issuer inOps1 outOps1 hnd⟩
    rw [CalculateRateShares_eq_map ctx r issuer inOps1 outOps1 hctx hpos hb hnd,
      CalculateRateShares_eq_map ctx r issuer inOps2 outOps2 hctx hpos (hbase ▸ hb) hnd2,
      hbase, nonIssuerTotal_perm hin issuer]
    unfold nonIssuerEntries
    exact (hin.filter _).map _
  · have hc2 : ¬ (NoIBCPurpose ctx ∧ ∃ r, rate = some r ∧ 0 < r.i ∧
        0 < rateBase issuer inOps2 outOps2) := by
      rw [← hbase]
      exact hc
    rw [CalculateRateShares_uncharged ctx rate issuer inOps1 outOps1 hc,
      CalculateRateShares_uncharged ctx rate issuer inOps2 outOps2 hc2]
    exact ⟨List.Perm.refl _, NodupKeys_nil⟩

theorem applyRulesToken_perm {σ ε A : Type} (k : Keeper σ ε A) (ctx : Context)
    (definition : Definition) {inOps1 inOps2 outOps1 outOps2 : accountOperationMap}
    (hin : inOps1.Perm inOps2) (hout : outOps1.Perm outOps2) (hnd : NodupKeys inOps1)
    (hndo : NodupKeys outOps1) (s : σ) :
    applyRulesToken k ctx definition inOps1 outOps1 s
      = applyRulesToken k ctx definition inOps2 outOps2 s := by
  obtain ⟨hb, hbn⟩ := CalculateRateShares_perm ctx definition.BurnRate definition.Issuer
    hin hout hnd
  obtain ⟨hc, hcn⟩ := CalculateRateShares_perm ctx definition.SendCommissionRate
    definition.Issuer hin hout hnd
  have e1 : iterateMapDeterministic
        (CalculateRateShares ctx definition.BurnRate definition.Issuer inOps1 outOps1)
        (burnCallback k definition)
      = iterateMapDeterministic
        (CalculateRateShares ctx definition.BurnRate definition.Issuer inOps2 outOps2)
        (burnCallback k definition) :=
    funext (fun s0 => iterateMapDeterministic_perm hb hbn _ s0)
  have e2 : ∀ issuer, iterateMapDeterministic
        (CalculateRateShares ctx definition.SendCommissionRate definition.Issuer inOps1 outOps1)
        (commissionCallback k definition issuer)
      = iterateMapDeterministic
        (CalculateRateShares ctx definition.SendCommissionRate definition.Issuer inOps2 outOps2)
        (commissionCallback k definition issuer) :=
    fun issuer => funext (fun s0 => iterateMapDeterministic_perm hc hcn _ s0)
  have e3 : iterateMapDeterministic inOps1 (spendableCallback k definition)
      = iterateMapDeterministic inOps2 (spendableCallback k definition) :=
    funext (fun s0 => iterateMapDeterministic_perm hin hnd _ s0)
  have e4 : iterateMapDeterministic outOps1 (receivableCallback k definition)
      = iterateMapDeterministic outOps2 (receivableCallback k definition) :=
    funext (fun s0 => iterateMapDeterministic_perm hout hndo _ s0)
  unfold applyRulesToken
  simp only [e1, e2, e3, e4]

theorem applyRules_congr {σ ε A : Type} (k : Keeper σ ε A) (ctx : Context)
    {inputs1 inputs2 outputs1 outputs2 : groupedByDenomAccountOperations}
    (hin : SameGroups inputs1 inputs2)
    (hout : ∀ denom, SameOperations (mapGet outputs1 denom) (mapGet outputs2 denom)) (s : σ) :
    applyRules k ctx inputs1 outputs1 s = applyRules k ctx inputs2 outputs2 s := by
  obtain ⟨h1, h2, hk, hv⟩ := hin
  have hkeys : (mapKeys inputs1).Perm (mapKeys inputs2) :=
    (List.perm_ext_iff_of_nodup h1 h2).mpr hk
  unfold applyRules iterateMapDeterministic
  rw [sortedKeys_eq_of_perm inputs1 inputs2 hkeys]
  apply iterateKeys_congr
  intro denom _ s0
  unfold applyRulesDenom
  by_cases hm : isUnmanaged k (k.GetDefinition denom s0).2 = true
  · simp only [hm, if_true]
  · simp only [hm]
    exact applyRulesToken_perm k ctx _ (hv denom).perm (hout denom).perm (hv denom).1
      (hout denom).1 s0

theorem carriedAmounts_sum_perm {entries1 entries2 : List (String × Coins)}
    (h : entries1.Perm entries2) (denom address : String) :
    (carriedAmounts entries1 denom address).sum = (carriedAmounts entries2 denom address).sum
    := by
  induction h with
  | nil => rfl
  | cons x _ ih =>
    rw [carriedAmounts_cons, carriedAmounts_cons]
    by_cases hx : x.1 = address
    · rw [if_pos hx, if_pos hx, List.sum_append, List.sum_append, ih]
    · rw [if_neg hx, if_neg hx, ih]
  | swap x y l =>
    rw [carriedAmounts_cons, carriedAmounts_cons, carriedAmounts_cons, carriedAmounts_cons]
    by_cases hx : x.1 = address <;> by_cases hy : y.1 = address <;>
      simp only [hx, hy, if_true, if_false, List.sum_append]
    ring
  | trans _ _ ih1 ih2 => rw [ih1, ih2]

theorem sameGroups_groupOperations {entries1 entries2 : List (String × Coins)}
    (h : entries1.Perm entries2) :
    SameGroups (groupOperations [] entries1) (groupOperations [] entries2) := by
  obtain ⟨a1, a2, a3, a4, a5⟩ := groupOperations_spec entries1
  obtain ⟨b1, b2, b3, b4, b5⟩ := groupOperations_spec entries2
  refine ⟨a1, b1, ?_, ?_⟩
  · intro denom
    rw [a3, b3]
    constructor
    · rintro ⟨e, he, hc⟩
      exact ⟨e, h.mem_iff.mp he, hc⟩
    · rintro ⟨e, he, hc⟩
      exact ⟨e, h.mem_iff.mpr he, hc⟩
  · intro denom
    refine ⟨a2 denom, b2 denom, ?_, ?_⟩
    · intro account
      rw [a4, b4]
      constructor
      · rintro ⟨e, he, hc⟩
        exact ⟨e, h.mem_iff.mp he, hc⟩
      · rintro ⟨e, he, hc⟩
        exact ⟨e, h.mem_iff.mpr he, hc⟩
    · intro account
      rw [a5, b5]
      exact carriedAmounts_sum_perm h denom account

theorem applyFeatures_perm {σ ε A : Type} (k : Keeper σ ε A) (ctx : Context)
    {inputs1 inputs2 : List Input} {outputs1 outputs2 : List Output}
    (hin : inputs1.Perm inputs2) (hout : outputs1.Perm outputs2) (s : σ) :
    applyFeatures k ctx inputs1 outputs1 s = applyFeatures k ctx inputs2 outputs2 s := by
  unfold applyFeatures
  rw [groupInputs_eq, groupInputs_eq, groupOutputs_eq, groupOutputs_eq]
  exact applyRules_congr k ctx (sameGroups_groupOperations (hin.map _))
    (sameGroups_groupOperations (hout.map _)).2.2.2 s

/-! ## The rate calculator with the overflow panics -/

theorem fitsBits_of_nonneg (n : Nat) (x : Int) (h0 : 0 ≤ x) (h : x < 2 ^ n) :
    fitsBits n x = true := by
  unfold fitsBits
  rw [decide_eq_true_iff]
  have h2 : ((x.natAbs : Nat) : Int) < ((2 ^ n : Nat) : Int) := by
    rw [Int.natAbs_of_nonneg h0]
    push_cast
    exact h
  exact_mod_cast h2

theorem lt_of_fitsBits (n : Nat) (x : Int) (h : fitsBits n x = true) : x < 2 ^ n := by
  unfold fitsBits at h
  rw [decide_eq_true_iff] at h
  have h2 : ((x.natAbs : Nat) : Int) < ((2 ^ n : Nat) : Int) := by exact_mod_cast h
  rw [Int.natCast_natAbs, Nat.cast_pow] at h2
  exact lt_of_le_of_lt (le_abs_self x) (by exact_mod_cast h2)

theorem IntAdd_of_fits (a b : Int) (h : fitsBits maxBitLen (a + b) = true) :
    IntAdd a b = some (a + b) := by
  unfold IntAdd
  rw [if_pos h]

theorem foldl_sum_complete (ops : accountOperationMap) (issuer : String) (acc : Int)
    (hnn : ∀ e ∈ ops, 0 ≤ e.2) (hacc : 0 ≤ acc)
    (hfit : acc + nonIssuerTotal ops issuer < 2 ^ maxBitLen) :
    ops.foldl
      (fun (sum : Option Int) e =>
        if e.1 ≠ issuer then sum.bind (fun acc => IntAdd acc e.2) else sum) (some acc)
      = some (acc + nonIssuerTotal ops issuer) := by
  induction ops generalizing acc with
  | nil => simp [nonIssuerTotal, nonIssuerEntries, sumAmounts]
  | cons e rest ih =>
    have he0 : 0 ≤ e.2 := hnn e (List.mem_cons_self _ _)
    have hrest : ∀ x ∈ rest, 0 ≤ x.2 := fun x hx => hnn x (List.mem_cons_of_mem _ hx)
    have hrest0 : 0 ≤ nonIssuerTotal rest issuer := nonIssuerTotal_nonneg rest issuer hrest
    rw [List.foldl_cons]
    by_cases he : e.1 ≠ issuer
    · have htot : nonIssuerTotal (e :: rest) issuer = e.2 + nonIssuerTotal rest issuer := by
        simp [nonIssuerTotal, nonIssuerEntries, sumAmounts, he]
      rw [htot] at hfit ⊢
      rw [if_pos he, Option.some_bind]
      rw [IntAdd_of_fits acc e.2 (fitsBits_of_nonneg _ _ (by omega) (by omega)),
        ih (acc + e.2) hrest (by omega) (by omega)]
      congr 1
      ring
    · have hi : e.1 = issuer := not_not.mp he
      have htot : nonIssuerTotal (e :: rest) issuer = nonIssuerTotal rest issuer := by
        simp [nonIssuerTotal, nonIssuerEntries, sumAmounts, hi]
      rw [htot] at hfit ⊢
      rw [if_neg he]
      exact ih acc hrest hacc hfit

theorem nonIssuerSumChecked_complete (ops : accountOperationMap) (issuer : String)
    (hnn : ∀ e ∈ ops, 0 ≤ e.2) (hfit : fitsBits maxBitLen (nonIssuerTotal ops issuer) = true) :
    nonIssuerSumChecked ops issuer = some (nonIssuerTotal ops issuer) := by
  have hlt := lt_of_fitsBits _ _ hfit
  have := foldl_sum_complete ops issuer 0 hnn (le_refl 0) (by omega)
  unfold nonIssuerSumChecked
  rw [this]
  congr 1
  omega

theorem finalShareChecked_complete (n : Nat) (rate : Dec) (b s a : Int)
    (h1 : fitsBits maxBitLen (b * a) = true) (h2 : fitsBits n (rate.i * (b * a)) = true)
    (h3 : fitsBits maxBitLen (finalShare rate b s a) = true) :
    finalShareChecked n rate b s a = some (finalShare rate b s a) := by
  unfold finalShareChecked IntMul
  rw [if_pos h1, Option.some_bind]
  unfold Dec.MulIntChecked
  rw [if_pos h2, Option.some_bind]
  unfold Dec.RoundIntChecked NewIntFromBigInt
  have h4 : chopPrecisionAndRound (((rate.MulInt (b * a)).QuoInt s).Ceil).i
      = finalShare rate b s a := rfl
  rw [h4, if_pos h3]

theorem shareLoopChecked_cons (f : Int → Option Int) (issuer : String)
    (acc : Option accountOperationMap) (e : String × Int) (rest : accountOperationMap) :
    shareLoopChecked f issuer acc (e :: rest)
      = shareLoopChecked f issuer
          (if e.1 = issuer then acc
            else acc.bind (fun sh => (f e.2).map (fun share => mapSet sh e.1 share))) rest :=
  rfl

theorem shareLoopChecked_complete (f : Int → Option Int) (g : Int → Int) (issuer : String)
    (ops acc : accountOperationMap)
    (hf : ∀ e ∈ ops, e.1 ≠ issuer → f e.2 = some (g e.2)) :
    shareLoopChecked f issuer (some acc) ops = some (shareLoop g issuer acc ops) := by
  induction ops generalizing acc with
  | nil => rfl
  | cons e rest ih =>
    have hrest : ∀ x ∈ rest, x.1 ≠ issuer → f x.2 = some (g x.2) :=
      fun x hx => hf x (List.mem_cons_of_mem _ hx)
    rw [shareLoopChecked_cons, shareLoop_cons]
    by_cases he : e.1 = issuer
    · rw [if_pos he, if_pos he]
      exact ih acc hrest
    · rw [if_neg he, if_neg he, Option.some_bind, hf e (List.mem_cons_self _ _) he,
        Option.map_some']
      exact ih _ hrest

theorem CalculateRateSharesChecked_of_purpose (n : Nat) (ctx : Context) (rate : Option Dec)
    (issuer : String) (inOps outOps : accountOperationMap) (h : ¬ NoIBCPurpose ctx) :
    CalculateRateSharesChecked n ctx rate issuer inOps outOps = some [] := by
  unfold CalculateRateSharesChecked
  by_cases h1 : IsPurposeIn ctx = true
  · simp only [h1, if_true]
  by_cases h2 : IsPurposeAck ctx = true
  · simp only [h1, h2, if_true, if_false, Bool.false_eq_true]
  by_cases h3 : IsPurposeTimeout ctx = true
  · simp only [h1, h2, h3, if_true, if_false, Bool.false_eq_true]
  exfalso
  apply h
  exact ⟨by simpa using h1, by simpa using h2, by simpa using h3⟩

theorem CalculateRateSharesChecked_of_sums (n : Nat) (ctx : Context) (r : Dec)
    (issuer : String) (inOps outOps : accountOperationMap) (hctx : NoIBCPurpose ctx)
    (hr : 0 < r.i) (hsums : SumsInRange issuer inOps outOps) :
    CalculateRateSharesChecked n ctx (some r) issuer inOps outOps
      = if ¬ 0 < rateBase issuer inOps outOps then some []
        else shareLoopChecked
          (finalShareChecked n r (rateBase issuer inOps outOps) (nonIssuerTotal inOps issuer))
          issuer (some []) inOps := by
  obtain ⟨h1, h2, h3⟩ := hctx
  obtain ⟨s1, s2, s3, s4⟩ := hsums
  unfold CalculateRateSharesChecked
  simp only [h1, h2, h3, Dec.IsPositive, hr, decide_True, Bool.not_true, Bool.false_eq_true,
    if_false, nonIssuerSumChecked_complete inOps issuer s1 s3,
    nonIssuerSumChecked_complete outOps issuer s2 s4]
  unfold rateBase
  rw [← minNonIssuer_eq]

theorem CalculateRateSharesChecked_complete (n : Nat) (ctx : Context) (rate : Option Dec)
    (issuer : String) (inOps outOps : accountOperationMap)
    (hsums : SumsInRange issuer inOps outOps)
    (hprod : ∀ r, rate = some r → ProductsInRange n r issuer inOps outOps) :
    CalculateRateSharesChecked n ctx rate issuer inOps outOps
      = some (CalculateRateShares ctx rate issuer inOps outOps) := by
  by_cases hctx : NoIBCPurpose ctx
  · cases rate with
    | none =>
      rw [CalculateRateShares_no_rate]
      unfold CalculateRateSharesChecked
      obtain ⟨h1, h2, h3⟩ := hctx
      simp only [h1, h2, h3, Bool.false_eq_true, if_false]
    | some r =>
      by_cases hr : 0 < r.i
      · rw [CalculateRateSharesChecked_of_sums n ctx r issuer inOps outOps hctx hr hsums]
        by_cases hb : 0 < rateBase issuer inOps outOps
        · rw [if_neg (not_not.mpr hb),
            CalculateRateShares_charged ctx r issuer inOps outOps hctx hr hb]
          apply shareLoopChecked_complete
          intro e he hne
          obtain ⟨p1, p2, p3⟩ := hprod r rfl e he hne
          exact finalShareChecked_complete n r _ _ e.2 p1 p2 p3
        · rw [if_pos hb, CalculateRateShares_base_not_positive ctx (some r) issuer inOps outOps hb]
      · rw [CalculateRateShares_rate_not_positive ctx r issuer inOps outOps hr]
        unfold CalculateRateSharesChecked
        obtain ⟨h1, h2, h3⟩ := hctx
        simp only [h1, h2, h3, Dec.IsPositive, hr, decide_False, Bool.not_false,
          Bool.false_eq_true, if_false, if_true]
  · rw [CalculateRateSharesChecked_of_purpose n ctx rate issuer inOps outOps hctx]
    congr 1
    symm
    apply CalculateRateShares_uncharged
    rintro ⟨h, -⟩
    exact hctx h

/-! ## The returned map: keys, values, emptiness, the full base -/

theorem CalculateRateShares_full_base (ctx : Context) (rate : Dec) (issuer : String)
    (hctx : NoIBCPurpose ctx) (hr : 0 < rate.toRat) :
    (∀ inOps outOps : accountOperationMap, NodupKeys inOps →
      0 < nonIssuerTotal inOps issuer →
      nonIssuerTotal inOps issuer ≤ nonIssuerTotal outOps issuer →
      rateBase issuer inOps outOps = nonIssuerTotal inOps issuer ∧
      (∀ a, a ∈ mapKeys (CalculateRateShares ctx (some rate) issuer inOps outOps)
        ↔ a ∈ mapKeys inOps ∧ a ≠ issuer) ∧
      ∀ a amt, (a, amt) ∈ inOps → a ≠ issuer →
        mapLookup (CalculateRateShares ctx (some rate) issuer inOps outOps) a
          = some ⌈rate.toRat * (amt : ℚ)⌉) ∧
    (∀ (sender recipient : String) (amt : Int), sender ≠ issuer → recipient ≠ issuer →
      0 < amt →
      CalculateRateShares ctx (some rate) issuer [(sender, amt)] [(recipient, amt)]
        = [(sender, ⌈rate.toRat * (amt : ℚ)⌉)]) := by
  have hri : 0 < rate.i := (Dec.toRat_pos rate).mp hr
  constructor
  · intro inOps outOps hnd hin hle
    have hbase : rateBase issuer inOps outOps = nonIssuerTotal inOps issuer := by
      unfold rateBase
      exact min_eq_left hle
    have hb : 0 < rateBase issuer inOps outOps := by
      rw [hbase]
      exact hin
    refine ⟨hbase, ?_, ?_⟩
    · intro a
      rw [CalculateRateShares_charged ctx rate issuer inOps outOps hctx hri hb,
        mem_mapKeys_shareLoop]
      simp [mapKeys]
    · intro a amt hmem hne
      rw [CalculateRateShares_lookup_of_mem ctx rate issuer inOps outOps hctx hri hb hnd a amt
        hmem hne, hbase, finalShare_full_base rate _ amt (ne_of_gt hin)]
  · intro sender recipient amt hs hrc hamt
    have hnd : NodupKeys [(sender, amt)] := by
      unfold NodupKeys mapKeys
      simp
    have hin : nonIssuerTotal [(sender, amt)] issuer = amt := by
      simp [nonIssuerTotal, nonIssuerEntries, sumAmounts, hs]
    have hout : nonIssuerTotal [(recipient, amt)] issuer = amt := by
      simp [nonIssuerTotal, nonIssuerEntries, sumAmounts, hrc]
    have hbase : rateBase issuer [(sender, amt)] [(recipient, amt)] = amt := by
      unfold rateBase
      rw [hin, hout, min_self]
    have hb : 0 < rateBase issuer [(sender, amt)] [(recipient, amt)] := by
      rw [hbase]
      exact hamt
    rw [CalculateRateShares_eq_map ctx rate issuer _ _ hctx hri hb hnd, hbase, hin]
    simp [nonIssuerEntries, hs, finalShare_full_base rate amt amt (ne_of_gt hamt)]

theorem SameOperations.refl (m : accountOperationMap) (h : NodupKeys m) : SameOperations m m :=
  ⟨h, h, fun _ => Iff.rfl, fun _ => rfl⟩

theorem applyRules_outputs_congr {σ ε A : Type} (k : Keeper σ ε A) (ctx : Context)
    (inputs outputs1 outputs2 : groupedByDenomAccountOperations)
    (hnd : ∀ denom, NodupKeys (mapGet inputs denom))
    (h : ∀ denom ∈ mapKeys inputs,
      SameOperations (mapGet outputs1 denom) (mapGet outputs2 denom)) (s : σ) :
    applyRules k ctx inputs outputs1 s = applyRules k ctx inputs outputs2 s := by
  unfold applyRules iterateMapDeterministic
  apply iterateKeys_congr
  intro denom hd s0
  have hmem : denom ∈ mapKeys inputs := (mem_sortedKeys inputs denom).mp hd
  unfold applyRulesDenom
  by_cases hm : isUnmanaged k (k.GetDefinition denom s0).2 = true
  · simp only [hm, if_true]
  · simp only [hm]
    exact applyRulesToken_perm k ctx _ (List.Perm.refl _) (h denom hmem).perm (hnd denom)
      (h denom hmem).1 s0

theorem coinAmounts_filter_ne (coins : Coins) (denom other : String) (h : denom ≠ other) :
    coinAmounts (coins.filter (fun c => decide (c.1 ≠ other))) denom = coinAmounts coins denom
    := by
  unfold coinAmounts
  rw [List.filter_filter]
  congr 1
  apply List.filter_congr
  intro c _
  by_cases hc : c.1 = denom
  · simp [hc, h]
  · simp [hc]

theorem carriedAmounts_withoutDenom (outputs : List Output) (denom other address : String)
    (h : denom ≠ other) :
    carriedAmounts ((withoutDenom other outputs).map (fun o => (o.Address, o.Coins)))
        denom address
      = carriedAmounts (outputs.map (fun o => (o.Address, o.Coins))) denom address := by
  induction outputs with
  | nil => rfl
  | cons o rest ih =>
    unfold withoutDenom at ih ⊢
    simp only [List.map_cons]
    rw [carriedAmounts_cons, carriedAmounts_cons, ih]
    simp only [coinAmounts_filter_ne o.Coins denom other h]

theorem sameOperations_withoutDenom (outputs : List Output) (denom other : String)
    (h : denom ≠ other) :
    SameOperations (mapGet (groupOutputs (withoutDenom other outputs)) denom)
      (mapGet (groupOutputs outputs) denom) := by
  have a := groupOperations_spec ((withoutDenom other outputs).map (fun o => (o.Address, o.Coins)))
  have b := groupOperations_spec (outputs.map (fun o => (o.Address, o.Coins)))
  rw [← groupOutputs_eq] at a b
  refine ⟨a.2.1 denom, b.2.1 denom, ?_, ?_⟩
  · intro account
    rw [a.2.2.2.1, b.2.2.2.1, ← carriedAmounts_ne_nil_iff, ← carriedAmounts_ne_nil_iff,
      carriedAmounts_withoutDenom outputs denom other account h]
  · intro account
    rw [a.2.2.2.2, b.2.2.2.2, carriedAmounts_withoutDenom outputs denom other account h]

theorem applyFeatures_withoutDenom {σ ε A : Type} (k : Keeper σ ε A) (ctx : Context)
    (inputs : List Input) (outputs : List Output) (other : String)
    (h : other ∉ inputDenoms inputs) (s : σ) :
    applyFeatures k ctx inputs (withoutDenom other outputs) s
      = applyFeatures k ctx inputs outputs s := by
  unfold applyFeatures
  have hin := groupOperations_spec (inputs.map (fun i => (i.Address, i.Coins)))
  rw [← groupInputs_eq] at hin
  apply applyRules_outputs_congr k ctx _ _ _ hin.2.1
  intro denom hd
  apply sameOperations_withoutDenom
  intro hc
  apply h
  rw [← hc]
  exact (mem_mapKeys_groupInputs inputs denom).mp hd

/-! ## The rate calculator: shares -/

/-- C2: rate 10%, inputs A:75, B:75, issuer:25 and outputs C:50, issuer:100, D:25, in a
context with no IBC purpose, whatever the order in which the two maps are traversed: the base
is 75 and the result is the map with A:4 and B:4 and nothing else (the issuer owes nothing). -/
theorem CalculateRateShares_documented_example (inOps outOps : accountOperationMap)
    (hin : inOps.Perm [("A", 75), ("B", 75), ("issuer", 25)])
    (hout : outOps.Perm [("C", 50), ("issuer", 100), ("D", 25)]) :
    rateBase "issuer" inOps outOps = 75 ∧
    (CalculateRateShares plainContext (some tenPercent) "issuer" inOps outOps).Perm
      [("A", 4), ("B", 4)] ∧
    mapLookup (CalculateRateShares plainContext (some tenPercent) "issuer" inOps outOps) "A"
      = some 4 ∧
    mapLookup (CalculateRateShares plainContext (some tenPercent) "issuer" inOps outOps) "B"
      = some 4 ∧
    mapLookup (CalculateRateShares plainContext (some tenPercent) "issuer" inOps outOps) "issuer"
      = none := by
  have hnd : NodupKeys inOps := by
    unfold NodupKeys mapKeys
    rw [(hin.map Prod.fst).nodup_iff]
    decide
  have hine : (nonIssuerEntries inOps "issuer").Perm [("A", 75), ("B", 75)] := by
    have := hin.filter (fun e : String × Int => decide (e.1 ≠ "issuer"))
    exact this
  have houte : (nonIssuerEntries outOps "issuer").Perm [("C", 50), ("D", 25)] := by
    have := hout.filter (fun e : String × Int => decide (e.1 ≠ "issuer"))
    exact this
  have hinsum : nonIssuerTotal inOps "issuer" = 150 := by
    unfold nonIssuerTotal sumAmounts
    rw [(hine.map Prod.snd).sum_eq]
    rfl
  have houtsum : nonIssuerTotal outOps "issuer" = 75 := by
    unfold nonIssuerTotal sumAmounts
    rw [(houte.map Prod.snd).sum_eq]
    rfl
  have hbase : rateBase "issuer" inOps outOps = 75 := by
    unfold rateBase
    rw [hinsum, houtsum]
    rfl
  have hres : (CalculateRateShares plainContext (some tenPercent) "issuer" inOps outOps).Perm
      [("A", 4), ("B", 4)] := by
    rw [CalculateRateShares_eq_map plainContext tenPercent "issuer" inOps outOps (by decide)
      (by decide) (by rw [hbase]; decide) hnd, hbase, hinsum]
    have := hine.map (fun e : String × Int => (e.1, finalShare tenPercent 75 150 e.2))
    exact this
  have hnd2 : NodupKeys
      (CalculateRateShares plainContext (some tenPercent) "issuer" inOps outOps) := by
    unfold NodupKeys mapKeys
    rw [(hres.map Prod.fst).nodup_iff]
    decide
  refine ⟨hbase, hres, ?_, ?_, ?_⟩
  · exact mapLookup_of_mem _ hnd2 "A" 4 (hres.symm.subset (by simp))
  · exact mapLookup_of_mem _ hnd2 "B" 4 (hres.symm.subset (by simp))
  · apply mapLookup_eq_none
    unfold mapKeys
    intro hmem
    have := (hres.map Prod.fst).subset hmem
    revert this
    decide

/-- Witness for C2: the two maps traversed in the order in which they are written. -/
theorem CalculateRateShares_documented_example_witness :
    rateBase "issuer" [("A", 75), ("B", 75), ("issuer", 25)]
      [("C", 50), ("issuer", 100), ("D", 25)] = 75 ∧
    (CalculateRateShares plainContext (some tenPercent) "issuer"
      [("A", 75), ("B", 75), ("issuer", 25)] [("C", 50), ("issuer", 100), ("D", 25)]).Perm
      [("A", 4), ("B", 4)] ∧
    mapLookup (CalculateRateShares plainContext (some tenPercent) "issuer"
      [("A", 75), ("B", 75), ("issuer", 25)] [("C", 50), ("issuer", 100), ("D", 25)]) "A"
      = some 4 ∧
    mapLookup (CalculateRateShares plainContext (some tenPercent) "issuer"
      [("A", 75), ("B", 75), ("issuer", 25)] [("C", 50), ("issuer", 100), ("D", 25)]) "B"
      = some 4 ∧
    mapLookup (CalculateRateShares plainContext (some tenPercent) "issuer"
      [("A", 75), ("B", 75), ("issuer", 25)] [("C", 50), ("issuer", 100), ("D", 25)]) "issuer"
      = none :=
  CalculateRateShares_documented_example [("A", 75), ("B", 75), ("issuer", 25)]
    [("C", 50), ("issuer", 100), ("D", 25)] (List.Perm.refl _) (List.Perm.refl _)

/-- C4: when the context carries the IBC-in, the IBC-ack or the IBC-timeout purpose, the result
is empty, for every rate, issuer, inOps and outOps. -/
theorem CalculateRateShares_ibc_purpose_empty (ctx : Context) (rate : Option Dec)
    (issuer : String) (inOps outOps : accountOperationMap)
    (h : IsPurposeIn ctx = true ∨ IsPurposeAck ctx = true ∨ IsPurposeTimeout ctx = true) :
    CalculateRateShares ctx rate issuer inOps outOps = [] :=
  CalculateRateShares_of_purpose ctx rate issuer inOps outOps h

/-- Witness for C4: the documented batch in a context tagged with the timeout purpose. -/
theorem CalculateRateShares_ibc_purpose_empty_witness :
    (IsPurposeIn ⟨false, false, true⟩ = true ∨ IsPurposeAck ⟨false, false, true⟩ = true
      ∨ IsPurposeTimeout ⟨false, false, true⟩ = true) ∧
    CalculateRateShares ⟨false, false, true⟩ (some tenPercent) "issuer"
      [("A", 75), ("B", 75), ("issuer", 25)] [("C", 50), ("issuer", 100), ("D", 25)] = [] :=
  ⟨by decide, CalculateRateShares_ibc_purpose_empty ⟨false, false, true⟩ (some tenPercent)
    "issuer" [("A", 75), ("B", 75), ("issuer", 25)] [("C", 50), ("issuer", 100), ("D", 25)]
    (by decide)⟩

/-- C6: the issuer is never charged: for every rate, context, inOps and outOps the issuer is
not a key of the result, also when the issuer is one of the senders. -/
theorem CalculateRateShares_issuer_not_charged (ctx : Context) (rate : Option Dec)
    (issuer : String) (inOps outOps : accountOperationMap) :
    issuer ∉ mapKeys (CalculateRateShares ctx rate issuer inOps outOps) ∧
    mapLookup (CalculateRateShares ctx rate issuer inOps outOps) issuer = none := by
  have hkey : issuer ∉ mapKeys (CalculateRateShares ctx rate issuer inOps outOps) := by
    by_cases h : NoIBCPurpose ctx ∧
        ∃ r, rate = some r ∧ 0 < r.i ∧ 0 < rateBase issuer inOps outOps
    · obtain ⟨hctx, r, rfl, hr, hb⟩ := h
      rw [CalculateRateShares_charged ctx r issuer inOps outOps hctx hr hb,
        mem_mapKeys_shareLoop]
      rintro (h1 | h1)
      · simp [mapKeys] at h1
      · exact h1.2 rfl
    · rw [CalculateRateShares_uncharged ctx rate issuer inOps outOps h]
      simp [mapKeys]
  exact ⟨hkey, mapLookup_eq_none _ _ hkey⟩

/-- C7: issuer flows do not enter the result: two batches whose inOps agree on every entry
other than the issuer's, and whose outOps agree on every entry other than the issuer's, give
the same result; so adding, removing or changing the issuer's own entry changes nothing. -/
theorem CalculateRateShares_ignores_issuer_entries (ctx : Context) (rate : Option Dec)
    (issuer : String) (inOps inOps2 outOps outOps2 : accountOperationMap)
    (hin : nonIssuerEntries inOps issuer = nonIssuerEntries inOps2 issuer)
    (hout : nonIssuerEntries outOps issuer = nonIssuerEntries outOps2 issuer) :
    CalculateRateShares ctx rate issuer inOps outOps
      = CalculateRateShares ctx rate issuer inOps2 outOps2 := by
  rw [CalculateRateShares_nonIssuerEntries ctx rate issuer inOps outOps,
    CalculateRateShares_nonIssuerEntries ctx rate issuer inOps2 outOps2, hin, hout]

/-- Witness for C7: the documented batch, and the same batch with the issuer's input removed
and the issuer's output changed from 100 to 7. -/
theorem CalculateRateShares_ignores_issuer_entries_witness :
    nonIssuerEntries [("A", 75), ("B", 75), ("issuer", 25)] "issuer"
      = nonIssuerEntries [("A", 75), ("B", 75)] "issuer" ∧
    nonIssuerEntries [("C", 50), ("issuer", 100), ("D", 25)] "issuer"
      = nonIssuerEntries [("C", 50), ("issuer", 7), ("D", 25)] "issuer" ∧
    CalculateRateShares plainContext (some tenPercent) "issuer"
        [("A", 75), ("B", 75), ("issuer", 25)] [("C", 50), ("issuer", 100), ("D", 25)]
      = CalculateRateShares plainContext (some tenPercent) "issuer"
        [("A", 75), ("B", 75)] [("C", 50), ("issuer", 7), ("D", 25)] :=
  ⟨by decide, by decide, CalculateRateShares_ignores_issuer_entries plainContext
    (some tenPercent) "issuer" [("A", 75), ("B", 75), ("issuer", 25)] [("A", 75), ("B", 75)]
    [("C", 50), ("issuer", 100), ("D", 25)] [("C", 50), ("issuer", 7), ("D", 25)]
    (by decide) (by decide)⟩

/-! ## The rate calculator: the sum of the shares -/

/-- C3: for a positive rate and a batch of non-negative amounts in which the issuer is neither
a sender nor a receiver, the sum of the returned shares is at most
ceil(rate * min(inSum, outSum)) + (n - 1), where n is the number of keys of the result (the
slack n - 1 is a count: it is 0 for an empty result). -/
theorem CalculateRateShares_sum_upper_bound (ctx : Context) (rate : Dec) (issuer : String)
    (inOps outOps : accountOperationMap) (hr : 0 < rate.toRat)
    (hin : ∀ e ∈ inOps, 0 ≤ e.2) (hout : ∀ e ∈ outOps, 0 ≤ e.2)
    (hi1 : issuer ∉ mapKeys inOps) (hi2 : issuer ∉ mapKeys outOps) (hnd : NodupKeys inOps) :
    sumAmounts (CalculateRateShares ctx (some rate) issuer inOps outOps)
      ≤ ⌈rate.toRat * ((min (sumAmounts inOps) (sumAmounts outOps) : Int) : ℚ)⌉
        + (((CalculateRateShares ctx (some rate) issuer inOps outOps).length - 1 : ℕ) : Int)
    := by
  have hri : 0 < rate.i := (Dec.toRat_pos rate).mp hr
  have hbase : rateBase issuer inOps outOps = min (sumAmounts inOps) (sumAmounts outOps) := by
    unfold rateBase
    rw [nonIssuerTotal_of_not_mem inOps issuer hi1, nonIssuerTotal_of_not_mem outOps issuer hi2]
  rw [← hbase]
  by_cases h : NoIBCPurpose ctx ∧ 0 < rateBase issuer inOps outOps
  · obtain ⟨hctx, hb⟩ := h
    obtain ⟨-, hup⟩ := shares_sum_bounds rate issuer inOps outOps hri hb hin
    have hs : 0 < nonIssuerTotal inOps issuer :=
      lt_of_lt_of_le hb (rateBase_le_inSum issuer inOps outOps)
    have hlen : 0 < (nonIssuerEntries inOps issuer).length :=
      List.length_pos.mpr (nonIssuerEntries_ne_nil inOps issuer hs)
    rw [CalculateRateShares_eq_map ctx rate issuer inOps outOps hctx hri hb hnd, List.length_map]
    generalize sumAmounts ((nonIssuerEntries inOps issuer).map (fun e =>
      (e.1, finalShare rate (rateBase issuer inOps outOps)
        (nonIssuerTotal inOps issuer) e.2))) = g at hup ⊢
    generalize (nonIssuerEntries inOps issuer).length = n at hup hlen ⊢
    generalize rateBase issuer inOps outOps = b at hup ⊢
    have hceil := Int.le_ceil (rate.toRat * (b : ℚ))
    generalize ⌈rate.toRat * (b : ℚ)⌉ = c at hceil ⊢
    have hc : rate.i * b ≤ c * precisionReuse := by
      have : (rate.i : ℚ) * (b : ℚ) ≤ (c : ℚ) * 1000000000000000000 := by
        unfold Dec.toRat at hceil
        have h2 : (rate.i : ℚ) / 1000000000000000000 * (b : ℚ)
            = (rate.i : ℚ) * (b : ℚ) / 1000000000000000000 := by ring
        rw [h2, div_le_iff₀ (by norm_num)] at hceil
        exact hceil
      unfold precisionReuse
      exact_mod_cast this
    have hn1 : ((n - 1 : ℕ) : Int) = (n : Int) - 1 := by omega
    rw [hn1]
    have hP := precisionReuse_pos
    have hnpos : (0 : Int) < (n : Int) := by exact_mod_cast hlen
    have hlt : precisionReuse * g < precisionReuse * (c + (n : Int)) := by
      have : precisionReuse * (c + (n : Int)) = c * precisionReuse + (n : Int) * precisionReuse
          := by ring
      rw [this]
      have : (n : Int) * (precisionReuse - 1) = (n : Int) * precisionReuse - (n : Int) := by ring
      rw [this] at hup
      linarith
    have := lt_of_mul_lt_mul_left hlt (le_of_lt hP)
    omega
  · have hnil : CalculateRateShares ctx (some rate) issuer inOps outOps = [] := by
      apply CalculateRateShares_uncharged
      rintro ⟨hctx, r, -, -, hb⟩
      exact h ⟨hctx, hb⟩
    rw [hnil]
    have hb0 : 0 ≤ rateBase issuer inOps outOps := by
      rw [hbase]
      exact le_min (sumAmounts_nonneg inOps hin) (sumAmounts_nonneg outOps hout)
    have : 0 ≤ ⌈rate.toRat * ((rateBase issuer inOps outOps : Int) : ℚ)⌉ := by
      apply Int.ceil_nonneg
      apply mul_nonneg (le_of_lt hr)
      exact_mod_cast hb0
    simpa [sumAmounts] using this

/-- Witness for C3: rate 10%, three senders of one unit each and one receiver of three. -/
theorem CalculateRateShares_sum_upper_bound_witness :
    (∀ e ∈ [("A", (1 : Int)), ("B", 1), ("C", 1)], 0 ≤ e.2) ∧
    (∀ e ∈ [("D", (3 : Int))], 0 ≤ e.2) ∧
    sumAmounts (CalculateRateShares plainContext (some tenPercent) "issuer"
        [("A", 1), ("B", 1), ("C", 1)] [("D", 3)])
      ≤ ⌈tenPercent.toRat * ((min (sumAmounts [("A", 1), ("B", 1), ("C", 1)])
          (sumAmounts [("D", 3)]) : Int) : ℚ)⌉
        + (((CalculateRateShares plainContext (some tenPercent) "issuer"
            [("A", 1), ("B", 1), ("C", 1)] [("D", 3)]).length - 1 : ℕ) : Int) :=
  ⟨by decide, by decide, CalculateRateShares_sum_upper_bound plainContext tenPercent "issuer"
    [("A", 1), ("B", 1), ("C", 1)] [("D", 3)]
    ((Dec.toRat_pos tenPercent).mpr (by decide)) (by decide) (by decide) (by decide)
    (by decide) (by decide)⟩

/-- C8, as the claim words it, fails: with the rate 10^-18, inputs A:1 and B:1 and the single
output C:1, the result is not empty, its two shares are 0 and 0, and their sum 0 is below
rate * min(inSum, outSum) = 10^-18. -/
theorem CalculateRateShares_undercharge_counterexample :
    0 < smallestRate.toRat ∧
    (∀ e ∈ [("A", (1 : Int)), ("B", 1)], 0 ≤ e.2) ∧ (∀ e ∈ [("C", (1 : Int))], 0 ≤ e.2) ∧
    CalculateRateShares plainContext (some smallestRate) "issuer" [("A", 1), ("B", 1)]
      [("C", 1)] = [("A", 0), ("B", 0)] ∧
    ((sumAmounts (CalculateRateShares plainContext (some smallestRate) "issuer"
        [("A", 1), ("B", 1)] [("C", 1)]) : Int) : ℚ)
      < smallestRate.toRat * ((rateBase "issuer" [("A", 1), ("B", 1)] [("C", 1)] : Int) : ℚ)
    := by
  refine ⟨(Dec.toRat_pos smallestRate).mpr (by decide), by decide, by decide, by decide, ?_⟩
  have h1 : sumAmounts (CalculateRateShares plainContext (some smallestRate) "issuer"
      [("A", 1), ("B", 1)] [("C", 1)]) = 0 := by decide
  have h2 : rateBase "issuer" [("A", 1), ("B", 1)] [("C", 1)] = 1 := by decide
  rw [h1, h2]
  unfold Dec.toRat smallestRate
  norm_num

/-- C8, amended: for a positive rate and non-negative input amounts, when the result is not
empty the sum of the returned shares is at least rate * min(inSum, outSum) - (n - 1) / 10^18,
where n is the number of keys of the result: each payer may fall short by less than one unit
of the 18th decimal. -/
theorem CalculateRateShares_sum_lower_bound (ctx : Context) (rate : Dec) (issuer : String)
    (inOps outOps : accountOperationMap) (hr : 0 < rate.toRat)
    (hin : ∀ e ∈ inOps, 0 ≤ e.2) (hnd : NodupKeys inOps)
    (hne : CalculateRateShares ctx (some rate) issuer inOps outOps ≠ []) :
    rate.toRat * ((rateBase issuer inOps outOps : Int) : ℚ)
        - (((CalculateRateShares ctx (some rate) issuer inOps outOps).length : ℚ) - 1)
          / 1000000000000000000
      ≤ ((sumAmounts (CalculateRateShares ctx (some rate) issuer inOps outOps) : Int) : ℚ) := by
  have hri : 0 < rate.i := (Dec.toRat_pos rate).mp hr
  have hch : NoIBCPurpose ctx ∧ 0 < rateBase issuer inOps outOps := by
    by_contra hc
    apply hne
    apply CalculateRateShares_uncharged
    rintro ⟨hctx, r, -, -, hb⟩
    exact hc ⟨hctx, hb⟩
  obtain ⟨hctx, hb⟩ := hch
  obtain ⟨hlow, -⟩ := shares_sum_bounds rate issuer inOps outOps hri hb hin
  rw [CalculateRateShares_eq_map ctx rate issuer inOps outOps hctx hri hb hnd, List.length_map]
  generalize sumAmounts ((nonIssuerEntries inOps issuer).map (fun e =>
    (e.1, finalShare rate (rateBase issuer inOps outOps)
      (nonIssuerTotal inOps issuer) e.2))) = g at hlow ⊢
  generalize (nonIssuerEntries inOps issuer).length = n at hlow ⊢
  generalize rateBase issuer inOps outOps = b at hlow ⊢
  have hq : (rate.i : ℚ) * (b : ℚ) - ((n : ℚ) - 1) ≤ 1000000000000000000 * (g : ℚ) := by
    unfold precisionReuse at hlow
    exact_mod_cast hlow
  unfold Dec.toRat
  have h2 : (rate.i : ℚ) / 1000000000000000000 * (b : ℚ) - ((n : ℚ) - 1) / 1000000000000000000
      = ((rate.i : ℚ) * (b : ℚ) - ((n : ℚ) - 1)) / 1000000000000000000 := by ring
  rw [h2, div_le_iff₀ (by norm_num)]
  linarith

/-- Witness for C8: the smallest rate with two senders of one unit and one receiver of one. -/
theorem CalculateRateShares_sum_lower_bound_witness :
    (∀ e ∈ [("A", (1 : Int)), ("B", 1)], 0 ≤ e.2) ∧
    CalculateRateShares plainContext (some smallestRate) "issuer" [("A", 1), ("B", 1)]
      [("C", 1)] ≠ [] ∧
    smallestRate.toRat * ((rateBase "issuer" [("A", 1), ("B", 1)] [("C", 1)] : Int) : ℚ)
        - (((CalculateRateShares plainContext (some smallestRate) "issuer" [("A", 1), ("B", 1)]
            [("C", 1)]).length : ℚ) - 1) / 1000000000000000000
      ≤ ((sumAmounts (CalculateRateShares plainContext (some smallestRate) "issuer"
          [("A", 1), ("B", 1)] [("C", 1)]) : Int) : ℚ) :=
  ⟨by decide, by decide, CalculateRateShares_sum_lower_bound plainContext smallestRate "issuer"
    [("A", 1), ("B", 1)] [("C", 1)] ((Dec.toRat_pos smallestRate).mpr (by decide)) (by decide)
    (by decide) (by decide)⟩

/-! ## Deterministic iteration -/

/-- C9: for every map m, sortedKeys m holds every key of m exactly once, in strictly ascending
string order, and when fn returns no error iterateMapDeterministic calls fn on the pairs
(key, m[key]) in exactly that order, each pair being an entry of m. -/
theorem iterateMapDeterministic_sorted_order {V σ ε : Type} [Inhabited V] (m : GoMap V)
    (hnd : NodupKeys m) :
    List.Sorted (fun a b : String => a < b) (sortedKeys m) ∧
    (∀ k, k ∈ sortedKeys m ↔ k ∈ mapKeys m) ∧
    (∀ k ∈ mapKeys m, (sortedKeys m).count k = 1) ∧
    (∀ k ∈ sortedKeys m, (k, mapGet m k) ∈ m) ∧
    ∀ (fn : Callback V σ ε) (s : σ), (iterateMapDeterministic m fn s).2 = none →
      (callsMade m fn s).map (fun c => (c.key, c.value))
        = (sortedKeys m).map (fun k => (k, mapGet m k)) := by
  refine ⟨sortedKeys_sorted_lt m hnd, mem_sortedKeys m, ?_, ?_, ?_⟩
  · intro k hk
    exact List.count_eq_one_of_mem (sortedKeys_nodup m hnd) ((mem_sortedKeys m k).mpr hk)
  · intro k hk
    exact mapGet_mem m hnd k ((mem_sortedKeys m k).mp hk)
  · intro fn s hnone
    obtain ⟨-, -, -, hval, hall, -⟩ := callsMade_spec m fn s
    obtain ⟨hkeys, -⟩ := hall hnone
    rw [← hkeys, List.map_map]
    apply List.map_congr_left
    intro c hc
    simp only [Function.comp_apply, hval c hc]

/-- Witness for C9: a map with the keys B and A, traversed in that order. -/
theorem iterateMapDeterministic_sorted_order_witness :
    NodupKeys [("B", (2 : Int)), ("A", 1)] ∧
    (List.Sorted (fun a b : String => a < b) (sortedKeys [("B", (2 : Int)), ("A", 1)]) ∧
    (∀ k, k ∈ sortedKeys [("B", (2 : Int)), ("A", 1)] ↔ k ∈ mapKeys [("B", (2 : Int)), ("A", 1)]) ∧
    (∀ k ∈ mapKeys [("B", (2 : Int)), ("A", 1)],
      (sortedKeys [("B", (2 : Int)), ("A", 1)]).count k = 1) ∧
    (∀ k ∈ sortedKeys [("B", (2 : Int)), ("A", 1)],
      (k, mapGet [("B", (2 : Int)), ("A", 1)] k) ∈ [("B", (2 : Int)), ("A", 1)]) ∧
    ∀ (fn : Callback Int Nat String) (s : Nat),
      (iterateMapDeterministic [("B", (2 : Int)), ("A", 1)] fn s).2 = none →
      (callsMade [("B", (2 : Int)), ("A", 1)] fn s).map (fun c => (c.key, c.value))
        = (sortedKeys [("B", (2 : Int)), ("A", 1)]).map
            (fun k => (k, mapGet [("B", (2 : Int)), ("A", 1)] k))) :=
  ⟨by decide, iterateMapDeterministic_sorted_order [("B", (2 : Int)), ("A", 1)] (by decide)⟩

/-- C10: iterateMapDeterministic aborts on the first error.  The result is nil exactly when fn
was called on every key of m and succeeded each time.  When the result is an error, it is the
error returned by the last call made; that call is on a key of m, every smaller key of m was
called before it and succeeded, and no larger key was called. -/
theorem iterateMapDeterministic_first_error {V σ ε : Type} [Inhabited V] (m : GoMap V)
    (hnd : NodupKeys m) (fn : Callback V σ ε) (s : σ) :
    List.IsPrefix ((callsMade m fn s).map Call.key) (sortedKeys m) ∧
    ((iterateMapDeterministic m fn s).2 = none ↔
      ((∀ k ∈ mapKeys m, k ∈ (callsMade m fn s).map Call.key)
        ∧ ∀ c ∈ callsMade m fn s, c.err = none)) ∧
    (∀ e, (iterateMapDeterministic m fn s).2 = some e →
      ∃ pre c, callsMade m fn s = pre ++ [c] ∧ c.err = some e ∧ c.key ∈ mapKeys m ∧
        (∀ d ∈ pre, d.err = none ∧ d.key < c.key) ∧
        (∀ k ∈ mapKeys m, k < c.key → ∃ d ∈ pre, d.key = k) ∧
        (∀ d ∈ callsMade m fn s, d.key ≤ c.key)) := by
  obtain ⟨-, -, hpre, -, hnone, hsome⟩ := callsMade_spec m fn s
  have hsorted := sortedKeys_sorted_lt m hnd
  have herr : ∀ e, (iterateMapDeterministic m fn s).2 = some e →
      ∃ pre c, callsMade m fn s = pre ++ [c] ∧ c.err = some e ∧ c.key ∈ mapKeys m ∧
        (∀ d ∈ pre, d.err = none ∧ d.key < c.key) ∧
        (∀ k ∈ mapKeys m, k < c.key → ∃ d ∈ pre, d.key = k) ∧
        (∀ d ∈ callsMade m fn s, d.key ≤ c.key) := by
    intro e he
    obtain ⟨pre, c, hlog, hce, hpreok⟩ := hsome e he
    obtain ⟨rest, hrest⟩ := hpre
    rw [hlog, List.map_append, List.map_cons, List.map_nil] at hrest
    have hs := hsorted
    unfold List.Sorted at hs
    rw [← hrest, List.pairwise_append, List.pairwise_append] at hs
    obtain ⟨⟨-, -, hpc⟩, -, hcr⟩ := hs
    have hcmem : c.key ∈ mapKeys m := by
      rw [← mem_sortedKeys, ← hrest]
      simp
    refine ⟨pre, c, hlog, hce, hcmem, ?_, ?_, ?_⟩
    · intro d hd
      exact ⟨hpreok d hd, hpc d.key (List.mem_map_of_mem Call.key hd) c.key
        (List.mem_singleton_self _)⟩
    · intro k hk hlt
      rw [← mem_sortedKeys, ← hrest, List.mem_append, List.mem_append] at hk
      rcases hk with (hk1 | hk1) | hk1
      · obtain ⟨d, hd, hdk⟩ := List.mem_map.mp hk1
        exact ⟨d, hd, hdk⟩
      · rw [List.mem_singleton] at hk1
        exact absurd hlt (by rw [hk1]; exact lt_irrefl _)
      · have := hcr c.key (by simp) k hk1
        exact absurd hlt (not_lt.mpr (le_of_lt this))
    · intro d hd
      rw [hlog, List.mem_append] at hd
      rcases hd with hd1 | hd1
      · exact le_of_lt (hpc d.key (List.mem_map_of_mem Call.key hd1) c.key
          (List.mem_singleton_self _))
      · rw [List.mem_singleton] at hd1
        rw [hd1]
  refine ⟨hpre, ⟨?_, ?_⟩, herr⟩
  · intro h
    obtain ⟨hkeys, hall⟩ := hnone h
    refine ⟨?_, hall⟩
    intro k hk
    rw [hkeys]
    exact (mem_sortedKeys m k).mpr hk
  · rintro ⟨-, hall⟩
    cases hres : (iterateMapDeterministic m fn s).2 with
    | none => rfl
    | some e =>
      obtain ⟨pre, c, hlog, hce, -⟩ := hsome e hres
      have := hall c (by rw [hlog]; simp)
      rw [hce] at this
      cases this

/-- Witness for C10: a map with the keys C, B and A, traversed in that order, and a callback
that fails on B. -/
theorem iterateMapDeterministic_first_error_witness :
    NodupKeys [("C", (3 : Int)), ("B", 2), ("A", 1)] ∧
    (List.IsPrefix ((callsMade [("C", (3 : Int)), ("B", 2), ("A", 1)] (failOn "B") 0).map Call.key)
      (sortedKeys [("C", (3 : Int)), ("B", 2), ("A", 1)]) ∧
    ((iterateMapDeterministic [("C", (3 : Int)), ("B", 2), ("A", 1)] (failOn "B") 0).2 = none ↔
      ((∀ k ∈ mapKeys [("C", (3 : Int)), ("B", 2), ("A", 1)],
          k ∈ (callsMade [("C", (3 : Int)), ("B", 2), ("A", 1)] (failOn "B") 0).map Call.key)
        ∧ ∀ c ∈ callsMade [("C", (3 : Int)), ("B", 2), ("A", 1)] (failOn "B") 0, c.err = none)) ∧
    (∀ e, (iterateMapDeterministic [("C", (3 : Int)), ("B", 2), ("A", 1)] (failOn "B") 0).2
        = some e →
      ∃ pre c, callsMade [("C", (3 : Int)), ("B", 2), ("A", 1)] (failOn "B") 0 = pre ++ [c] ∧
        c.err = some e ∧ c.key ∈ mapKeys [("C", (3 : Int)), ("B", 2), ("A", 1)] ∧
        (∀ d ∈ pre, d.err = none ∧ d.key < c.key) ∧
        (∀ k ∈ mapKeys [("C", (3 : Int)), ("B", 2), ("A", 1)], k < c.key → ∃ d ∈ pre, d.key = k) ∧
        (∀ d ∈ callsMade [("C", (3 : Int)), ("B", 2), ("A", 1)] (failOn "B") 0,
          d.key ≤ c.key))) :=
  ⟨by decide, iterateMapDeterministic_first_error [("C", (3 : Int)), ("B", 2), ("A", 1)]
    (by decide) (failOn "B") 0⟩

/-! ## The transfer hook -/

/-- C11: a denom whose definition lookup fails with ErrInvalidDenom or ErrTokenNotFound is
passed through: the callback of applyRules returns nil for it without touching the store, it
makes no burn, transfer or check, and the loop goes on with the next denom.  A batch whose
input denoms are all of that kind returns no error, leaves the store as it was and issues no
call, so that a two-party transfer of such coins is exactly the ledger's own movement of the
sent coins. -/
theorem applyRules_passes_unmanaged_denoms {σ ε A : Type} (k : Keeper σ ε A) (ctx : Context) :
    (∀ (outputs : groupedByDenomAccountOperations) (denom : String)
        (inOps : accountOperationMap) (s : σ) (log : List (KeeperLogEntry ε A)),
      isUnmanaged k (k.GetDefinition denom s).2 = true →
        applyRulesDenom k ctx outputs denom inOps s = (s, none) ∧
        applyRulesDenom (recordKeeper k) ctx outputs denom inOps (s, log) = ((s, log), none)) ∧
    (∀ (inputs outputs : groupedByDenomAccountOperations) (denom : String) (rest : List String)
        (s : σ),
      isUnmanaged k (k.GetDefinition denom s).2 = true →
        iterateKeys inputs (applyRulesDenom k ctx outputs) (denom :: rest) s
          = iterateKeys inputs (applyRulesDenom k ctx outputs) rest s) ∧
    (∀ (inputs : List Input) (outputs : List Output) (s : σ),
      (∀ denom ∈ inputDenoms inputs, isUnmanaged k (k.GetDefinition denom s).2 = true) →
        applyFeatures k ctx inputs outputs s = (s, none) ∧
        keeperCalls k ctx inputs outputs s = []) ∧
    (∀ (move : A → A → Coins → σ → σ × Option ε) (fromAddress toAddress : A) (coins : Coins)
        (s : σ),
      (∀ c ∈ coins, isUnmanaged k (k.GetDefinition c.1 s).2 = true) →
        sendCoinsWithHook k ctx move fromAddress toAddress coins s
          = returned (move fromAddress toAddress coins s)) := by
  refine ⟨?_, ?_, ?_, ?_⟩
  · intro outputs denom inOps s log h
    exact ⟨applyRulesDenom_unmanaged k ctx outputs denom inOps s h,
      applyRulesDenom_unmanaged (recordKeeper k) ctx outputs denom inOps (s, log) h⟩
  · intro inputs outputs denom rest s h
    exact iterateKeys_cons_ok inputs _ denom rest s s
      (applyRulesDenom_unmanaged k ctx outputs denom _ s h)
  · intro inputs outputs s h
    refine ⟨applyFeatures_unmanaged k ctx inputs outputs s h, ?_⟩
    unfold keeperCalls
    rw [applyFeatures_unmanaged (recordKeeper k) ctx inputs outputs (s, []) h]
  · intro move fromAddress toAddress coins s h
    unfold sendCoinsWithHook BeforeSendCoins
    rw [applyFeatures_unmanaged k ctx _ _ s, andThen_ok]
    intro denom hd
    obtain ⟨i, hi, c, hc, hk⟩ := (mem_inputDenoms _ denom).mp hd
    rw [List.mem_singleton] at hi
    subst hi
    rw [← hk]
    exact h c hc

/-- Witness for C11: the sample keeper knows no token `core`; a transfer of 10 `core` from A
to B passes the hook untouched and is the ledger's movement alone. -/
theorem applyRules_passes_unmanaged_denoms_witness :
    (∀ c ∈ [(("core", 10) : Coin)],
      isUnmanaged sampleKeeper (sampleKeeper.GetDefinition c.1 0).2 = true) ∧
    sendCoinsWithHook sampleKeeper plainContext sampleMove "A" "B" [("core", 10)] 0
      = returned (sampleMove "A" "B" [("core", 10)] 0) :=
  ⟨by decide, (applyRules_passes_unmanaged_denoms sampleKeeper plainContext).2.2.2 sampleMove
    "A" "B" [("core", 10)] 0 (by decide)⟩

/-- C12: applyFeatures aborts the whole batch on the first failure.  When a burnIfSpendable,
SendCoins, isCoinSpendable or isCoinReceivable call returns an error, that call is the last
one issued (no further call for that token or for any later token) and applyFeatures returns
that error; and an error returned by applyFeatures is the error of the last call issued,
every call before it having succeeded. -/
theorem applyFeatures_aborts_on_first_failure {σ ε A : Type} (k : Keeper σ ε A) (ctx : Context)
    (inputs : List Input) (outputs : List Output) (s : σ) :
    (applyFeatures (recordKeeper k) ctx inputs outputs (s, [])).2
      = (applyFeatures k ctx inputs outputs s).2 ∧
    (applyFeatures (recordKeeper k) ctx inputs outputs (s, [])).1.1
      = (applyFeatures k ctx inputs outputs s).1 ∧
    (∀ pre c post e, keeperCalls k ctx inputs outputs s = pre ++ c :: post → c.err = some e →
      post = [] ∧ (applyFeatures k ctx inputs outputs s).2 = some (Abort.error e)) ∧
    (∀ e, (applyFeatures k ctx inputs outputs s).2 = some (Abort.error e) →
      ∃ pre c, keeperCalls k ctx inputs outputs s = pre ++ [c] ∧ c.err = some e ∧
        ∀ d ∈ pre, d.err = none) := by
  obtain ⟨hrun, hfl⟩ := keeperCalls_eq k ctx inputs outputs s
  refine ⟨by rw [hrun], by rw [hrun], ?_, hfl.1⟩
  intro pre c post e hsplit hce
  have hmem : c ∈ keeperCalls k ctx inputs outputs s := by
    rw [hsplit]
    simp
  cases hres : (applyFeatures k ctx inputs outputs s).2 with
  | none =>
    have := hfl.2 (fun e2 he2 => by rw [hres] at he2; simp at he2) c hmem
    rw [hce] at this
    cases this
  | some a =>
    cases a with
    | panic =>
      have := hfl.2 (fun e2 he2 => by rw [hres] at he2; simp at he2) c hmem
      rw [hce] at this
      cases this
    | error e2 =>
      obtain ⟨pre2, c2, hcalls, hc2, hpre2⟩ := hfl.1 e2 hres
      rw [hcalls] at hsplit
      rcases List.eq_nil_or_concat post with hnil | ⟨init, l, hpost⟩
      · subst hnil
        have h2 := List.append_inj' hsplit rfl
        have hcc : c2 = c := by
          have := h2.2
          simpa using this
        subst hcc
        rw [hce] at hc2
        simp only [Option.some.injEq] at hc2
        subst hc2
        exact ⟨rfl, rfl⟩
      · subst hpost
        have h3 : pre2 ++ [c2] = (pre ++ c :: init) ++ [l] := by
          rw [hsplit]
          simp
        have h4 := (List.append_inj' h3 rfl).1
        have hcpre : c ∈ pre2 := by
          rw [h4]
          simp
        have := hpre2 c hcpre
        rw [hce] at this
        cases this

/-- Witness for C12: two senders of the sample token, the second one frozen.  The sixth call,
the spendable check of `frozen`, fails; it is the last call and its error is returned. -/
theorem applyFeatures_aborts_on_first_failure_witness :
    keeperCalls sampleKeeper plainContext
        [⟨"A", [("utoken-issuer", 100)]⟩, ⟨"frozen", [("utoken-issuer", 100)]⟩]
        [⟨"B", [("utoken-issuer", 200)]⟩] 0
      = [⟨KeeperCall.burnIfSpendable "A" sampleDefinition 10, none⟩,
          ⟨KeeperCall.burnIfSpendable "frozen" sampleDefinition 10, none⟩,
          ⟨KeeperCall.SendCoins "A" "issuer" [("utoken-issuer", 10)], none⟩,
          ⟨KeeperCall.SendCoins "frozen" "issuer" [("utoken-issuer", 10)], none⟩,
          ⟨KeeperCall.isCoinSpendable "A" sampleDefinition 100, none⟩]
        ++ ⟨KeeperCall.isCoinSpendable "frozen" sampleDefinition 100, some "insufficient funds"⟩
          :: [] ∧
    (applyFeatures sampleKeeper plainContext
        [⟨"A", [("utoken-issuer", 100)]⟩, ⟨"frozen", [("utoken-issuer", 100)]⟩]
        [⟨"B", [("utoken-issuer", 200)]⟩] 0).2 = some (Abort.error "insufficient funds") :=
  ⟨by decide, ((applyFeatures_aborts_on_first_failure sampleKeeper plainContext
    [⟨"A", [("utoken-issuer", 100)]⟩, ⟨"frozen", [("utoken-issuer", 100)]⟩]
    [⟨"B", [("utoken-issuer", 200)]⟩] 0).2.2.1
      [⟨KeeperCall.burnIfSpendable "A" sampleDefinition 10, none⟩,
        ⟨KeeperCall.burnIfSpendable "frozen" sampleDefinition 10, none⟩,
        ⟨KeeperCall.SendCoins "A" "issuer" [("utoken-issuer", 10)], none⟩,
        ⟨KeeperCall.SendCoins "frozen" "issuer" [("utoken-issuer", 10)], none⟩,
        ⟨KeeperCall.isCoinSpendable "A" sampleDefinition 100, none⟩]
      ⟨KeeperCall.isCoinSpendable "frozen" sampleDefinition 100, some "insufficient funds"⟩
      [] "insufficient funds" (by decide) rfl).2⟩

/-- C13: grouping accumulates gross amounts.  For the inputs and for the outputs alike, the
grouped map that applyFeatures builds is well formed, a denom is a key exactly when some
entry carries a coin of that denom, an address is a key under a denom exactly when one of its
entries carries a coin of that denom, and the stored amount is the sum of the amounts of all
coins of that denom over all entries with that address; when all coin amounts are
non-negative every stored amount is non-negative. -/
theorem applyFeatures_grouping (inputs : List Input) (outputs : List Output) :
    GroupsGrossAmounts (inputs.map (fun i => (i.Address, i.Coins))) (groupInputs inputs) ∧
    GroupsGrossAmounts (outputs.map (fun o => (o.Address, o.Coins))) (groupOutputs outputs) ∧
    ((∀ i ∈ inputs, ∀ c ∈ i.Coins, 0 ≤ c.2) →
      ∀ denom address, 0 ≤ mapGet (mapGet (groupInputs inputs) denom) address) ∧
    ((∀ o ∈ outputs, ∀ c ∈ o.Coins, 0 ≤ c.2) →
      ∀ denom address, 0 ≤ mapGet (mapGet (groupOutputs outputs) denom) address) := by
  have hin := groupOperations_spec (inputs.map (fun i => (i.Address, i.Coins)))
  have hout := groupOperations_spec (outputs.map (fun o => (o.Address, o.Coins)))
  rw [← groupInputs_eq] at hin
  rw [← groupOutputs_eq] at hout
  refine ⟨hin, hout, ?_, ?_⟩
  · intro hnn denom address
    rw [hin.2.2.2.2 denom address]
    apply carriedAmounts_sum_nonneg
    intro e he c hc
    obtain ⟨i, hi, rfl⟩ := List.mem_map.mp he
    exact hnn i hi c hc
  · intro hnn denom address
    rw [hout.2.2.2.2 denom address]
    apply carriedAmounts_sum_nonneg
    intro e he c hc
    obtain ⟨o, ho, rfl⟩ := List.mem_map.mp he
    exact hnn o ho c hc

/-- C14: the two-party hook is the multi-party hook on a single pair: BeforeSendCoins from,
to, coins is BeforeInputOutputCoins on the single input of from with coins and the single
output of to with coins, with the same result, the same store and, run on the instrumented
keeper, the same calls. -/
theorem BeforeSendCoins_eq_BeforeInputOutputCoins {σ ε A : Type} (k : Keeper σ ε A)
    (ctx : Context) (fromAddress toAddress : A) (coins : Coins) (s : σ)
    (log : List (KeeperLogEntry ε A)) :
    BeforeSendCoins k ctx fromAddress toAddress coins s
      = BeforeInputOutputCoins k ctx [⟨k.accAddressString fromAddress, coins⟩]
          [⟨k.accAddressString toAddress, coins⟩] s ∧
    BeforeSendCoins (recordKeeper k) ctx fromAddress toAddress coins (s, log)
      = BeforeInputOutputCoins (recordKeeper k) ctx [⟨k.accAddressString fromAddress, coins⟩]
          [⟨k.accAddressString toAddress, coins⟩] (s, log) :=
  ⟨rfl, rfl⟩

/-! ## Store keys -/

/-- C15: AddressFromBalancesStore never panics on an index or a slice bound; it returns
ErrInvalidKey exactly when the key is empty or its first byte, read as a length, exceeds
len(key) - 1; and on success it returns exactly the key[0] bytes that follow the first
byte. -/
theorem AddressFromBalancesStore_rejects_invalid_keys {ε : Type} (ErrInvalidKey : ε)
    (key : List Byte) :
    AddressFromBalancesStore ErrInvalidKey key ≠ none ∧
    (AddressFromBalancesStore ErrInvalidKey key = some (Except.error ErrInvalidKey)
      ↔ key = [] ∨ ∃ b, key.head? = some b ∧ key.length - 1 < b.val) ∧
    (∀ address, AddressFromBalancesStore ErrInvalidKey key = some (Except.ok address) →
      ∃ b, key.head? = some b ∧ address = (key.drop 1).take b.val ∧
        address.length = b.val) := by
  cases key with
  | nil =>
    rw [AddressFromBalancesStore_nil]
    refine ⟨by simp, by simp, ?_⟩
    intro address h
    simp at h
  | cons b rest =>
    rw [AddressFromBalancesStore_cons]
    by_cases h : rest.length < b.val
    · rw [if_pos h]
      refine ⟨by simp, ?_, ?_⟩
      · simp only [true_iff]
        right
        exact ⟨b, rfl, by simpa using h⟩
      · intro address ha
        simp at ha
    · rw [if_neg h]
      refine ⟨by simp, ?_, ?_⟩
      · constructor
        · intro ha
          simp at ha
        · rintro (h1 | ⟨b2, hb2, hlt⟩)
          · simp at h1
          · simp only [List.head?_cons, Option.some.injEq] at hb2
            subst hb2
            simp only [List.length_cons, Nat.add_sub_cancel] at hlt
            exact absurd hlt h
      · intro address ha
        simp only [Option.some.injEq, Except.ok.injEq] at ha
        subst ha
        refine ⟨b, rfl, rfl, ?_⟩
        rw [List.length_take]
        omega

/-! ## The upgrade scheduler -/

/-- C16: upgrade idempotence.  A request on a token that is, at the block time of the request,
in state V0-PendingUpgrade fails with UpgradeAlreadyPending, and one on a token in state
V1-Upgraded fails with AlreadyUpgraded, for every sender and every ibcEnabled; the stored
token (version, feature set, pending record, upgrade status) is unchanged, and so is what
GetToken shows. -/
theorem requestUpgrade_idempotent (params : UpgradeParams) (now : Int) (sender : String)
    (ibcEnabled : Bool) (t : TokenState) :
    (stateAt now t = SchedulerState.V0PendingUpgrade →
      requestUpgrade params now sender ibcEnabled t
        = (t, some UpgradeError.UpgradeAlreadyPending)) ∧
    (stateAt now t = SchedulerState.V1Upgraded →
      requestUpgrade params now sender ibcEnabled t = (t, some UpgradeError.AlreadyUpgraded)) ∧
    ((requestUpgrade params now sender ibcEnabled t).2 ≠ none →
      (requestUpgrade params now sender ibcEnabled t).1 = t ∧
      GetToken now (requestUpgrade params now sender ibcEnabled t).1 = GetToken now t) := by
  refine ⟨?_, ?_, ?_⟩
  · intro h
    unfold stateAt at h
    unfold requestUpgrade
    simp only [h]
  · intro h
    unfold stateAt at h
    unfold requestUpgrade
    simp only [h]
  · intro h
    have hst : (requestUpgrade params now sender ibcEnabled t).1 = t := by
      unfold requestUpgrade at h ⊢
      cases hcur : schedulerState (effectiveState now t) with
      | V1Upgraded => simp only [hcur]
      | V0PendingUpgrade => simp only [hcur]
      | V0Unrestricted =>
        simp only [hcur] at h ⊢
        split_ifs at h ⊢
        · rfl
        · rfl
        · exact absurd rfl h
        · exact absurd rfl h
    exact ⟨hst, by rw [hst]⟩

/-- Witness for C16: the sample token with an upgrade pending until 115; a request at 110 by
the issuer fails with UpgradeAlreadyPending, one at 120 with AlreadyUpgraded. -/
theorem requestUpgrade_idempotent_witness :
    stateAt 110 sampleTokenPending = SchedulerState.V0PendingUpgrade ∧
    stateAt 120 sampleTokenPending = SchedulerState.V1Upgraded ∧
    requestUpgrade sampleParams 110 "issuer" false sampleTokenPending
      = (sampleTokenPending, some UpgradeError.UpgradeAlreadyPending) ∧
    requestUpgrade sampleParams 120 "issuer" false sampleTokenPending
      = (sampleTokenPending, some UpgradeError.AlreadyUpgraded) :=
  ⟨by decide, by decide,
    (requestUpgrade_idempotent sampleParams 110 "issuer" false sampleTokenPending).1 (by decide),
    (requestUpgrade_idempotent sampleParams 120 "issuer" false sampleTokenPending).2.1
      (by decide)⟩

/-- C17: immediate upgrade without IBC.  On a v0 token with no pending upgrade, a request by
the issuer with ibcEnabled = false before the decision timeout succeeds; the version is 1 at
once and at every later observation, the IBC feature is absent, every other feature and the
rest of the definition are unchanged, no record is pending, and the recorded status has
ibcEnabled = false and start time = end time = the block time of the request. -/
theorem requestUpgrade_without_ibc (params : UpgradeParams) (now : Int) (sender : String)
    (t : TokenState) (hv : t.definition.Version = 0) (hp : t.pending = none)
    (hs : sender = t.definition.Issuer) (ht : now < params.decisionTimeout) :
    (requestUpgrade params now sender false t).2 = none ∧
    (requestUpgrade params now sender false t).1.definition.Version = 1 ∧
    Feature.ibc ∉ (requestUpgrade params now sender false t).1.definition.Features ∧
    (∀ f, f ≠ Feature.ibc →
      (f ∈ (requestUpgrade params now sender false t).1.definition.Features
        ↔ f ∈ t.definition.Features)) ∧
    (requestUpgrade params now sender false t).1.definition
      = { t.definition with Version := 1, Features := clearIBC t.definition.Features } ∧
    (requestUpgrade params now sender false t).1.pending = none ∧
    (requestUpgrade params now sender false t).1.status = some ⟨false, now, now⟩ ∧
    (∀ later, (GetToken later (requestUpgrade params now sender false t).1).Version = 1 ∧
      (GetToken later (requestUpgrade params now sender false t).1).Features
        = clearIBC t.definition.Features) := by
  have hr : requestUpgrade params now sender false t
      = ({ definition :=
             { t.definition with
               Version := 1
               Features := clearIBC t.definition.Features }
           pending := none
           status := some ⟨false, now, now⟩ }, none) := by
    rw [requestUpgrade_unrestricted params now sender false t hv hp,
      if_neg (fun h => h hs), if_neg (not_le.mpr ht)]
    rfl
  rw [hr]
  refine ⟨rfl, rfl, ?_, ?_, rfl, rfl, rfl, ?_⟩
  · intro hmem
    exact ((mem_clearIBC _ _).mp hmem).2 rfl
  · intro f hf
    rw [mem_clearIBC]
    exact ⟨fun h => h.1, fun h => ⟨h, hf⟩⟩
  · intro later
    unfold GetToken
    rw [effectiveState_of_no_pending later _ rfl]
    exact ⟨rfl, rfl⟩

/-- Witness for C17: the sample token, upgraded without IBC by its issuer at block time 100. -/
theorem requestUpgrade_without_ibc_witness :
    (requestUpgrade sampleParams 100 "issuer" false sampleTokenV0).2 = none ∧
    (requestUpgrade sampleParams 100 "issuer" false sampleTokenV0).1.definition.Version = 1 ∧
    (requestUpgrade sampleParams 100 "issuer" false sampleTokenV0).1.status
      = some ⟨false, 100, 100⟩ :=
  ⟨(requestUpgrade_without_ibc sampleParams 100 "issuer" sampleTokenV0 rfl rfl rfl
      (by decide)).1,
    (requestUpgrade_without_ibc sampleParams 100 "issuer" sampleTokenV0 rfl rfl rfl
      (by decide)).2.1,
    (requestUpgrade_without_ibc sampleParams 100 "issuer" sampleTokenV0 rfl rfl rfl
      (by decide)).2.2.2.2.2.2.1⟩

/-- C18: time-gated upgrade with IBC.  After an accepted request with ibcEnabled = true at
block time t0 under the grace period g, the recorded status has ibcEnabled = true and
end time - start time = g; after any observations at earlier block times, an observation at
a block time before t0 + g shows version 0 and the feature set of before the request; and
after any observations whatever, an observation at a block time at or after t0 + g shows
version 1 and the old feature set with the IBC feature added. -/
theorem requestUpgrade_with_ibc_time_gated (params : UpgradeParams) (t0 : Int)
    (sender : String) (t : TokenState)
    (hacc : (requestUpgrade params t0 sender true t).2 = none) :
    (GetToken t0 t).Features = t.definition.Features ∧
    (requestUpgrade params t0 sender true t).1.status
      = some ⟨true, t0, t0 + params.gracePeriod⟩ ∧
    (∀ st, (requestUpgrade params t0 sender true t).1.status = some st →
      st.endTime - st.startTime = params.gracePeriod) ∧
    (∀ times now, (∀ time ∈ times, time ≤ now) → now < t0 + params.gracePeriod →
      (GetToken now (observeAll times (requestUpgrade params t0 sender true t).1)).Version = 0 ∧
      (GetToken now (observeAll times (requestUpgrade params t0 sender true t).1)).Features
        = t.definition.Features) ∧
    (∀ times now, t0 + params.gracePeriod ≤ now →
      (GetToken now (observeAll times (requestUpgrade params t0 sender true t).1)).Version = 1 ∧
      (GetToken now (observeAll times (requestUpgrade params t0 sender true t).1)).Features
        = enableIBC t.definition.Features) := by
  obtain ⟨hv, hp, hs, ht⟩ := requestUpgrade_accepted params t0 sender true t hacc
  have hbefore : (GetToken t0 t).Features = t.definition.Features := by
    unfold GetToken
    rw [effectiveState_of_no_pending t0 t hp]
  have hr : requestUpgrade params t0 sender true t
      = ({ definition := t.definition
           pending := some ⟨t.definition.Denom, true, t0, t0 + params.gracePeriod⟩
           status := some ⟨true, t0, t0 + params.gracePeriod⟩ }, none) := by
    rw [requestUpgrade_unrestricted params t0 sender true t hv hp,
      if_neg (fun h => h hs), if_neg (not_le.mpr ht)]
    rfl
  rw [hr]
  have key : ∀ (tp : TokenState) (record : PendingUpgrade), tp.definition = t.definition →
      tp.pending = some record → record.ibcEnabled = true →
      record.endTime = t0 + params.gracePeriod →
      (∀ times now, (∀ time ∈ times, time ≤ now) → now < t0 + params.gracePeriod →
        (GetToken now (observeAll times tp)).Version = 0 ∧
        (GetToken now (observeAll times tp)).Features = t.definition.Features) ∧
      (∀ times now, t0 + params.gracePeriod ≤ now →
        (GetToken now (observeAll times tp)).Version = 1 ∧
        (GetToken now (observeAll times tp)).Features = enableIBC t.definition.Features) := by
    intro tp record hdef hpend hibc hend
    have hvp : tp.definition.Version = 0 := by rw [hdef]; exact hv
    constructor
    · intro times now hle hlt
      have hall : ∀ time ∈ times, time < record.endTime := by
        intro time h
        rw [hend]
        exact lt_of_le_of_lt (hle time h) hlt
      rw [(observeAll_pending times tp record hvp hpend).1 hall]
      unfold GetToken
      rw [effectiveState_pending_early now tp record hvp hpend (by rw [hend]; exact hlt), hdef]
      exact ⟨hv, rfl⟩
    · intro times now hle
      unfold GetToken
      rcases (observeAll_pending times tp record hvp hpend).2 with hobs | hobs
      · rw [hobs, effectiveState_pending_due now tp record hvp hpend (by rw [hend]; exact hle)]
        simp only [hibc, if_true, hdef]
        exact ⟨trivial, trivial⟩
      · rw [hobs, effectiveState_of_no_pending now _ rfl]
        simp only [hibc, if_true, hdef]
        exact ⟨trivial, trivial⟩
  refine ⟨hbefore, rfl, ?_, ?_⟩
  · intro st hst
    simp only [Option.some.injEq] at hst
    subst hst
    simp
  · exact key _ ⟨t.definition.Denom, true, t0, t0 + params.gracePeriod⟩ rfl rfl rfl rfl

/-- Witness for C18: the sample token, with the grace period 15 and the request at block time
100; observed at 107 and then at 114 it is still v0, observed at 115 it is v1 with IBC. -/
theorem requestUpgrade_with_ibc_time_gated_witness :
    (requestUpgrade sampleParams 100 "issuer" true sampleTokenV0).2 = none ∧
    (GetToken 114 (observeAll [107]
      (requestUpgrade sampleParams 100 "issuer" true sampleTokenV0).1)).Version = 0 ∧
    (GetToken 115 (observeAll [107, 114]
      (requestUpgrade sampleParams 100 "issuer" true sampleTokenV0).1)).Version = 1 ∧
    (GetToken 115 (observeAll [107, 114]
      (requestUpgrade sampleParams 100 "issuer" true sampleTokenV0).1)).Features
      = enableIBC sampleTokenV0.definition.Features :=
  ⟨by decide,
    ((requestUpgrade_with_ibc_time_gated sampleParams 100 "issuer" sampleTokenV0
      (by decide)).2.2.2.1 [107] 114 (by decide) (by decide)).1,
    ((requestUpgrade_with_ibc_time_gated sampleParams 100 "issuer" sampleTokenV0
      (by decide)).2.2.2.2 [107, 114] 115 (by decide)).1,
    ((requestUpgrade_with_ibc_time_gated sampleParams 100 "issuer" sampleTokenV0
      (by decide)).2.2.2.2 [107, 114] 115 (by decide)).2⟩

/-- C19, as the claim words it, fails for a v0 token whose upgrade is pending: the sample
token has version 0 and an upgrade pending until 115; a request at 110 by an account other
than the issuer fails with UpgradeAlreadyPending, not with Unauthorized. -/
theorem requestUpgrade_non_issuer_pending_counterexample :
    sampleTokenPending.definition.Version = 0 ∧
    "other" ≠ sampleTokenPending.definition.Issuer ∧
    requestUpgrade sampleParams 110 "other" true sampleTokenPending
      = (sampleTokenPending, some UpgradeError.UpgradeAlreadyPending) ∧
    (requestUpgrade sampleParams 110 "other" true sampleTokenPending).2
      ≠ some UpgradeError.Unauthorized := by
  decide

/-- C19, amended: on a v0 token with no pending upgrade, a request whose sender is not the
issuer fails with Unauthorized, with ibcEnabled true or false and at every block time, and
the stored token (with its version and feature set) is unchanged, as is what GetToken
shows. -/
theorem requestUpgrade_non_issuer_unauthorized (params : UpgradeParams) (now : Int)
    (sender : String) (ibcEnabled : Bool) (t : TokenState) (hv : t.definition.Version = 0)
    (hp : t.pending = none) (hs : sender ≠ t.definition.Issuer) :
    requestUpgrade params now sender ibcEnabled t = (t, some UpgradeError.Unauthorized) ∧
    (GetToken now (requestUpgrade params now sender ibcEnabled t).1).Version = 0 ∧
    (GetToken now (requestUpgrade params now sender ibcEnabled t).1).Features
      = t.definition.Features := by
  rw [requestUpgrade_unrestricted params now sender ibcEnabled t hv hp, if_pos hs]
  unfold GetToken
  rw [effectiveState_of_no_pending now t hp]
  exact ⟨rfl, hv, rfl⟩

/-- Witness for C19: the sample v0 token and a request by an account other than its issuer. -/
theorem requestUpgrade_non_issuer_unauthorized_witness :
    requestUpgrade sampleParams 100 "other" true sampleTokenV0
      = (sampleTokenV0, some UpgradeError.Unauthorized) :=
  (requestUpgrade_non_issuer_unauthorized sampleParams 100 "other" true sampleTokenV0 rfl rfl
    (by decide)).1

/-- C20: decision timeout.  On a v0 token with no pending upgrade, a request by the issuer at a
block time at or after the decision timeout fails with UpgradeWindowClosed, with ibcEnabled
true or false, and the stored token (with its version and feature set) is unchanged, as is
what GetToken shows. -/
theorem requestUpgrade_after_decision_timeout (params : UpgradeParams) (now : Int)
    (sender : String) (ibcEnabled : Bool) (t : TokenState) (hv : t.definition.Version = 0)
    (hp : t.pending = none) (hs : sender = t.definition.Issuer)
    (ht : params.decisionTimeout ≤ now) :
    requestUpgrade params now sender ibcEnabled t
      = (t, some UpgradeError.UpgradeWindowClosed) ∧
    (GetToken now (requestUpgrade params now sender ibcEnabled t).1).Version = 0 ∧
    (GetToken now (requestUpgrade params now sender ibcEnabled t).1).Features
      = t.definition.Features := by
  rw [requestUpgrade_unrestricted params now sender ibcEnabled t hv hp,
    if_neg (fun h => h hs), if_pos ht]
  unfold GetToken
  rw [effectiveState_of_no_pending now t hp]
  exact ⟨rfl, hv, rfl⟩

/-- Witness for C20: the sample v0 token and a request by its issuer at the decision timeout
itself. -/
theorem requestUpgrade_after_decision_timeout_witness :
    requestUpgrade sampleParams 1000 "issuer" true sampleTokenV0
      = (sampleTokenV0, some UpgradeError.UpgradeWindowClosed) :=
  (requestUpgrade_after_decision_timeout sampleParams 1000 "issuer" true sampleTokenV0 rfl rfl
    rfl (by decide)).1

/-! ## The rate calculator: over-charge, exact charge, bounds and order of the shares -/

/-- C25: the per-account ceiling can over-charge.  With rate 10%, the inputs A:1, B:1, C:1 and
the single output D:3, none of them the issuer, the base is 3, every sender is charged 1, and
the shares sum to 3, strictly more than the ceiling of rate times the base, which is 1. -/
theorem CalculateRateShares_overcharge_example :
    NoIBCPurpose plainContext ∧
    CalculateRateShares plainContext (some tenPercent) "issuer"
      [("A", 1), ("B", 1), ("C", 1)] [("D", 3)] = [("A", 1), ("B", 1), ("C", 1)] ∧
    rateBase "issuer" [("A", 1), ("B", 1), ("C", 1)] [("D", 3)] = 3 ∧
    ⌈tenPercent.toRat *
      ((rateBase "issuer" [("A", 1), ("B", 1), ("C", 1)] [("D", 3)] : Int) : ℚ)⌉ = 1 ∧
    ⌈tenPercent.toRat *
      ((rateBase "issuer" [("A", 1), ("B", 1), ("C", 1)] [("D", 3)] : Int) : ℚ)⌉
      < sumAmounts (CalculateRateShares plainContext (some tenPercent) "issuer"
          [("A", 1), ("B", 1), ("C", 1)] [("D", 3)]) := by
  have h1 : rateBase "issuer" [("A", 1), ("B", 1), ("C", 1)] [("D", 3)] = 3 := by decide
  have h2 : CalculateRateShares plainContext (some tenPercent) "issuer"
      [("A", 1), ("B", 1), ("C", 1)] [("D", 3)] = [("A", 1), ("B", 1), ("C", 1)] := by decide
  have h3 : ⌈tenPercent.toRat * ((3 : Int) : ℚ)⌉ = 1 := by
    unfold Dec.toRat tenPercent
    rw [Int.ceil_eq_iff]
    norm_num
  refine ⟨by decide, h2, h1, ?_, ?_⟩
  · rw [h1]
    exact h3
  · rw [h1, h2, h3]
    decide

/-- C27, as the claim words it, fails twice.  The claim names no context: in the context of an
inbound IBC transfer, with rate 10% and a transfer of 15 units from A to B, neither of them the
issuer, CalculateRateShares returns the empty result and the sender is not charged the ceiling
of 1.5, which is 2.  And in an ordinary context a transfer of 2^128 units from A to B returns
no result at all: base * amt is 2^256 and sdk.Int.Mul panics with an overflow. -/
theorem CalculateRateShares_full_base_counterexample :
    0 < tenPercent.i ∧
    0 < nonIssuerTotal [("A", 15)] "issuer" ∧
    nonIssuerTotal [("A", 15)] "issuer" ≤ nonIssuerTotal [("B", 15)] "issuer" ∧
    CalculateRateSharesChecked 316 ⟨true, false, false⟩ (some tenPercent) "issuer"
      [("A", 15)] [("B", 15)] = some [] ∧
    CalculateRateSharesChecked 316 plainContext (some tenPercent) "issuer"
      [("A", 15)] [("B", 15)] = some [("A", 2)] ∧
    CalculateRateSharesChecked 316 plainContext (some tenPercent) "issuer"
      [("A", 340282366920938463463374607431768211456)]
      [("B", 340282366920938463463374607431768211456)] = none := by
  decide

/-- C27, amended: in a context with no IBC purpose and with a positive rate, when the non-issuer
outputs are at least the non-issuer inputs and those are positive, and when the amounts are
non-negative and no operation on sdk.Int or sdk.Dec overflows, CalculateRateShares returns a
map whose keys are the non-issuer senders and that charges every non-issuer sender with input
amount amt exactly the ceiling of rate times amt; in particular a transfer of a positive amount
amt from one non-issuer account to another, with amt * amt below 2^256, rate * 10^18 * amt * amt
below 2^maxDecBitLen and the share below 2^256, charges the sender the ceiling of rate times amt
and nobody else. -/
theorem CalculateRateShares_full_base_exact (maxDecBitLen : Nat) (ctx : Context) (rate : Dec)
    (issuer : String) (hctx : NoIBCPurpose ctx) (hr : 0 < rate.toRat) :
    (∀ inOps outOps : accountOperationMap, NodupKeys inOps →
      0 < nonIssuerTotal inOps issuer →
      nonIssuerTotal inOps issuer ≤ nonIssuerTotal outOps issuer →
      SumsInRange issuer inOps outOps →
      ProductsInRange maxDecBitLen rate issuer inOps outOps →
      ∃ shares,
        CalculateRateSharesChecked maxDecBitLen ctx (some rate) issuer inOps outOps
          = some shares ∧
        rateBase issuer inOps outOps = nonIssuerTotal inOps issuer ∧
        (∀ a, a ∈ mapKeys shares ↔ a ∈ mapKeys inOps ∧ a ≠ issuer) ∧
        ∀ a amt, (a, amt) ∈ inOps → a ≠ issuer →
          mapLookup shares a = some ⌈rate.toRat * (amt : ℚ)⌉) ∧
    (∀ (sender recipient : String) (amt : Int), sender ≠ issuer → recipient ≠ issuer →
      0 < amt → fitsBits maxBitLen (amt * amt) = true →
      fitsBits maxDecBitLen (rate.i * (amt * amt)) = true →
      fitsBits maxBitLen ⌈rate.toRat * (amt : ℚ)⌉ = true →
      CalculateRateSharesChecked maxDecBitLen ctx (some rate) issuer [(sender, amt)]
          [(recipient, amt)]
        = some [(sender, ⌈rate.toRat * (amt : ℚ)⌉)]) := by
  have hfull := CalculateRateShares_full_base ctx rate issuer hctx hr
  constructor
  · intro inOps outOps hnd hin hle hsums hprod
    refine ⟨_, CalculateRateSharesChecked_complete maxDecBitLen ctx (some rate) issuer inOps
      outOps hsums (fun r hrate => by
        simp only [Option.some.injEq] at hrate
        rw [← hrate]
        exact hprod), ?_⟩
    exact hfull.1 inOps outOps hnd hin hle
  · intro sender recipient amt hs hrc hamt h1 h2 h3
    have hin : nonIssuerTotal [(sender, amt)] issuer = amt := by
      simp [nonIssuerTotal, nonIssuerEntries, sumAmounts, hs]
    have hout : nonIssuerTotal [(recipient, amt)] issuer = amt := by
      simp [nonIssuerTotal, nonIssuerEntries, sumAmounts, hrc]
    have hbase : rateBase issuer [(sender, amt)] [(recipient, amt)] = amt := by
      unfold rateBase
      rw [hin, hout, min_self]
    have hamt2 : fitsBits maxBitLen amt = true := by
      have : amt ≤ amt * amt := by nlinarith
      exact fitsBits_of_nonneg _ _ (le_of_lt hamt)
        (lt_of_le_of_lt this (lt_of_fitsBits _ _ h1))
    have hsums : SumsInRange issuer [(sender, amt)] [(recipient, amt)] := by
      refine ⟨?_, ?_, ?_, ?_⟩
      · intro e he
        simp only [List.mem_singleton] at he
        rw [he]
        exact le_of_lt hamt
      · intro e he
        simp only [List.mem_singleton] at he
        rw [he]
        exact le_of_lt hamt
      · rw [hin]
        exact hamt2
      · rw [hout]
        exact hamt2
    have hprod : ProductsInRange maxDecBitLen rate issuer [(sender, amt)] [(recipient, amt)] := by
      intro e he _
      simp only [List.mem_singleton] at he
      rw [he, hbase, hin, finalShare_full_base rate amt amt (ne_of_gt hamt)]
      exact ⟨h1, h2, h3⟩
    rw [CalculateRateSharesChecked_complete maxDecBitLen ctx (some rate) issuer _ _ hsums
      (fun r hrate => by
        simp only [Option.some.injEq] at hrate
        rw [← hrate]
        exact hprod),
      hfull.2 sender recipient amt hs hrc hamt]

theorem CalculateRateShares_full_base_exact_witness :
    NoIBCPurpose plainContext ∧ 0 < tenPercent.toRat ∧
    NodupKeys [("A", (15 : Int)), ("B", 20), ("issuer", 7)] ∧
    0 < nonIssuerTotal [("A", 15), ("B", 20), ("issuer", 7)] "issuer" ∧
    nonIssuerTotal [("A", 15), ("B", 20), ("issuer", 7)] "issuer"
      ≤ nonIssuerTotal [("C", 42)] "issuer" ∧
    SumsInRange "issuer" [("A", 15), ("B", 20), ("issuer", 7)] [("C", 42)] ∧
    ProductsInRange 316 tenPercent "issuer" [("A", 15), ("B", 20), ("issuer", 7)] [("C", 42)] ∧
    (∃ shares,
      CalculateRateSharesChecked 316 plainContext (some tenPercent) "issuer"
        [("A", 15), ("B", 20), ("issuer", 7)] [("C", 42)] = some shares ∧
      mapLookup shares "A" = some ⌈tenPercent.toRat * ((15 : Int) : ℚ)⌉) ∧
    CalculateRateSharesChecked 316 plainContext (some tenPercent) "issuer" [("A", 15)]
        [("B", 15)]
      = some [("A", ⌈tenPercent.toRat * ((15 : Int) : ℚ)⌉)] :=
  ⟨by decide, (Dec.toRat_pos tenPercent).mpr (by decide), by decide, by decide, by decide,
    by decide, by decide,
    ((CalculateRateShares_full_base_exact 316 plainContext tenPercent "issuer" (by decide)
      ((Dec.toRat_pos tenPercent).mpr (by decide))).1
        [("A", 15), ("B", 20), ("issuer", 7)] [("C", 42)] (by decide) (by decide)
        (by decide) (by decide) (by decide)).imp
      (fun _ h => ⟨h.1, h.2.2.2 "A" 15 (by decide) (by decide)⟩),
    (CalculateRateShares_full_base_exact 316 plainContext tenPercent "issuer" (by decide)
      ((Dec.toRat_pos tenPercent).mpr (by decide))).2 "A" "B" 15 (by decide) (by decide)
        (by decide) (by decide) (by decide) (by
          have h : ⌈tenPercent.toRat * ((15 : Int) : ℚ)⌉ = 2 := by
            unfold Dec.toRat tenPercent
            rw [Int.ceil_eq_iff]
            norm_num
          rw [h]
          decide)⟩

/-- C28: with a rate greater than 0 and at most 1 and non-negative input amounts, every share
CalculateRateShares returns for an account is at least 0 and at most the gross input amount of
that account (the value of the account in inOps). -/
theorem CalculateRateShares_share_within_input (ctx : Context) (rate : Dec) (issuer : String)
    (inOps outOps : accountOperationMap) (_hr : 0 < rate.toRat) (hr1 : rate.toRat ≤ 1)
    (hnd : NodupKeys inOps) (hin : ∀ e ∈ inOps, 0 ≤ e.2) :
    ∀ a share, mapLookup (CalculateRateShares ctx (some rate) issuer inOps outOps) a = some share →
      0 ≤ share ∧ share ≤ mapGet inOps a := by
  intro a share h
  obtain ⟨-, hri, hb, -, amt, hmem, hget, hshare⟩ :=
    CalculateRateShares_lookup ctx rate issuer inOps outOps hnd a share h
  have hamt : 0 ≤ amt := hin (a, amt) hmem
  have hle := rateBase_le_inSum issuer inOps outOps
  have hs : 0 < nonIssuerTotal inOps issuer := lt_of_lt_of_le hb hle
  rw [hget, hshare]
  exact ⟨finalShare_nonneg rate _ _ amt (le_of_lt hri) (le_of_lt hb) (le_of_lt hs) hamt,
    finalShare_le_amount rate _ _ amt (le_of_lt hri) ((Dec.toRat_le_one rate).mp hr1)
      (le_of_lt hb) hle hs hamt⟩

theorem CalculateRateShares_share_within_input_witness :
    0 < tenPercent.toRat ∧ tenPercent.toRat ≤ 1 ∧
    NodupKeys [("A", (15 : Int)), ("B", 20), ("issuer", 7)] ∧
    (∀ e ∈ [("A", (15 : Int)), ("B", 20), ("issuer", 7)], 0 ≤ e.2) ∧
    mapLookup (CalculateRateShares plainContext (some tenPercent) "issuer"
      [("A", 15), ("B", 20), ("issuer", 7)] [("C", 42)]) "A" = some 2 ∧
    (0 : Int) ≤ 2 ∧ 2 ≤ mapGet [("A", (15 : Int)), ("B", 20), ("issuer", 7)] "A" :=
  ⟨(Dec.toRat_pos tenPercent).mpr (by decide), (Dec.toRat_le_one tenPercent).mpr (by decide),
    by decide, by decide, by decide,
    CalculateRateShares_share_within_input plainContext tenPercent "issuer"
      [("A", 15), ("B", 20), ("issuer", 7)] [("C", 42)]
      ((Dec.toRat_pos tenPercent).mpr (by decide))
      ((Dec.toRat_le_one tenPercent).mpr (by decide)) (by decide) (by decide) "A" 2
      (by decide)⟩

/-- C29: within one result of CalculateRateShares on non-negative input amounts, a non-issuer
sender whose input amount is at most that of another non-issuer sender is charged at most as
much as the other, and two non-issuer senders with equal input amounts are charged equal
shares. -/
theorem CalculateRateShares_monotone (ctx : Context) (rate : Dec) (issuer : String)
    (inOps outOps : accountOperationMap) (hnd : NodupKeys inOps) (hin : ∀ e ∈ inOps, 0 ≤ e.2)
    (a b : String) (x y sa sb : Int) (ha : (a, x) ∈ inOps) (hb : (b, y) ∈ inOps)
    (hsa : mapLookup (CalculateRateShares ctx (some rate) issuer inOps outOps) a = some sa)
    (hsb : mapLookup (CalculateRateShares ctx (some rate) issuer inOps outOps) b = some sb) :
    (x ≤ y → sa ≤ sb) ∧ (x = y → sa = sb) := by
  obtain ⟨-, hri, hbase, -, amt1, -, hget1, hshare1⟩ :=
    CalculateRateShares_lookup ctx rate issuer inOps outOps hnd a sa hsa
  obtain ⟨-, -, -, -, amt2, -, hget2, hshare2⟩ :=
    CalculateRateShares_lookup ctx rate issuer inOps outOps hnd b sb hsb
  have h1 : amt1 = x := by
    rw [← hget1]
    exact mapGet_of_mem inOps hnd a x ha
  have h2 : amt2 = y := by
    rw [← hget2]
    exact mapGet_of_mem inOps hnd b y hb
  have hs : 0 < nonIssuerTotal inOps issuer :=
    lt_of_lt_of_le hbase (rateBase_le_inSum issuer inOps outOps)
  rw [hshare1, hshare2, h1, h2]
  constructor
  · intro hxy
    exact finalShare_mono rate _ _ x y (le_of_lt hri) (le_of_lt hbase) hs (hin (a, x) ha) hxy
  · intro hxy
    rw [hxy]

theorem CalculateRateShares_monotone_witness :
    NodupKeys [("A", (5 : Int)), ("B", 20), ("issuer", 7)] ∧
    (∀ e ∈ [("A", (5 : Int)), ("B", 20), ("issuer", 7)], 0 ≤ e.2) ∧
    mapLookup (CalculateRateShares plainContext (some tenPercent) "issuer"
      [("A", 5), ("B", 20), ("issuer", 7)] [("C", 30)]) "A" = some 1 ∧
    mapLookup (CalculateRateShares plainContext (some tenPercent) "issuer"
      [("A", 5), ("B", 20), ("issuer", 7)] [("C", 30)]) "B" = some 2 ∧
    (((5 : Int) ≤ 20 → (1 : Int) ≤ 2) ∧ ((5 : Int) = 20 → (1 : Int) = 2)) :=
  ⟨by decide, by decide, by decide, by decide,
    CalculateRateShares_monotone plainContext tenPercent "issuer"
      [("A", 5), ("B", 20), ("issuer", 7)] [("C", 30)] (by decide) (by decide) "A" "B" 5 20
      1 2 (by decide) (by decide) (by decide) (by decide)⟩

/-! ## Store keys: the length prefix -/

/-- C30: for every address addr of at most 255 bytes and every byte string rest,
AddressFromBalancesStore applied to the one-byte length of addr followed by addr followed by
rest returns addr and no error.  For a non-empty such address this is the form that
CreateFrozenBalancesKey and CreateWhitelistedBalancesKey give their keys after the one-byte
store prefix, whenever their helper JoinKeys joins its two arguments; the SDK length prefix
of the empty address is empty. -/
theorem AddressFromBalancesStore_round_trip {ε : Type} (ErrInvalidKey : ε)
    (addr rest : List Byte) (h : addr.length ≤ 255) :
    AddressFromBalancesStore ErrInvalidKey (lengthByte addr :: (addr ++ rest))
      = some (Except.ok addr) ∧
    (∀ JoinKeys : List (List Byte) → List Byte, (∀ a b, JoinKeys [a, b] = a ++ b) →
      0 < addr.length →
      CreateFrozenBalancesKey JoinKeys addr
        = some (FrozenBalancesKeyPrefix ++ lengthByte addr :: addr) ∧
      CreateWhitelistedBalancesKey JoinKeys addr
        = some (WhitelistedBalancesKeyPrefix ++ lengthByte addr :: addr) ∧
      (∀ key, CreateFrozenBalancesKey JoinKeys addr = some key →
        AddressFromBalancesStore ErrInvalidKey
          (key.drop FrozenBalancesKeyPrefix.length ++ rest) = some (Except.ok addr)) ∧
      (∀ key, CreateWhitelistedBalancesKey JoinKeys addr = some key →
        AddressFromBalancesStore ErrInvalidKey
          (key.drop WhitelistedBalancesKeyPrefix.length ++ rest) = some (Except.ok addr))) := by
  refine ⟨AddressFromBalancesStore_prefixed ErrInvalidKey addr rest h, ?_⟩
  intro JoinKeys hjoin h0
  have hf : CreateFrozenBalancesKey JoinKeys addr
      = some (FrozenBalancesKeyPrefix ++ lengthByte addr :: addr) := by
    unfold CreateFrozenBalancesKey
    rw [MustLengthPrefix_of_nonempty addr h0 h, Option.map_some', hjoin]
  have hw : CreateWhitelistedBalancesKey JoinKeys addr
      = some (WhitelistedBalancesKeyPrefix ++ lengthByte addr :: addr) := by
    unfold CreateWhitelistedBalancesKey
    rw [MustLengthPrefix_of_nonempty addr h0 h, Option.map_some', hjoin]
  refine ⟨hf, hw, ?_, ?_⟩
  · intro key hkey
    rw [hf] at hkey
    simp only [Option.some.injEq] at hkey
    rw [← hkey, List.drop_left]
    exact AddressFromBalancesStore_prefixed ErrInvalidKey addr rest h
  · intro key hkey
    rw [hw] at hkey
    simp only [Option.some.injEq] at hkey
    rw [← hkey, List.drop_left]
    exact AddressFromBalancesStore_prefixed ErrInvalidKey addr rest h

theorem AddressFromBalancesStore_round_trip_witness :
    ([7, 8, 9] : List Byte).length ≤ 255 ∧
    AddressFromBalancesStore "invalid key" (lengthByte [7, 8, 9] :: ([7, 8, 9] ++ [1, 2]))
      = some (Except.ok [7, 8, 9]) ∧
    CreateFrozenBalancesKey concatKeys [7, 8, 9] = some [3, 3, 7, 8, 9] ∧
    AddressFromBalancesStore "invalid key"
      (([3, 3, 7, 8, 9] : List Byte).drop FrozenBalancesKeyPrefix.length ++ [1, 2])
      = some (Except.ok [7, 8, 9]) :=
  ⟨by decide,
    (AddressFromBalancesStore_round_trip "invalid key" [7, 8, 9] [1, 2]
      (by decide)).1,
    by decide,
    ((AddressFromBalancesStore_round_trip "invalid key" [7, 8, 9] [1, 2]
      (by decide)).2 concatKeys (fun _ _ => by simp [concatKeys]) (by decide)).2.2.1
        [3, 3, 7, 8, 9] (by decide)⟩

/-! ## Issuance: the feature list -/

/-- C21: issuing a token fails with DuplicatedFeature when its feature list contains the same
feature twice (and no value outside the defined features), and with UnknownFeature when it
contains a value outside the defined features (and no value twice); a list with both defects
fails with one of the two errors; a list of distinct defined features is accepted, and only
such a list is.  The three lists of the tests behave so: with the value 100 the request fails
with UnknownFeature, with ibc twice it fails with DuplicatedFeature, and the five distinct
features are accepted. -/
theorem IssueTokenFeatures_validates (features : List Int) :
    ((∀ v ∈ features, featureOfValue v ≠ none) → ¬ features.Nodup →
      IssueTokenFeatures features = Except.error IssueError.DuplicatedFeature) ∧
    ((∃ v ∈ features, featureOfValue v = none) → features.Nodup →
      IssueTokenFeatures features = Except.error IssueError.UnknownFeature) ∧
    (((∃ v ∈ features, featureOfValue v = none) ∨ ¬ features.Nodup) →
      IssueTokenFeatures features = Except.error IssueError.DuplicatedFeature ∨
      IssueTokenFeatures features = Except.error IssueError.UnknownFeature) ∧
    (((∀ v ∈ features, featureOfValue v ≠ none) ∧ features.Nodup) ↔
      IssueTokenFeatures features = Except.ok (features.filterMap featureOfValue)) ∧
    IssueTokenFeatures [0, 1, 4, 2, 100, 3] = Except.error IssueError.UnknownFeature ∧
    IssueTokenFeatures [0, 1, 4, 2, 3, 4] = Except.error IssueError.DuplicatedFeature ∧
    IssueTokenFeatures [0, 1, 4, 2, 3]
      = Except.ok [Feature.minting, Feature.burning, Feature.ibc, Feature.freezing,
          Feature.whitelisting] := by
  have hnone : ValidateFeatures features = none
      ↔ (∀ v ∈ features, featureOfValue v ≠ none) ∧ features.Nodup := by
    unfold ValidateFeatures
    rw [validateFeaturesFrom_eq_none]
    simp
  have herr : ∀ e, ValidateFeatures features = some e →
      IssueTokenFeatures features = Except.error e := by
    intro e he
    unfold IssueTokenFeatures
    rw [he]
  have hfail : ((∃ v ∈ features, featureOfValue v = none) ∨ ¬ features.Nodup) →
      ValidateFeatures features ≠ none := by
    intro h hc
    obtain ⟨h1, h2⟩ := hnone.mp hc
    rcases h with ⟨v, hv, hvn⟩ | h
    · exact h1 v hv hvn
    · exact h h2
  refine ⟨?_, ?_, ?_, ?_, rfl, rfl, rfl⟩
  · intro hdef hdup
    rcases issueError_cases _ (hfail (Or.inr hdup)) with h | h
    · exact herr _ h
    · exact absurd h (validateFeaturesFrom_defined [] features hdef)
  · intro hunk hnd
    rcases issueError_cases _ (hfail (Or.inl hunk)) with h | h
    · exact absurd h (validateFeaturesFrom_nodup [] features hnd (by simp))
    · exact herr _ h
  · intro h
    rcases issueError_cases _ (hfail h) with h2 | h2
    · exact Or.inl (herr _ h2)
    · exact Or.inr (herr _ h2)
  · constructor
    · intro h
      unfold IssueTokenFeatures
      rw [hnone.mpr h]
    · intro h
      apply hnone.mp
      unfold IssueTokenFeatures at h
      cases hv : ValidateFeatures features with
      | none => rfl
      | some e =>
        rw [hv] at h
        simp at h

/-! ## The transfer hook: order of the steps, outputs, lookup errors, reordering -/

/-- C22: for a denom whose lookup does not report an unmanaged denom (so for every resolved
token) and for which no step fails, the calls that applyRules issues are, in this order,
burnIfSpendable(account, share) for every burn share in ascending account order, then
SendCoins(account, issuer, coins of the share in the denom of the token) for every commission
share in ascending account order, then isCoinSpendable(account, gross input amount) for every
input account in ascending order, then isCoinReceivable(account, gross output amount) for every
output account in ascending order, each without error; the burn shares and the commission
shares are both computed from the same gross input and output amounts (the list tokenCalls). -/
theorem applyRules_call_order {σ ε A : Type} (k : Keeper σ ε A) (ctx : Context)
    (outputs : groupedByDenomAccountOperations) (denom : String) (inOps : accountOperationMap)
    (s : σ) (log : List (KeeperLogEntry ε A))
    (hres : isUnmanaged k (k.GetDefinition denom s).2 = false)
    (hok : (applyRulesDenom k ctx outputs denom inOps s).2 = none) :
    ∃ issuer, k.accAddressFromBech32 (k.GetDefinition denom s).1.Issuer = some issuer ∧
      (applyRulesDenom (recordKeeper k) ctx outputs denom inOps (s, log)).1.2
        = log ++ (tokenCalls k ctx (k.GetDefinition denom s).1 issuer inOps
            (mapGet outputs denom)).map succeeded ∧
      tokenCalls k ctx (k.GetDefinition denom s).1 issuer inOps (mapGet outputs denom)
        = callsOver k.accAddressFromBech32
            (CalculateRateShares ctx (k.GetDefinition denom s).1.BurnRate
              (k.GetDefinition denom s).1.Issuer inOps (mapGet outputs denom))
            (fun address amount =>
              KeeperCall.burnIfSpendable address (k.GetDefinition denom s).1 amount)
          ++ callsOver k.accAddressFromBech32
            (CalculateRateShares ctx (k.GetDefinition denom s).1.SendCommissionRate
              (k.GetDefinition denom s).1.Issuer inOps (mapGet outputs denom))
            (fun address amount => KeeperCall.SendCoins address issuer
              (NewCoins [((k.GetDefinition denom s).1.Denom, amount)]))
          ++ callsOver k.accAddressFromBech32 inOps
            (fun address amount =>
              KeeperCall.isCoinSpendable address (k.GetDefinition denom s).1 amount)
          ++ callsOver k.accAddressFromBech32 (mapGet outputs denom)
            (fun address amount =>
              KeeperCall.isCoinReceivable address (k.GetDefinition denom s).1 amount) ∧
      (∀ account ∈ mapKeys inOps, ∃ address, k.accAddressFromBech32 account = some address) ∧
      (∀ account ∈ mapKeys (mapGet outputs denom),
        ∃ address, k.accAddressFromBech32 account = some address) := by
  obtain ⟨calls, hrun, -⟩ := instruments_applyRulesDenom k ctx outputs denom inOps s log
  have hokI : (applyRulesDenom (recordKeeper k) ctx outputs denom inOps (s, log)).2 = none := by
    rw [hrun]
    exact hok
  have hstep : applyRulesDenom (recordKeeper k) ctx outputs denom inOps (s, log)
      = applyRulesToken (recordKeeper k) ctx (k.GetDefinition denom s).1 inOps
          (mapGet outputs denom) (s, log) := by
    unfold applyRulesDenom
    have h1 : (recordKeeper k).GetDefinition denom (s, log) = k.GetDefinition denom s := rfl
    have h2 : ∀ err, isUnmanaged (recordKeeper k) err = isUnmanaged k err := fun _ => rfl
    simp only [h1, h2, hres]
    rfl
  rw [hstep] at hokI ⊢
  obtain ⟨issuer, hiss, hlog, hin, hout⟩ :=
    applyRulesToken_calls k ctx (k.GetDefinition denom s).1 inOps (mapGet outputs denom)
      (s, log) hokI
  exact ⟨issuer, hiss, hlog, rfl, hin, hout⟩

theorem applyRules_call_order_witness :
    isUnmanaged sampleKeeper (sampleKeeper.GetDefinition "utoken-issuer" 0).2 = false ∧
    (applyRulesDenom sampleKeeper plainContext [("utoken-issuer", [("bob", 100)])]
      "utoken-issuer" [("alice", 100)] 0).2 = none ∧
    tokenCalls sampleKeeper plainContext sampleDefinition "issuer" [("alice", 100)]
        [("bob", 100)]
      = [KeeperCall.burnIfSpendable "alice" sampleDefinition 10,
          KeeperCall.SendCoins "alice" "issuer" [("utoken-issuer", 10)],
          KeeperCall.isCoinSpendable "alice" sampleDefinition 100,
          KeeperCall.isCoinReceivable "bob" sampleDefinition 100] ∧
    ∃ issuer,
      sampleKeeper.accAddressFromBech32 (sampleKeeper.GetDefinition "utoken-issuer" 0).1.Issuer
        = some issuer ∧
      (applyRulesDenom (recordKeeper sampleKeeper) plainContext
          [("utoken-issuer", [("bob", 100)])] "utoken-issuer" [("alice", 100)] (0, [])).1.2
        = [] ++ (tokenCalls sampleKeeper plainContext
            (sampleKeeper.GetDefinition "utoken-issuer" 0).1 issuer [("alice", 100)]
            (mapGet [("utoken-issuer", [("bob", 100)])] "utoken-issuer")).map succeeded :=
  ⟨by decide, by decide, by decide,
    (applyRules_call_order sampleKeeper plainContext [("utoken-issuer", [("bob", 100)])]
      "utoken-issuer" [("alice", 100)] 0 [] (by decide) (by decide)).imp
      (fun _ h => ⟨h.1, h.2.1⟩)⟩

/-- C23, as the claim words it, fails: in the batch with the single input of alice carrying 5
core and the single output of bob carrying 5 of the managed token utoken-issuer, no input
carries the managed token; applyFeatures returns nil and issues no call at all, so
isCoinReceivable is not called for bob. -/
theorem applyFeatures_output_only_token_counterexample :
    isUnmanaged sampleKeeper (sampleKeeper.GetDefinition "utoken-issuer" 0).2 = false ∧
    "utoken-issuer" ∉ inputDenoms [⟨"alice", [("core", 5)]⟩] ∧
    "bob" ∈ mapKeys (mapGet (groupOutputs [⟨"bob", [("utoken-issuer", 5)]⟩]) "utoken-issuer") ∧
    applyFeatures sampleKeeper plainContext [⟨"alice", [("core", 5)]⟩]
      [⟨"bob", [("utoken-issuer", 5)]⟩] 0 = (0, none) ∧
    keeperCalls sampleKeeper plainContext [⟨"alice", [("core", 5)]⟩]
      [⟨"bob", [("utoken-issuer", 5)]⟩] 0 = [] := by
  decide

/-- C23, amended: for every batch and every managed token that some input of the batch
carries, when no step fails applyFeatures calls isCoinReceivable, with the definition of the
token and the gross amount received, for every account that receives that token in the
outputs; the outputs of a token that no input of the batch carries are not processed: removing
every coin of such a token from the outputs changes neither the result nor the calls.  The
gross amount is the sum of the amounts of all coins of the token over all outputs of the
account. -/
theorem applyFeatures_checks_outputs_of_input_tokens {σ ε A : Type} (k : Keeper σ ε A)
    (ctx : Context) (inputs : List Input) (outputs : List Output) (s : σ)
    (hok : (applyFeatures k ctx inputs outputs s).2 = none) :
    (∀ denom, denom ∈ inputDenoms inputs →
      (∀ s0, isUnmanaged k (k.GetDefinition denom s0).2 = false) →
      ∀ o ∈ outputs, (∃ c ∈ o.Coins, c.1 = denom) →
      ∃ address s0, k.accAddressFromBech32 o.Address = some address ∧
        succeeded (KeeperCall.isCoinReceivable address (k.GetDefinition denom s0).1
            (carriedAmounts (outputs.map (fun o => (o.Address, o.Coins))) denom o.Address).sum)
          ∈ keeperCalls k ctx inputs outputs s) ∧
    (∀ other, other ∉ inputDenoms inputs →
      applyFeatures k ctx inputs (withoutDenom other outputs) s
        = applyFeatures k ctx inputs outputs s ∧
      keeperCalls k ctx inputs (withoutDenom other outputs) s
        = keeperCalls k ctx inputs outputs s) := by
  constructor
  · intro denom hin hman o ho hcoin
    have hacc : o.Address ∈ mapKeys (mapGet (groupOutputs outputs) denom) :=
      (mem_mapKeys_groupOutputs outputs denom o.Address).mpr ⟨o, ho, rfl, hcoin⟩
    have hamt := (groupOperations_spec (outputs.map (fun o => (o.Address, o.Coins)))).2.2.2.2
      denom o.Address
    rw [← groupOutputs_eq] at hamt
    rw [← hamt]
    exact receivable_call_of_managed_input k ctx (groupInputs inputs) (groupOutputs outputs) s
      hok denom ((mem_mapKeys_groupInputs inputs denom).mpr hin) hman o.Address hacc
  · intro other hother
    refine ⟨applyFeatures_withoutDenom k ctx inputs outputs other hother s, ?_⟩
    unfold keeperCalls
    rw [applyFeatures_withoutDenom (recordKeeper k) ctx inputs outputs other hother (s, [])]

theorem applyFeatures_checks_outputs_of_input_tokens_witness :
    (applyFeatures sampleKeeper plainContext [⟨"alice", [("utoken-issuer", 100)]⟩]
      [⟨"bob", [("utoken-issuer", 100), ("other-issuer", 5)]⟩] 0).2 = none ∧
    "utoken-issuer" ∈ inputDenoms [⟨"alice", [("utoken-issuer", 100)]⟩] ∧
    (∀ s0 : Nat,
      isUnmanaged sampleKeeper (sampleKeeper.GetDefinition "utoken-issuer" s0).2 = false) ∧
    (∃ address s0, sampleKeeper.accAddressFromBech32 "bob" = some address ∧
      succeeded (KeeperCall.isCoinReceivable address
          (sampleKeeper.GetDefinition "utoken-issuer" s0).1
          (carriedAmounts
            (([⟨"bob", [("utoken-issuer", 100), ("other-issuer", 5)]⟩] : List Output).map
              (fun o => (o.Address, o.Coins))) "utoken-issuer" "bob").sum)
        ∈ keeperCalls sampleKeeper plainContext [⟨"alice", [("utoken-issuer", 100)]⟩]
            [⟨"bob", [("utoken-issuer", 100), ("other-issuer", 5)]⟩] 0) ∧
    "other-issuer" ∉ inputDenoms [⟨"alice", [("utoken-issuer", 100)]⟩] ∧
    withoutDenom "other-issuer" [⟨"bob", [("utoken-issuer", 100), ("other-issuer", 5)]⟩]
      = [⟨"bob", [("utoken-issuer", 100)]⟩] ∧
    keeperCalls sampleKeeper plainContext [⟨"alice", [("utoken-issuer", 100)]⟩]
        (withoutDenom "other-issuer"
          [⟨"bob", [("utoken-issuer", 100), ("other-issuer", 5)]⟩]) 0
      = keeperCalls sampleKeeper plainContext [⟨"alice", [("utoken-issuer", 100)]⟩]
        [⟨"bob", [("utoken-issuer", 100), ("other-issuer", 5)]⟩] 0 :=
  ⟨by decide, by decide, fun _ => rfl,
    (applyFeatures_checks_outputs_of_input_tokens sampleKeeper plainContext
      [⟨"alice", [("utoken-issuer", 100)]⟩]
      [⟨"bob", [("utoken-issuer", 100), ("other-issuer", 5)]⟩] 0 (by decide)).1
      "utoken-issuer" (by decide) (fun _ => rfl)
      ⟨"bob", [("utoken-issuer", 100), ("other-issuer", 5)]⟩ (by decide) (by decide),
    by decide, by decide,
    ((applyFeatures_checks_outputs_of_input_tokens sampleKeeper plainContext
      [⟨"alice", [("utoken-issuer", 100)]⟩]
      [⟨"bob", [("utoken-issuer", 100), ("other-issuer", 5)]⟩] 0 (by decide)).2
      "other-issuer" (by decide)).2⟩

/-- C26: permuting the entries of the inputs list or of the outputs list changes neither the
result of applyFeatures (the store it leaves and the error or panic it ends with) nor the
sequence of burn, transfer and check calls, with their arguments and returned errors, that it
issues; the collaborators are functions of the store.  More generally applyRules gives the
same result and the same calls on any two pairs of grouped maps with the same content, in
whatever order the maps are traversed. -/
theorem applyFeatures_permutation_invariant {σ ε A : Type} (k : Keeper σ ε A) (ctx : Context)
    (inputs1 inputs2 : List Input) (outputs1 outputs2 : List Output) (s : σ)
    (hin : inputs1.Perm inputs2) (hout : outputs1.Perm outputs2) :
    applyFeatures k ctx inputs1 outputs1 s = applyFeatures k ctx inputs2 outputs2 s ∧
    keeperCalls k ctx inputs1 outputs1 s = keeperCalls k ctx inputs2 outputs2 s ∧
    (∀ g1 g2 o1 o2 : groupedByDenomAccountOperations, SameGroups g1 g2 → SameGroups o1 o2 →
      applyRules k ctx g1 o1 s = applyRules k ctx g2 o2 s ∧
      (applyRules (recordKeeper k) ctx g1 o1 (s, [])).1.2
        = (applyRules (recordKeeper k) ctx g2 o2 (s, [])).1.2) := by
  refine ⟨applyFeatures_perm k ctx hin hout s, ?_, ?_⟩
  · unfold keeperCalls
    rw [applyFeatures_perm (recordKeeper k) ctx hin hout (s, [])]
  · intro g1 g2 o1 o2 hg ho
    refine ⟨applyRules_congr k ctx hg ho.2.2.2 s, ?_⟩
    rw [applyRules_congr (recordKeeper k) ctx hg ho.2.2.2 (s, [])]

theorem applyFeatures_permutation_invariant_witness :
    ([⟨"carol", [("utoken-issuer", 50)]⟩, ⟨"alice", [("utoken-issuer", 100)]⟩] : List Input).Perm
      [⟨"alice", [("utoken-issuer", 100)]⟩, ⟨"carol", [("utoken-issuer", 50)]⟩] ∧
    ([⟨"bob", [("utoken-issuer", 70)]⟩, ⟨"dave", [("utoken-issuer", 80)]⟩] : List Output).Perm
      [⟨"dave", [("utoken-issuer", 80)]⟩, ⟨"bob", [("utoken-issuer", 70)]⟩] ∧
    applyFeatures sampleKeeper plainContext
        [⟨"carol", [("utoken-issuer", 50)]⟩, ⟨"alice", [("utoken-issuer", 100)]⟩]
        [⟨"bob", [("utoken-issuer", 70)]⟩, ⟨"dave", [("utoken-issuer", 80)]⟩] 0
      = applyFeatures sampleKeeper plainContext
        [⟨"alice", [("utoken-issuer", 100)]⟩, ⟨"carol", [("utoken-issuer", 50)]⟩]
        [⟨"dave", [("utoken-issuer", 80)]⟩, ⟨"bob", [("utoken-issuer", 70)]⟩] 0 ∧
    keeperCalls sampleKeeper plainContext
        [⟨"carol", [("utoken-issuer", 50)]⟩, ⟨"alice", [("utoken-issuer", 100)]⟩]
        [⟨"bob", [("utoken-issuer", 70)]⟩, ⟨"dave", [("utoken-issuer", 80)]⟩] 0
      = keeperCalls sampleKeeper plainContext
        [⟨"alice", [("utoken-issuer", 100)]⟩, ⟨"carol", [("utoken-issuer", 50)]⟩]
        [⟨"dave", [("utoken-issuer", 80)]⟩, ⟨"bob", [("utoken-issuer", 70)]⟩] 0 ∧
    (keeperCalls sampleKeeper plainContext
        [⟨"carol", [("utoken-issuer", 50)]⟩, ⟨"alice", [("utoken-issuer", 100)]⟩]
        [⟨"bob", [("utoken-issuer", 70)]⟩, ⟨"dave", [("utoken-issuer", 80)]⟩] 0).map
          (fun c => c.call)
      = [KeeperCall.burnIfSpendable "alice" sampleDefinition 10,
          KeeperCall.burnIfSpendable "carol" sampleDefinition 5,
          KeeperCall.SendCoins "alice" "issuer" [("utoken-issuer", 10)],
          KeeperCall.SendCoins "carol" "issuer" [("utoken-issuer", 5)],
          KeeperCall.isCoinSpendable "alice" sampleDefinition 100,
          KeeperCall.isCoinSpendable "carol" sampleDefinition 50,
          KeeperCall.isCoinReceivable "bob" sampleDefinition 70,
          KeeperCall.isCoinReceivable "dave" sampleDefinition 80] :=
  ⟨List.Perm.swap _ _ _, List.Perm.swap _ _ _,
    (applyFeatures_permutation_invariant sampleKeeper plainContext _ _ _ _ 0
      (List.Perm.swap _ _ _) (List.Perm.swap _ _ _)).1,
    (applyFeatures_permutation_invariant sampleKeeper plainContext _ _ _ _ 0
      (List.Perm.swap _ _ _) (List.Perm.swap _ _ _)).2.1,
    by decide⟩

end Coreum
